import Mathlib

/-!
Verification of `apps/electron/src/main/migrate-config.ts`: the
legacy-to-canonical configuration directory synchronizer.

The filesystem is modelled as two optional trees (the legacy root
`~/.craft-agent` and the canonical root `~/.ws-workspace`); the two roots are
disjoint paths, so a location is a side plus a path of name components
relative to that side's root.  File contents are byte strings; a file carries
its modification time as a natural number.  Directory nodes carry no
metadata: `statSync` on a directory reports mtime 0 and size 0, which is
harmless because every comparison that could observe directory metadata is
followed by a `cpSync` call that fails on a directory operand, so the
resulting state and count never depend on those values.

Node `fs` primitives are modelled after their documented semantics:
- `existsSync` never throws and reports presence of the path;
- `statSync` fails on a missing path;
- `mkdirSync` with `recursive: true` succeeds on an existing directory,
  fails if the path or one of its ancestors exists as a regular file;
- `cpSync` without `recursive` copies one regular file, failing if the
  source is a directory or the destination exists as a directory; it does
  not preserve timestamps (`preserveTimestamps` defaults to `false`), so the
  written file's mtime is the current clock value `now`;
- `cpSync` with `recursive` copies a whole subtree, merging into an existing
  destination directory and overwriting files (`force` defaults to `true`);
- `readdirSync` fails on a missing path or a regular file.

Every primitive additionally consults an error oracle `σ : Op → Bool` so
that spontaneous I/O failures (permission denied, disk error, a path
disappearing between check and use) can be injected at any call site; a
failed primitive leaves the state unchanged (failing operations are
modelled as atomic).  The translation of the TypeScript mirrors the source
control flow: each `try { … } catch { … }` block becomes a `match` on the
`Except` result of the fallible operations inside it, and the state reached
before the failing operation persists, exactly as on a real filesystem.
Log lines are omitted (the logger is an external collaborator).
-/

namespace MigrateConfig

/-- A filesystem node: a regular file with byte content and mtime, or a
directory with a list of named children. -/
inductive FSNode where
  | file (content : String) (mtime : Nat)
  | dir (entries : List (String × FSNode))

/-- Look a name up in a directory entry list. -/
def lookupEntry : List (String × FSNode) → String → Option FSNode
  | [], _ => none
  | (k, v) :: es, name => if k = name then some v else lookupEntry es name

/-- Replace the entry named `name` (first occurrence), or append it. -/
def updEntries : List (String × FSNode) → String → FSNode → List (String × FSNode)
  | [], name, v => [(name, v)]
  | (k, w) :: es, name, v =>
    if k = name then (k, v) :: es else (k, w) :: updEntries es name v

/-- Resolve a relative path inside a node.  Descending into a regular file
yields `none` (ENOTDIR). -/
def FSNode.find? (n : FSNode) : List String → Option FSNode
  | [] => some n
  | p :: ps =>
    match n with
    | .file _ _ => none
    | .dir es =>
      match lookupEntry es p with
      | some c => c.find? ps
      | none => none

/-- A chain of empty directories along the given path. -/
def mkDirs : List String → FSNode
  | [] => .dir []
  | p :: ps => .dir [(p, mkDirs ps)]

/-- Recursive directory creation inside an existing node (`mkdir -p`):
succeeds if the path already exists as a directory, fails if the path or an
ancestor exists as a regular file. -/
def mkdirpN : FSNode → List String → Option FSNode
  | .file _ _, [] => none
  | .dir es, [] => some (.dir es)
  | .file _ _, _ :: _ => none
  | .dir es, p :: ps =>
    match lookupEntry es p with
    | some c => (mkdirpN c ps).map (fun c' => .dir (updEntries es p c'))
    | none => some (.dir (updEntries es p (mkDirs ps)))

/-- Recursive directory creation from an optional root (the root itself is
created when absent). -/
def mkdirp : Option FSNode → List String → Option FSNode
  | none, p => some (mkDirs p)
  | some n, p => mkdirpN n p

/-- Place `v` at the given path.  Every proper ancestor of the final
component must already exist as a directory; the final entry is replaced or
created.  Placing at `[]` replaces the node wholesale. -/
def placeAt : FSNode → List String → FSNode → Option FSNode
  | _, [], v => some v
  | .file _ _, _ :: _, _ => none
  | .dir es, p :: ps, v =>
    match ps with
    | [] => some (.dir (updEntries es p v))
    | _ :: _ =>
      match lookupEntry es p with
      | some c => (placeAt c ps v).map (fun c' => .dir (updEntries es p c'))
      | none => none

/-- Write `v` at a path under an optional root.  Fails when the root is
absent or an ancestor is missing or is a regular file. -/
def writeAt (root : Option FSNode) (p : List String) (v : FSNode) :
    Option (Option FSNode) :=
  match root, p with
  | _, [] => some (some v)
  | none, _ :: _ => none
  | some r, q :: qs => (placeAt r (q :: qs) v).map some

mutual
/-- A fresh copy of a subtree; the copied files are stamped with the current
time `now` (`cpSync` does not preserve timestamps by default). -/
def cpNode (now : Nat) : FSNode → FSNode
  | .file c _ => .file c now
  | .dir es => .dir (cpEntries now es)

/-- Copy of a directory entry list, see `cpNode`. -/
def cpEntries (now : Nat) : List (String × FSNode) → List (String × FSNode)
  | [] => []
  | (k, v) :: es => (k, cpNode now v) :: cpEntries now es
end

mutual
/-- Recursive copy of `src` onto an existing destination node, after
`cpSync` with `recursive: true` and the default `force: true`: a file
overwrites a file, directories merge entrywise, and a file/directory
mismatch is an error. -/
def mergeCp (now : Nat) : FSNode → FSNode → Option FSNode
  | .file c _, .file _ _ => some (.file c now)
  | .file _ _, .dir _ => none
  | .dir _, .file _ _ => none
  | .dir es, .dir es' => (mergeEntries now es es').map .dir

/-- Merge the source entries `es` into the destination entries `acc`. -/
def mergeEntries (now : Nat) :
    List (String × FSNode) → List (String × FSNode) →
    Option (List (String × FSNode))
  | [], acc => some acc
  | (k, v) :: es, acc =>
    match lookupEntry acc k with
    | none => mergeEntries now es (updEntries acc k (cpNode now v))
    | some d => (mergeCp now v d).bind (fun m => mergeEntries now es (updEntries acc k m))
end

/-- Reported modification time of a node (directory metadata is modelled as
0; it is never behaviour-relevant, see the header comment). -/
def FSNode.mtime : FSNode → Nat
  | .file _ m => m
  | .dir _ => 0

/-- Reported byte size of a node (directory metadata is modelled as 0; it is
never behaviour-relevant, see the header comment). -/
def FSNode.size : FSNode → Nat
  | .file c _ => c.length
  | .dir _ => 0

/-- Whether a node is a directory (`stats.isDirectory()`). -/
def FSNode.isDir : FSNode → Bool
  | .dir _ => true
  | .file _ _ => false

/-- Which of the two roots a path is relative to. -/
inductive Side where
  | legacy
  | canonical
deriving DecidableEq

/-- The filesystem state: the two trees rooted at `~/.craft-agent`
(legacy) and at `CONFIG_DIR` (canonical); `none` means the root itself does
not exist. -/
structure FS where
  legacyTree : Option FSNode
  canonicalTree : Option FSNode

/-- The tree of the given side. -/
def FS.tree (fs : FS) : Side → Option FSNode
  | .legacy => fs.legacyTree
  | .canonical => fs.canonicalTree

/-- Replace the tree of the given side. -/
def FS.setTree (fs : FS) : Side → Option FSNode → FS
  | .legacy, t => { fs with legacyTree := t }
  | .canonical, t => { fs with canonicalTree := t }

/-- An absolute location: a side and a path relative to that side's root
(the two roots are disjoint, so every absolute path in the source is of this
shape). -/
structure Loc where
  side : Side
  path : List String
deriving DecidableEq

/-- `join(l, name)`. -/
def Loc.child (l : Loc) (name : String) : Loc :=
  ⟨l.side, l.path ++ [name]⟩

/-- `join(l, '..')`. -/
def Loc.parent (l : Loc) : Loc :=
  ⟨l.side, l.path.dropLast⟩

/-- Resolve a location in the filesystem state. -/
def resolve (fs : FS) (l : Loc) : Option FSNode :=
  match fs.tree l.side with
  | none => none
  | some r => r.find? l.path

/-- The `existsSync` primitive: never throws, reports presence. -/
def existsL (fs : FS) (l : Loc) : Bool :=
  (resolve fs l).isSome

/-- A fallible filesystem operation, for the error oracle. -/
inductive Op where
  | stat (s : Side) (p : List String)
  | mkdir (s : Side) (p : List String)
  | cp (src : Side × List String) (dst : Side × List String) (recursive : Bool)
  | readdir (s : Side) (p : List String)
deriving DecidableEq

/-- The error oracle: `true` means the operation fails with an I/O error. -/
def Oracle : Type := Op → Bool

/-- The oracle under which no spontaneous I/O error occurs. -/
def noErr : Oracle := fun _ => false

/-- The `statSync` primitive. -/
def statS (σ : Oracle) (fs : FS) (l : Loc) : Except Unit FSNode :=
  if σ (.stat l.side l.path) then .error () else
    match resolve fs l with
    | some n => .ok n
    | none => .error ()

/-- The `mkdirSync(_, { recursive: true })` primitive. -/
def mkdirS (σ : Oracle) (fs : FS) (l : Loc) : Except Unit FS :=
  if σ (.mkdir l.side l.path) then .error () else
    match mkdirp (fs.tree l.side) l.path with
    | some r => .ok (fs.setTree l.side (some r))
    | none => .error ()

/-- The `cpSync(src, dst)` primitive (single regular file; the written file
is stamped with the current time). -/
def cpFileS (σ : Oracle) (now : Nat) (fs : FS) (src dst : Loc) : Except Unit FS :=
  if σ (.cp (src.side, src.path) (dst.side, dst.path) false) then .error () else
    match resolve fs src with
    | some (.file c _) =>
      match resolve fs dst with
      | some (.dir _) => .error ()
      | _ =>
        match writeAt (fs.tree dst.side) dst.path (.file c now) with
        | some r => .ok (fs.setTree dst.side r)
        | none => .error ()
    | _ => .error ()

/-- The `cpSync(src, dst, { recursive: true })` primitive. -/
def cpRecS (σ : Oracle) (now : Nat) (fs : FS) (src dst : Loc) : Except Unit FS :=
  if σ (.cp (src.side, src.path) (dst.side, dst.path) true) then .error () else
    match resolve fs src with
    | none => .error ()
    | some sn =>
      match resolve fs dst with
      | none =>
        match writeAt (fs.tree dst.side) dst.path (cpNode now sn) with
        | some r => .ok (fs.setTree dst.side r)
        | none => .error ()
      | some dn =>
        match mergeCp now sn dn with
        | none => .error ()
        | some m =>
          match writeAt (fs.tree dst.side) dst.path m with
          | some r => .ok (fs.setTree dst.side r)
          | none => .error ()

/-- The `readdirSync` primitive. -/
def readdirS (σ : Oracle) (fs : FS) (l : Loc) : Except Unit (List String) :=
  if σ (.readdir l.side l.path) then .error () else
    match resolve fs l with
    | some (.dir es) => .ok (es.map Prod.fst)
    | _ => .error ()

/-- `LEGACY_DIR`, the legacy root. -/
def LEGACY_ROOT : Loc := ⟨.legacy, []⟩

/-- `CONFIG_DIR`, the canonical root. -/
def CONFIG_ROOT : Loc := ⟨.canonical, []⟩

/-- The `topLevelFiles` table of `migrateFromLegacyConfigDir`. -/
def topLevelFiles : List String :=
  ["credentials.enc", "config.json", "preferences.json", "drafts.json",
   "config-defaults.json"]

/-- The `topLevelDirs` table of `migrateFromLegacyConfigDir`. -/
def topLevelDirs : List String :=
  ["permissions", "themes", "tool-icons", "docs", "release-notes", "logs",
   "mcp-servers"]

/-- The per-workspace file table of `syncWorkspaces`. -/
def workspaceFiles : List String :=
  ["config.json", "hooks.json", "views.json", "projects.json"]

/-- The per-workspace subdirectory table of `syncWorkspaces`. -/
def workspaceSubdirs : List String :=
  ["sessions", "sources", "skills", "labels", "scripts", "statuses"]

/-- Translation of `syncFile` (migrate-config.ts:102): copy if the target is
missing, or if the source has a strictly greater mtime; every fallible
operation is inside one of the two `try` blocks, whose `catch` returns
`false` with the state reached so far. -/
def syncFile (σ : Oracle) (now : Nat) (fs : FS) (source target : Loc) :
    FS × Bool :=
  if ¬ existsL fs source then (fs, false)
  else if ¬ existsL fs target then
    match (if existsL fs target.parent then Except.ok fs
           else mkdirS σ fs target.parent) with
    | .error _ => (fs, false)
    | .ok fs1 =>
      match cpFileS σ now fs1 source target with
      | .error _ => (fs1, false)
      | .ok fs2 => (fs2, true)
  else
    match statS σ fs source with
    | .error _ => (fs, false)
    | .ok sn =>
      match statS σ fs target with
      | .error _ => (fs, false)
      | .ok tn =>
        if sn.mtime > tn.mtime then
          match cpFileS σ now fs source target with
          | .error _ => (fs, false)
          | .ok fs2 => (fs2, true)
        else (fs, false)

/-- Translation of `syncEventsFile` (migrate-config.ts:196): the append-only
log is copied when the target is missing or the source is strictly larger. -/
def syncEventsFile (σ : Oracle) (now : Nat) (fs : FS) (legacyWs targetWs : Loc) :
    FS × Nat :=
  let source := legacyWs.child "events.jsonl"
  let target := targetWs.child "events.jsonl"
  if ¬ existsL fs source then (fs, 0)
  else if ¬ existsL fs target then
    match cpFileS σ now fs source target with
    | .error _ => (fs, 0)
    | .ok fs1 => (fs1, 1)
  else
    match statS σ fs source with
    | .error _ => (fs, 0)
    | .ok sn =>
      match statS σ fs target with
      | .error _ => (fs, 0)
      | .ok tn =>
        if sn.size > tn.size then
          match cpFileS σ now fs source target with
          | .error _ => (fs, 0)
          | .ok fs1 => (fs1, 1)
        else (fs, 0)

/-- Body of the per-entry loop of `syncSubdirectory` (migrate-config.ts:256):
copy one legacy entry when the corresponding target entry is absent; an
error is caught and counted as zero. -/
def syncEntryStep (σ : Oracle) (now : Nat) (sourceDir targetDir : Loc)
    (acc : FS × Nat) (entry : String) : FS × Nat :=
  let sourceEntry := sourceDir.child entry
  let targetEntry := targetDir.child entry
  if ¬ existsL acc.1 targetEntry then
    match cpRecS σ now acc.1 sourceEntry targetEntry with
    | .error _ => acc
    | .ok fs1 => (fs1, acc.2 + 1)
  else acc

/-- Translation of `syncSubdirectory` (migrate-config.ts:233): copy the whole
directory when the target side has none, otherwise copy the individual
missing entries.  The outer `try` of the source can only be tripped by
`readdirSync` (every operation of the loop body is inside the inner
`try`/`catch` or non-throwing), so its `catch` returns count 0. -/
def syncSubdirectory (σ : Oracle) (now : Nat) (fs : FS) (legacyWs targetWs : Loc)
    (subdir : String) : FS × Nat :=
  let sourceDir := legacyWs.child subdir
  let targetDir := targetWs.child subdir
  if ¬ existsL fs sourceDir then (fs, 0)
  else if ¬ existsL fs targetDir then
    match cpRecS σ now fs sourceDir targetDir with
    | .error _ => (fs, 0)
    | .ok fs1 => (fs1, 1)
  else
    match readdirS σ fs sourceDir with
    | .error _ => (fs, 0)
    | .ok entries => entries.foldl (syncEntryStep σ now sourceDir targetDir) (fs, 0)

/-- Body of the per-file loop inside the both-sides branch of
`syncWorkspaces` (migrate-config.ts:172). -/
def wsFileStep (σ : Oracle) (now : Nat) (legacyWs targetWs : Loc)
    (acc : FS × Nat) (file : String) : FS × Nat :=
  let r := syncFile σ now acc.1 (legacyWs.child file) (targetWs.child file)
  (r.1, if r.2 then acc.2 + 1 else acc.2)

/-- Body of the per-subdirectory loop inside the both-sides branch of
`syncWorkspaces` (migrate-config.ts:182). -/
def wsSubdirStep (σ : Oracle) (now : Nat) (legacyWs targetWs : Loc)
    (acc : FS × Nat) (subdir : String) : FS × Nat :=
  let r := syncSubdirectory σ now acc.1 legacyWs targetWs subdir
  (r.1, acc.2 + r.2)

/-- The both-sides branch of the per-slug loop of `syncWorkspaces`
(migrate-config.ts:170): reconcile the four workspace files, then
`events.jsonl`, then the six sub-collections. -/
def syncWorkspaceParts (σ : Oracle) (now : Nat) (fs : FS)
    (legacyWs targetWs : Loc) : FS × Nat :=
  let afterFiles := workspaceFiles.foldl (wsFileStep σ now legacyWs targetWs) (fs, 0)
  let r := syncEventsFile σ now afterFiles.1 legacyWs targetWs
  let afterEvents := (r.1, afterFiles.2 + r.2)
  workspaceSubdirs.foldl (wsSubdirStep σ now legacyWs targetWs) afterEvents

/-- Body of the per-slug loop of `syncWorkspaces` (migrate-config.ts:153):
when the canonical workspace is absent, `mkdirSync` it and copy the whole
legacy subtree (one `try`: a `mkdirSync` failure skips the copy, a copy
failure keeps the directory just created); otherwise reconcile the parts. -/
def syncWorkspaceSlug (σ : Oracle) (now : Nat) (acc : FS × Nat)
    (slug : String) : FS × Nat :=
  let fs := acc.1
  let legacyWs : Loc := ⟨.legacy, ["workspaces", slug]⟩
  let targetWs : Loc := ⟨.canonical, ["workspaces", slug]⟩
  if ¬ existsL fs targetWs then
    match mkdirS σ fs targetWs with
    | .error _ => acc
    | .ok fs1 =>
      match cpRecS σ now fs1 legacyWs targetWs with
      | .error _ => (fs1, acc.2)
      | .ok fs2 => (fs2, acc.2 + 1)
  else
    let r := syncWorkspaceParts σ now fs legacyWs targetWs
    (r.1, acc.2 + r.2)

/-- Translation of `syncWorkspaces` (migrate-config.ts:140).  The `try`
around the enumeration and the loop can only be tripped by the initial
`readdirSync` (the `statSync` of the slug filter and every loop operation
is individually caught), so its `catch` returns count 0. -/
def syncWorkspaces (σ : Oracle) (now : Nat) (fs : FS) : FS × Nat :=
  let legacyWorkspacesDir : Loc := ⟨.legacy, ["workspaces"]⟩
  if ¬ existsL fs legacyWorkspacesDir then (fs, 0)
  else
    match readdirS σ fs legacyWorkspacesDir with
    | .error _ => (fs, 0)
    | .ok entries =>
      let workspaceSlugs := entries.filter (fun e =>
        match statS σ fs (legacyWorkspacesDir.child e) with
        | .ok n => n.isDir
        | .error _ => false)
      workspaceSlugs.foldl (syncWorkspaceSlug σ now) (fs, 0)

/-- Body of the top-level file loop of `migrateFromLegacyConfigDir`
(migrate-config.ts:54). -/
def topFileStep (σ : Oracle) (now : Nat) (acc : FS × Nat) (file : String) :
    FS × Nat :=
  let r := syncFile σ now acc.1 ⟨.legacy, [file]⟩ ⟨.canonical, [file]⟩
  (r.1, if r.2 then acc.2 + 1 else acc.2)

/-- Body of the top-level directory loop of `migrateFromLegacyConfigDir`
(migrate-config.ts:71): copy the whole directory only when the canonical
side has none; a copy error is caught and counted as zero. -/
def topDirStep (σ : Oracle) (now : Nat) (acc : FS × Nat) (dirName : String) :
    FS × Nat :=
  let source : Loc := ⟨.legacy, [dirName]⟩
  let target : Loc := ⟨.canonical, [dirName]⟩
  if ¬ existsL acc.1 source then acc
  else if ¬ existsL acc.1 target then
    match cpRecS σ now acc.1 source target with
    | .error _ => acc
    | .ok fs1 => (fs1, acc.2 + 1)
  else acc

/-- Translation of the body of `migrateFromLegacyConfigDir`
(migrate-config.ts:32), keeping the local `syncedCount` visible in the
result so that the logged aggregate can be reasoned about.  The
`mkdirSync(CONFIG_DIR, { recursive: true })` at line 40 is not inside any
`try`, so its failure escapes the function: that is the `.error` case, which
carries the (unchanged) state at the throw. -/
def migrateCore (σ : Oracle) (now : Nat) (fs : FS) : Except FS (FS × Nat) :=
  if ¬ existsL fs LEGACY_ROOT then .ok (fs, 0)
  else
    match (if existsL fs CONFIG_ROOT then Except.ok fs
           else mkdirS σ fs CONFIG_ROOT) with
    | .error _ => .error fs
    | .ok fs0 =>
      let afterFiles := topLevelFiles.foldl (topFileStep σ now) (fs0, 0)
      let afterDirs := topLevelDirs.foldl (topDirStep σ now) afterFiles
      let r := syncWorkspaces σ now afterDirs.1
      .ok (r.1, afterDirs.2 + r.2)

/-- Translation of `migrateFromLegacyConfigDir` as seen by its caller: the
TypeScript signature is `(): void`, so the returned value is `Unit`; the
aggregate `syncedCount` is a local used only for logging and is not
returned. -/
def migrateFromLegacyConfigDir (σ : Oracle) (now : Nat) (fs : FS) :
    Except FS (FS × Unit) :=
  (migrateCore σ now fs).map (fun r => (r.1, ()))

/-! ### Basic lemmas about the tree operations -/

theorem lookupEntry_upd (es : List (String × FSNode)) (k : String) (v : FSNode)
    (k' : String) :
    lookupEntry (updEntries es k v) k' =
      if k = k' then some v else lookupEntry es k' := by
  induction es with
  | nil =>
    by_cases h : k = k' <;> simp [updEntries, lookupEntry, h]
  | cons e es ih =>
    obtain ⟨a, w⟩ := e
    by_cases hak : a = k
    · subst hak
      by_cases h : a = k' <;> simp [updEntries, lookupEntry, h]
    · have h1 : updEntries ((a, w) :: es) k v = (a, w) :: updEntries es k v := by
        simp [updEntries, hak]
      rw [h1]
      by_cases hak' : a = k'
      · subst hak'
        have hne : ¬ k = a := fun hh => hak hh.symm
        simp [lookupEntry, hne]
      · simp [lookupEntry, hak', ih]

theorem find?_nil (n : FSNode) : n.find? [] = some n := rfl

theorem find?_cons_dir (es : List (String × FSNode)) (a : String)
    (as : List String) :
    (FSNode.dir es).find? (a :: as) =
      (lookupEntry es a).bind (fun c => c.find? as) := by
  cases h : lookupEntry es a <;> simp [FSNode.find?, h]

theorem find?_cons_file (c : String) (m : Nat) (a : String) (as : List String) :
    (FSNode.file c m).find? (a :: as) = none := rfl

theorem find?_dir_upd_ne (es : List (String × FSNode)) (a : String)
    (c' : FSNode) (b : String) (bs : List String) (hb : a ≠ b) :
    (FSNode.dir (updEntries es a c')).find? (b :: bs) =
      (FSNode.dir es).find? (b :: bs) := by
  rw [find?_cons_dir, find?_cons_dir, lookupEntry_upd, if_neg hb]

theorem find?_dir_upd_self (es : List (String × FSNode)) (a : String)
    (c' : FSNode) (bs : List String) :
    (FSNode.dir (updEntries es a c')).find? (a :: bs) = c'.find? bs := by
  rw [find?_cons_dir, lookupEntry_upd, if_pos rfl, Option.some_bind]

theorem placeAt_nil (r v : FSNode) : placeAt r [] v = some v := by
  cases r <;> rfl

theorem placeAt_single (es : List (String × FSNode)) (a : String) (v : FSNode) :
    placeAt (.dir es) [a] v = some (.dir (updEntries es a v)) := rfl

theorem placeAt_cons2 (es : List (String × FSNode)) (a a' : String)
    (as : List String) (v : FSNode) :
    placeAt (.dir es) (a :: a' :: as) v =
      (lookupEntry es a).bind
        (fun c => (placeAt c (a' :: as) v).map (fun c' => .dir (updEntries es a c'))) := by
  cases h : lookupEntry es a <;> simp [placeAt, h]

theorem placeAt_file (c : String) (m : Nat) (a : String) (as : List String)
    (v : FSNode) : placeAt (.file c m) (a :: as) v = none := rfl

theorem find?_append (n : FSNode) (p q : List String) :
    n.find? (p ++ q) = (n.find? p).bind (fun m => m.find? q) := by
  induction p generalizing n with
  | nil => simp [FSNode.find?]
  | cons a as ih =>
    cases n with
    | file c m => simp [FSNode.find?]
    | dir es =>
      simp only [List.cons_append, FSNode.find?]
      cases lookupEntry es a with
      | none => simp
      | some c => simpa using ih c

/-- Two paths diverge when they disagree at some component before either
runs out: neither is then an ancestor of the other. -/
def Diverge : List String → List String → Prop
  | a :: as, b :: bs => a ≠ b ∨ Diverge as bs
  | _, _ => False

theorem Diverge.symm : ∀ {p q : List String}, Diverge p q → Diverge q p
  | _ :: _, _ :: _, h => by
    cases h with
    | inl h => exact Or.inl (Ne.symm h)
    | inr h => exact Or.inr (Diverge.symm h)

/-- Writing at `p` succeeds whenever `p` already resolves, leaves `v` at `p`
and does not disturb any diverging path. -/
theorem placeAt_present_spec (r : FSNode) (p : List String) (x v : FSNode)
    (h : r.find? p = some x) :
    ∃ r', placeAt r p v = some r' ∧ r'.find? p = some v ∧
      ∀ q, Diverge q p → r'.find? q = r.find? q := by
  induction p generalizing r with
  | nil =>
    refine ⟨v, placeAt_nil r v, find?_nil v, ?_⟩
    intro q hq
    cases q <;> simp [Diverge] at hq
  | cons a as ih =>
    cases r with
    | file c m => rw [find?_cons_file] at h; exact absurd h (by simp)
    | dir es =>
      rw [find?_cons_dir] at h
      cases hle : lookupEntry es a with
      | none => rw [hle] at h; exact absurd h (by simp)
      | some c =>
        rw [hle, Option.some_bind] at h
        cases as with
        | nil =>
          refine ⟨.dir (updEntries es a v), placeAt_single es a v, ?_, ?_⟩
          · rw [find?_dir_upd_self, find?_nil]
          · intro q hq
            cases q with
            | nil => simp [Diverge] at hq
            | cons b bs =>
              cases hq with
              | inl hb => exact find?_dir_upd_ne es a v b bs (Ne.symm hb)
              | inr hd => simp [Diverge] at hd
        | cons a' as' =>
          obtain ⟨c', hc', hfind, hframe⟩ := ih c h
          refine ⟨.dir (updEntries es a c'), ?_, ?_, ?_⟩
          · rw [placeAt_cons2, hle, Option.some_bind, hc', Option.map_some']
          · rw [find?_dir_upd_self, hfind]
          · intro q hq
            cases q with
            | nil => simp [Diverge] at hq
            | cons b bs =>
              cases hq with
              | inl hb => exact find?_dir_upd_ne es a c' b bs (Ne.symm hb)
              | inr hd =>
                by_cases hb : b = a
                · subst hb
                  rw [find?_dir_upd_self, find?_cons_dir, hle,
                    Option.some_bind, hframe bs hd]
                · exact find?_dir_upd_ne es a c' b bs (fun hh => hb hh.symm)

/-- Writing at a nonempty path succeeds whenever the parent resolves to a
directory, leaves `v` at `p` and does not disturb any diverging path. -/
theorem placeAt_parent_spec (r : FSNode) (p : List String) (hp : p ≠ [])
    (es : List (String × FSNode)) (v : FSNode)
    (h : r.find? p.dropLast = some (.dir es)) :
    ∃ r', placeAt r p v = some r' ∧ r'.find? p = some v ∧
      ∀ q, Diverge q p → r'.find? q = r.find? q := by
  induction p generalizing r es with
  | nil => exact absurd rfl hp
  | cons a as ih =>
    cases as with
    | nil =>
      rw [show ([a] : List String).dropLast = [] from rfl, find?_nil] at h
      cases h
      refine ⟨.dir (updEntries es a v), placeAt_single es a v, ?_, ?_⟩
      · rw [find?_dir_upd_self, find?_nil]
      · intro q hq
        cases q with
        | nil => simp [Diverge] at hq
        | cons b bs =>
          cases hq with
          | inl hb => exact find?_dir_upd_ne es a v b bs (Ne.symm hb)
          | inr hd => simp [Diverge] at hd
    | cons a' as' =>
      rw [show (a :: a' :: as').dropLast = a :: (a' :: as').dropLast from rfl]
        at h
      cases r with
      | file c m => rw [find?_cons_file] at h; exact absurd h (by simp)
      | dir es0 =>
        rw [find?_cons_dir] at h
        cases hle : lookupEntry es0 a with
        | none => rw [hle] at h; exact absurd h (by simp)
        | some c =>
          rw [hle, Option.some_bind] at h
          obtain ⟨c', hc', hfind, hframe⟩ := ih c (by simp) es h
          refine ⟨.dir (updEntries es0 a c'), ?_, ?_, ?_⟩
          · rw [placeAt_cons2, hle, Option.some_bind, hc', Option.map_some']
          · rw [find?_dir_upd_self, hfind]
          · intro q hq
            cases q with
            | nil => simp [Diverge] at hq
            | cons b bs =>
              cases hq with
              | inl hb => exact find?_dir_upd_ne es0 a c' b bs (Ne.symm hb)
              | inr hd =>
                by_cases hb : b = a
                · subst hb
                  rw [find?_dir_upd_self, find?_cons_dir, hle,
                    Option.some_bind, hframe bs hd]
                · exact find?_dir_upd_ne es0 a c' b bs (fun hh => hb hh.symm)

theorem tree_setTree_same (fs : FS) (s : Side) (t : Option FSNode) :
    (fs.setTree s t).tree s = t := by
  cases s <;> rfl

theorem tree_setTree_other (fs : FS) (s s' : Side) (t : Option FSNode)
    (h : s' ≠ s) : (fs.setTree s t).tree s' = fs.tree s' := by
  cases s <;> cases s' <;> first | rfl | exact absurd rfl h

theorem resolve_setTree_same (fs : FS) (s : Side) (r : FSNode) (p : List String) :
    resolve (fs.setTree s (some r)) ⟨s, p⟩ = r.find? p := by
  simp [resolve, tree_setTree_same]

theorem resolve_setTree_other (fs : FS) (s : Side) (t : Option FSNode) (l : Loc)
    (h : l.side ≠ s) : resolve (fs.setTree s t) l = resolve fs l := by
  simp [resolve, tree_setTree_other fs s l.side t h]

theorem resolve_tree_some {fs : FS} {l : Loc} {x : FSNode}
    (h : resolve fs l = some x) :
    ∃ r, fs.tree l.side = some r ∧ r.find? l.path = some x := by
  unfold resolve at h
  cases ht : fs.tree l.side with
  | none => rw [ht] at h; exact absurd h (by simp)
  | some r => rw [ht] at h; exact ⟨r, rfl, h⟩

/-- The write primitive under a present root is `placeAt`. -/
theorem writeAt_some (r : FSNode) (p : List String) (v : FSNode) :
    writeAt (some r) p v = (placeAt r p v).map some := by
  cases p with
  | nil => rw [placeAt_nil]; rfl
  | cons a as => rfl

theorem resolve_setTree_self (fs : FS) (l : Loc) (r : FSNode) :
    resolve (fs.setTree l.side (some r)) l = r.find? l.path := by
  simp [resolve, tree_setTree_same]

/-- Single-file copy when the destination path already resolves to a
regular file (the overwrite case): it succeeds, writes the source content
with the current timestamp, and changes nothing else. -/
theorem cpFileS_overwrite_spec (σ : Oracle) (now : Nat) (fs : FS)
    (src dst : Loc) (c : String) (m : Nat) (c' : String) (m' : Nat)
    (hσ : σ (.cp (src.side, src.path) (dst.side, dst.path) false) = false)
    (hs : resolve fs src = some (.file c m))
    (hd : resolve fs dst = some (.file c' m')) :
    ∃ fs', cpFileS σ now fs src dst = .ok fs' ∧
      resolve fs' dst = some (.file c now) ∧
      (∀ l : Loc, l.side ≠ dst.side → resolve fs' l = resolve fs l) ∧
      (∀ q, Diverge q dst.path → resolve fs' ⟨dst.side, q⟩ = resolve fs ⟨dst.side, q⟩) := by
  obtain ⟨r, htr, hfr⟩ := resolve_tree_some hd
  obtain ⟨r', hr', hfind, hframe⟩ :=
    placeAt_present_spec r dst.path _ (.file c now) hfr
  refine ⟨fs.setTree dst.side (some r'), ?_, ?_, ?_, ?_⟩
  · simp [cpFileS, hσ, hs, hd, htr, writeAt_some, hr']
  · rw [resolve_setTree_self, hfind]
  · intro l hl; exact resolve_setTree_other fs dst.side _ l hl
  · intro q hq
    rw [resolve_setTree_same, hframe q hq]
    simp [resolve, htr]

/-- Single-file copy when the destination path is absent but its parent is
a directory (the copy-missing case): it succeeds, writes the source content
with the current timestamp, and changes nothing else. -/
theorem cpFileS_create_spec (σ : Oracle) (now : Nat) (fs : FS)
    (src dst : Loc) (c : String) (m : Nat) (es : List (String × FSNode))
    (hσ : σ (.cp (src.side, src.path) (dst.side, dst.path) false) = false)
    (hs : resolve fs src = some (.file c m))
    (hd : resolve fs dst = none)
    (hp : dst.path ≠ [])
    (hpar : resolve fs dst.parent = some (.dir es)) :
    ∃ fs', cpFileS σ now fs src dst = .ok fs' ∧
      resolve fs' dst = some (.file c now) ∧
      (∀ l : Loc, l.side ≠ dst.side → resolve fs' l = resolve fs l) ∧
      (∀ q, Diverge q dst.path → resolve fs' ⟨dst.side, q⟩ = resolve fs ⟨dst.side, q⟩) := by
  obtain ⟨r, htr, hfr⟩ := resolve_tree_some hpar
  obtain ⟨r', hr', hfind, hframe⟩ := placeAt_parent_spec r dst.path hp es
    (.file c now) hfr
  have htr' : fs.tree dst.side = some r := htr
  refine ⟨fs.setTree dst.side (some r'), ?_, ?_, ?_, ?_⟩
  · simp [cpFileS, hσ, hs, hd, htr', writeAt_some, hr']
  · rw [resolve_setTree_self, hfind]
  · intro l hl; exact resolve_setTree_other fs dst.side _ l hl
  · intro q hq
    rw [resolve_setTree_same, hframe q hq]
    simp [resolve, htr']

/-! ### C5: NewerWins behaviour of `syncFile` -/

/-- C5: for a single-file unit handled by `syncFile` (top-level files and
per-workspace `config.json`/`hooks.json`/`views.json`/`projects.json`),
with no I/O errors: an absent legacy file is a no-op; when only the legacy
file exists it is copied and counted; when both exist as regular files the
legacy content overwrites the canonical file if and only if the legacy
mtime is strictly greater — on equal or smaller mtime the state is
unchanged. -/
theorem syncFile_newerWins (now : Nat) (fs : FS) (source target : Loc) :
    (resolve fs source = none →
      syncFile noErr now fs source target = (fs, false)) ∧
    (∀ c m es, resolve fs source = some (.file c m) →
      resolve fs target = none →
      target.path ≠ [] →
      resolve fs target.parent = some (.dir es) →
      (syncFile noErr now fs source target).2 = true ∧
      resolve (syncFile noErr now fs source target).1 target =
        some (.file c now)) ∧
    (∀ c m c' m', resolve fs source = some (.file c m) →
      resolve fs target = some (.file c' m') →
      ((m' < m →
        (syncFile noErr now fs source target).2 = true ∧
        resolve (syncFile noErr now fs source target).1 target =
          some (.file c now)) ∧
       (m ≤ m' → syncFile noErr now fs source target = (fs, false)))) := by
  refine ⟨?_, ?_, ?_⟩
  · intro h
    have h1 : existsL fs source = false := by simp [existsL, h]
    simp [syncFile, h1]
  · intro c m es hs hd hp hpar
    obtain ⟨fs', hcp, hres, hside, hdiv⟩ :=
      cpFileS_create_spec noErr now fs source target c m es rfl hs hd hp hpar
    have h1 : existsL fs source = true := by simp [existsL, hs]
    have h2 : existsL fs target = false := by simp [existsL, hd]
    have h3 : existsL fs target.parent = true := by simp [existsL, hpar]
    have hrun : syncFile noErr now fs source target = (fs', true) := by
      simp [syncFile, h1, h2, h3, hcp]
    rw [hrun]
    exact ⟨rfl, hres⟩
  · intro c m c' m' hs hd
    have h1 : existsL fs source = true := by simp [existsL, hs]
    have h2 : existsL fs target = true := by simp [existsL, hd]
    constructor
    · intro hlt
      obtain ⟨fs', hcp, hres, hside, hdiv⟩ :=
        cpFileS_overwrite_spec noErr now fs source target c m c' m' rfl hs hd
      have hrun : syncFile noErr now fs source target = (fs', true) := by
        simp [syncFile, statS, noErr, h1, h2, hs, hd, FSNode.mtime, hlt, hcp]
      rw [hrun]
      exact ⟨rfl, hres⟩
    · intro hle
      have hm : ¬ m' < m := Nat.not_lt.mpr hle
      simp [syncFile, statS, noErr, h1, h2, hs, hd, FSNode.mtime, hm]

/-- Concrete instance of C5: a legacy `config.json` with mtime 7 overwrites
a canonical one with mtime 5 and the unit reports a change. -/
theorem syncFile_newerWins_witness :
    (syncFile noErr 10
        ⟨some (.dir [("config.json", .file "new" 7)]),
         some (.dir [("config.json", .file "old" 5)])⟩
        ⟨.legacy, ["config.json"]⟩ ⟨.canonical, ["config.json"]⟩).2 = true ∧
    resolve (syncFile noErr 10
        ⟨some (.dir [("config.json", .file "new" 7)]),
         some (.dir [("config.json", .file "old" 5)])⟩
        ⟨.legacy, ["config.json"]⟩ ⟨.canonical, ["config.json"]⟩).1
      ⟨.canonical, ["config.json"]⟩ = some (.file "new" 10) :=
  ((syncFile_newerWins 10
      ⟨some (.dir [("config.json", .file "new" 7)]),
       some (.dir [("config.json", .file "old" 5)])⟩
      ⟨.legacy, ["config.json"]⟩ ⟨.canonical, ["config.json"]⟩).2.2
    "new" 7 "old" 5 rfl rfl).1 (by decide)

/-! ### C6: LargerWins behaviour of `syncEventsFile` -/

theorem child_parent (l : Loc) (s : String) : (l.child s).parent = l := by
  simp [Loc.child, Loc.parent]

theorem child_path_ne (l : Loc) (s : String) : (l.child s).path ≠ [] := by
  simp [Loc.child]

/-- C6: for the per-workspace `events.jsonl` unit handled by
`syncEventsFile`, with no I/O errors: an absent legacy file is a no-op;
when only the legacy file exists it is copied and counted as one change;
when both exist as regular files the legacy content overwrites the
canonical file if and only if the legacy byte size is strictly greater —
the comparison signal is content length, not modification time (the mtimes
`m`, `m'` are arbitrary throughout). -/
theorem syncEventsFile_largerWins (now : Nat) (fs : FS)
    (legacyWs targetWs : Loc) :
    (resolve fs (legacyWs.child "events.jsonl") = none →
      syncEventsFile noErr now fs legacyWs targetWs = (fs, 0)) ∧
    (∀ c m es, resolve fs (legacyWs.child "events.jsonl") = some (.file c m) →
      resolve fs (targetWs.child "events.jsonl") = none →
      resolve fs targetWs = some (.dir es) →
      (syncEventsFile noErr now fs legacyWs targetWs).2 = 1 ∧
      resolve (syncEventsFile noErr now fs legacyWs targetWs).1
        (targetWs.child "events.jsonl") = some (.file c now)) ∧
    (∀ c m c' m',
      resolve fs (legacyWs.child "events.jsonl") = some (.file c m) →
      resolve fs (targetWs.child "events.jsonl") = some (.file c' m') →
      ((c'.length < c.length →
        (syncEventsFile noErr now fs legacyWs targetWs).2 = 1 ∧
        resolve (syncEventsFile noErr now fs legacyWs targetWs).1
          (targetWs.child "events.jsonl") = some (.file c now)) ∧
       (c.length ≤ c'.length →
        syncEventsFile noErr now fs legacyWs targetWs = (fs, 0)))) := by
  refine ⟨?_, ?_, ?_⟩
  · intro h
    have h1 : existsL fs (legacyWs.child "events.jsonl") = false := by
      simp [existsL, h]
    simp [syncEventsFile, h1]
  · intro c m es hs hd hpar
    have hpar' : resolve fs (targetWs.child "events.jsonl").parent =
        some (.dir es) := by rw [child_parent]; exact hpar
    obtain ⟨fs', hcp, hres, hside, hdiv⟩ :=
      cpFileS_create_spec noErr now fs (legacyWs.child "events.jsonl")
        (targetWs.child "events.jsonl") c m es rfl hs hd
        (child_path_ne targetWs "events.jsonl") hpar'
    have h1 : existsL fs (legacyWs.child "events.jsonl") = true := by
      simp [existsL, hs]
    have h2 : existsL fs (targetWs.child "events.jsonl") = false := by
      simp [existsL, hd]
    have hrun : syncEventsFile noErr now fs legacyWs targetWs = (fs', 1) := by
      simp [syncEventsFile, h1, h2, hcp]
    rw [hrun]
    exact ⟨rfl, hres⟩
  · intro c m c' m' hs hd
    have h1 : existsL fs (legacyWs.child "events.jsonl") = true := by
      simp [existsL, hs]
    have h2 : existsL fs (targetWs.child "events.jsonl") = true := by
      simp [existsL, hd]
    constructor
    · intro hlt
      obtain ⟨fs', hcp, hres, hside, hdiv⟩ :=
        cpFileS_overwrite_spec noErr now fs (legacyWs.child "events.jsonl")
          (targetWs.child "events.jsonl") c m c' m' rfl hs hd
      have hrun : syncEventsFile noErr now fs legacyWs targetWs = (fs', 1) := by
        simp [syncEventsFile, statS, noErr, h1, h2, hs, hd, FSNode.size, hlt,
          hcp]
      rw [hrun]
      exact ⟨rfl, hres⟩
    · intro hle
      have hm : ¬ c'.length < c.length := Nat.not_lt.mpr hle
      simp [syncEventsFile, statS, noErr, h1, h2, hs, hd, FSNode.size, hm]

/-- Concrete instance of C6: a 5-byte legacy `events.jsonl` with an older
mtime still overwrites a 3-byte canonical one with a newer mtime. -/
theorem syncEventsFile_largerWins_witness :
    (syncEventsFile noErr 10
        ⟨some (.dir [("workspaces", .dir [("w", .dir [("events.jsonl", .file "12345" 1)])])]),
         some (.dir [("workspaces", .dir [("w", .dir [("events.jsonl", .file "123" 9)])])])⟩
        ⟨.legacy, ["workspaces", "w"]⟩ ⟨.canonical, ["workspaces", "w"]⟩).2 = 1 ∧
    resolve (syncEventsFile noErr 10
        ⟨some (.dir [("workspaces", .dir [("w", .dir [("events.jsonl", .file "12345" 1)])])]),
         some (.dir [("workspaces", .dir [("w", .dir [("events.jsonl", .file "123" 9)])])])⟩
        ⟨.legacy, ["workspaces", "w"]⟩ ⟨.canonical, ["workspaces", "w"]⟩).1
      (Loc.child ⟨.canonical, ["workspaces", "w"]⟩ "events.jsonl") =
        some (.file "12345" 10) :=
  ((syncEventsFile_largerWins 10
      ⟨some (.dir [("workspaces", .dir [("w", .dir [("events.jsonl", .file "12345" 1)])])]),
       some (.dir [("workspaces", .dir [("w", .dir [("events.jsonl", .file "123" 9)])])])⟩
      ⟨.legacy, ["workspaces", "w"]⟩ ⟨.canonical, ["workspaces", "w"]⟩).2.2
    "12345" 1 "123" 9 rfl rfl).1 (by decide)

/-! ### C3: guard on an absent legacy root -/

/-- C3: when the legacy root does not exist, `migrateFromLegacyConfigDir`
returns immediately: the state is untouched (in particular the canonical
root is not created) and the aggregate change count is 0. -/
theorem migrate_noop_on_absent_legacy (σ : Oracle) (now : Nat) (fs : FS)
    (h : fs.legacyTree = none) :
    migrateCore σ now fs = .ok (fs, 0) ∧
    migrateFromLegacyConfigDir σ now fs = .ok (fs, ()) := by
  have h1 : existsL fs LEGACY_ROOT = false := by
    simp [existsL, resolve, LEGACY_ROOT, FS.tree, h]
  have hcore : migrateCore σ now fs = .ok (fs, 0) := by simp [migrateCore, h1]
  refine ⟨hcore, ?_⟩
  unfold migrateFromLegacyConfigDir
  rw [hcore]
  rfl

/-- Concrete instance of C3: with no legacy root and no canonical root, the
run changes nothing and reports 0 — the canonical root is left uncreated. -/
theorem migrate_noop_on_absent_legacy_witness :
    migrateCore noErr 3 ⟨none, none⟩ = .ok (⟨none, none⟩, 0) ∧
    migrateFromLegacyConfigDir noErr 3 ⟨none, none⟩ = .ok (⟨none, none⟩, ()) :=
  migrate_noop_on_absent_legacy noErr 3 ⟨none, none⟩ rfl

/-! ### C4: the unguarded `mkdirSync(CONFIG_DIR)` at line 40 -/

/-- An oracle under which exactly one operation fails: creating the
canonical root (`mkdirSync(CONFIG_DIR, { recursive: true })`, e.g. EACCES
on the home directory). -/
def rootMkdirFailOracle : Oracle := fun op =>
  match op with
  | .mkdir .canonical [] => true
  | _ => false

/-- The failing input for C4: the legacy root exists, the canonical root
does not, and creating the canonical root fails. -/
def c4Fs : FS := ⟨some (.dir [("config.json", .file "x" 5)]), none⟩

/-- C4 fails on the code: `mkdirSync(CONFIG_DIR, { recursive: true })`
(migrate-config.ts:40) is the one fallible call not wrapped in any
`try`/`catch`, so when creating the canonical root fails the exception
escapes `migrateFromLegacyConfigDir` (the `.error` result), contradicting
the claim that the routine never throws. -/
theorem migrate_throws_on_root_mkdir_failure :
    migrateFromLegacyConfigDir rootMkdirFailOracle 7 c4Fs = .error c4Fs ∧
    migrateCore rootMkdirFailOracle 7 c4Fs = .error c4Fs := ⟨rfl, rfl⟩

/-! ### C1 (as stated): refuted by a future-dated legacy mtime -/

/-- A legacy tree whose `config.json` carries mtime 5, ahead of the run
clock 0. -/
def c1Legacy : FSNode := .dir [("config.json", .file "x" 5)]

/-- Initial state for the C1 counterexample. -/
def c1Fs : FS := ⟨some c1Legacy, some (.dir [])⟩

/-- State after the first run at clock 0: the copy exists with mtime 0,
still strictly older than the legacy mtime 5. -/
def c1Fs1 : FS := ⟨some c1Legacy, some (.dir [("config.json", .file "x" 0)])⟩

/-- C1 as stated is false: `cpSync` stamps the copied file with the current
time, so a legacy file whose mtime lies in the future of the clock is
strictly newer than its fresh copy and is copied again on every run — here
the second run performs one write action (count 1), not zero. -/
theorem migrate_idempotence_cex :
    migrateCore noErr 0 c1Fs = .ok (c1Fs1, 1) ∧
    migrateCore noErr 0 c1Fs1 = .ok (c1Fs1, 1) := ⟨rfl, rfl⟩

/-! ### C9: the entry point returns void, the count is only logged -/

/-- Input for the C9 counterexample: one legacy file to copy, so the
aggregate count is 1. -/
def c9Fs : FS := ⟨some (.dir [("config.json", .file "x" 5)]), none⟩

/-- Canonical state after the C9 run. -/
def c9Fs1 : FS :=
  ⟨some (.dir [("config.json", .file "x" 5)]),
   some (.dir [("config.json", .file "x" 10)])⟩

/-- C9 as stated is false: the TypeScript entry point is declared
`(): void`, so even on a run whose aggregate count is 1 the caller receives
no count — the returned value is the unit value, while `syncedCount` is
only logged. -/
theorem migrate_return_contract_cex :
    migrateFromLegacyConfigDir noErr 10 c9Fs = .ok (c9Fs1, ()) ∧
    migrateCore noErr 10 c9Fs = .ok (c9Fs1, 1) := ⟨rfl, rfl⟩

/-! ### C7: CopyIfAbsent behaviour of the top-level directory units -/

theorem resolve_root (fs : FS) (s : Side) : resolve fs ⟨s, []⟩ = fs.tree s := by
  cases h : fs.tree s <;> simp [resolve, h, find?_nil]

/-- Recursive copy when the destination path is absent and its parent is a
directory: it succeeds, writes a fresh copy of the whole source subtree,
and changes nothing else. -/
theorem cpRecS_create_spec (σ : Oracle) (now : Nat) (fs : FS)
    (src dst : Loc) (sn : FSNode) (es : List (String × FSNode))
    (hσ : σ (.cp (src.side, src.path) (dst.side, dst.path) true) = false)
    (hs : resolve fs src = some sn)
    (hd : resolve fs dst = none)
    (hp : dst.path ≠ [])
    (hpar : resolve fs dst.parent = some (.dir es)) :
    ∃ fs', cpRecS σ now fs src dst = .ok fs' ∧
      resolve fs' dst = some (cpNode now sn) ∧
      (∀ l : Loc, l.side ≠ dst.side → resolve fs' l = resolve fs l) ∧
      (∀ q, Diverge q dst.path → resolve fs' ⟨dst.side, q⟩ = resolve fs ⟨dst.side, q⟩) := by
  obtain ⟨r, htr, hfr⟩ := resolve_tree_some hpar
  obtain ⟨r', hr', hfind, hframe⟩ := placeAt_parent_spec r dst.path hp es
    (cpNode now sn) hfr
  have htr' : fs.tree dst.side = some r := htr
  refine ⟨fs.setTree dst.side (some r'), ?_, ?_, ?_, ?_⟩
  · simp [cpRecS, hσ, hs, hd, htr', writeAt_some, hr']
  · rw [resolve_setTree_self, hfind]
  · intro l hl; exact resolve_setTree_other fs dst.side _ l hl
  · intro q hq
    rw [resolve_setTree_same, hframe q hq]
    simp [resolve, htr']

/-- C7: a top-level directory unit (the `topLevelDirs` loop body), with no
I/O errors: an absent legacy directory is a no-op; when the canonical side
has no such path the entire legacy subtree is copied recursively and
counted as one change; when the canonical path is present the unit is a
no-op and the state is untouched, whatever the legacy side holds beneath
it. -/
theorem topDirStep_copyIfAbsent (now : Nat) (fs : FS) (c : Nat) (d : String) :
    (resolve fs ⟨.legacy, [d]⟩ = none →
      topDirStep noErr now (fs, c) d = (fs, c)) ∧
    (∀ sn es, resolve fs ⟨.legacy, [d]⟩ = some sn →
      resolve fs ⟨.canonical, [d]⟩ = none →
      resolve fs ⟨.canonical, []⟩ = some (.dir es) →
      ∃ fs', topDirStep noErr now (fs, c) d = (fs', c + 1) ∧
        resolve fs' ⟨.canonical, [d]⟩ = some (cpNode now sn) ∧
        fs'.legacyTree = fs.legacyTree) ∧
    (∀ sn x, resolve fs ⟨.legacy, [d]⟩ = some sn →
      resolve fs ⟨.canonical, [d]⟩ = some x →
      topDirStep noErr now (fs, c) d = (fs, c)) := by
  refine ⟨?_, ?_, ?_⟩
  · intro h
    have h1 : existsL fs ⟨.legacy, [d]⟩ = false := by simp [existsL, h]
    simp [topDirStep, h1]
  · intro sn es hs hd hroot
    have hpar : resolve fs (Loc.parent ⟨.canonical, [d]⟩) = some (.dir es) :=
      hroot
    obtain ⟨fs', hcp, hres, hside, hdiv⟩ :=
      cpRecS_create_spec noErr now fs ⟨.legacy, [d]⟩ ⟨.canonical, [d]⟩ sn es
        rfl hs hd (by simp) hpar
    have h1 : existsL fs ⟨.legacy, [d]⟩ = true := by simp [existsL, hs]
    have h2 : existsL fs ⟨.canonical, [d]⟩ = false := by simp [existsL, hd]
    refine ⟨fs', ?_, hres, ?_⟩
    · simp [topDirStep, h1, h2, hcp]
    · have hlegacy := hside ⟨.legacy, []⟩ (by simp)
      rw [resolve_root, resolve_root] at hlegacy
      exact hlegacy
  · intro sn x hs hd
    have h1 : existsL fs ⟨.legacy, [d]⟩ = true := by simp [existsL, hs]
    have h2 : existsL fs ⟨.canonical, [d]⟩ = true := by simp [existsL, hd]
    simp [topDirStep, h1, h2]

/-- Concrete instance of C7: a legacy `themes` tree is copied wholesale
when canonical has none. -/
theorem topDirStep_copyIfAbsent_witness :
    ∃ fs', topDirStep noErr 10
        (⟨some (.dir [("themes", .dir [("t.json", .file "body" 3)])]),
          some (.dir [])⟩, 0) "themes" = (fs', 0 + 1) ∧
      resolve fs' ⟨.canonical, ["themes"]⟩ =
        some (cpNode 10 (.dir [("t.json", .file "body" 3)])) ∧
      fs'.legacyTree =
        (⟨some (.dir [("themes", .dir [("t.json", .file "body" 3)])]),
          some (.dir [])⟩ : FS).legacyTree :=
  (topDirStep_copyIfAbsent 10
      ⟨some (.dir [("themes", .dir [("t.json", .file "body" 3)])]),
       some (.dir [])⟩ 0 "themes").2.1
    (.dir [("t.json", .file "body" 3)]) [] rfl rfl rfl

/-! ### C8: EntryUnion behaviour of `syncSubdirectory` -/

theorem find?_singleton (es : List (String × FSNode)) (k : String) :
    (FSNode.dir es).find? [k] = lookupEntry es k := by
  cases h : lookupEntry es k <;> simp [find?_cons_dir, h, find?_nil]

theorem resolve_append (fs : FS) (s : Side) (p q : List String) :
    resolve fs ⟨s, p ++ q⟩ = (resolve fs ⟨s, p⟩).bind (fun n => n.find? q) := by
  cases h : fs.tree s <;> simp [resolve, h, find?_append]

theorem lookupEntry_eq_none_iff (es : List (String × FSNode)) (k : String) :
    lookupEntry es k = none ↔ ¬ k ∈ es.map Prod.fst := by
  induction es with
  | nil => simp [lookupEntry]
  | cons e es ih =>
    obtain ⟨a, w⟩ := e
    by_cases h : a = k
    · subst h; simp [lookupEntry]
    · have hl : lookupEntry ((a, w) :: es) k = lookupEntry es k := by
        simp [lookupEntry, h]
      rw [List.map_cons, hl, ih]
      constructor
      · intro hk hmem
        rcases List.mem_cons.mp hmem with hk2 | hk2
        · exact h hk2.symm
        · exact hk hk2
      · intro hk hmem
        exact hk (List.mem_cons_of_mem a hmem)

/-- Inserting below an existing directory: the write succeeds, the parent
directory's entry list gains (or replaces) the named entry, and diverging
paths are untouched. -/
theorem placeAt_child_spec (r : FSNode) (p : List String) (k : String)
    (v : FSNode) (es : List (String × FSNode))
    (h : r.find? p = some (.dir es)) :
    ∃ r', placeAt r (p ++ [k]) v = some r' ∧
      r'.find? p = some (.dir (updEntries es k v)) ∧
      ∀ q, Diverge q p → r'.find? q = r.find? q := by
  induction p generalizing r with
  | nil =>
    rw [find?_nil] at h
    cases h
    refine ⟨.dir (updEntries es k v), ?_, find?_nil _, ?_⟩
    · rw [List.nil_append, placeAt_single]
    · intro q hq; cases q <;> simp [Diverge] at hq
  | cons a as ih =>
    cases r with
    | file c m => rw [find?_cons_file] at h; exact absurd h (by simp)
    | dir es0 =>
      rw [find?_cons_dir] at h
      cases hle : lookupEntry es0 a with
      | none => rw [hle] at h; exact absurd h (by simp)
      | some c =>
        rw [hle, Option.some_bind] at h
        obtain ⟨c', hc', hfind, hframe⟩ := ih c h
        refine ⟨.dir (updEntries es0 a c'), ?_, ?_, ?_⟩
        · rw [List.cons_append]
          cases has : as ++ [k] with
          | nil => exact absurd has (by simp)
          | cons b bs =>
            rw [placeAt_cons2, hle, Option.some_bind, ← has, hc',
              Option.map_some']
        · rw [find?_dir_upd_self, hfind]
        · intro q hq
          cases q with
          | nil => simp [Diverge] at hq
          | cons b bs =>
            cases hq with
            | inl hb => exact find?_dir_upd_ne es0 a c' b bs (Ne.symm hb)
            | inr hd =>
              by_cases hb : b = a
              · subst hb
                rw [find?_dir_upd_self, find?_cons_dir, hle,
                  Option.some_bind, hframe bs hd]
              · exact find?_dir_upd_ne es0 a c' b bs (fun hh => hb hh.symm)

/-- The per-entry loop of `syncSubdirectory`, with no I/O errors: starting
from a legacy directory `les` and a canonical directory `ces'`, it copies
exactly the entries of the work list absent from the canonical side, leaves
present entries untouched, and counts one change per copied entry. -/
theorem entryUnion_go (now : Nat) (sdp tdp : List String)
    (les : List (String × FSNode)) (rem : List String) :
    ∀ (fs' : FS) (c : Nat) (ces' : List (String × FSNode)),
    rem.Nodup →
    (∀ e, e ∈ rem → lookupEntry les e ≠ none) →
    resolve fs' ⟨.legacy, sdp⟩ = some (.dir les) →
    resolve fs' ⟨.canonical, tdp⟩ = some (.dir ces') →
    ∀ fsr cr,
      rem.foldl (syncEntryStep noErr now ⟨.legacy, sdp⟩ ⟨.canonical, tdp⟩)
        (fs', c) = (fsr, cr) →
    ∃ ces'',
      fsr.legacyTree = fs'.legacyTree ∧
      resolve fsr ⟨.canonical, tdp⟩ = some (.dir ces'') ∧
      (∀ k, ¬ k ∈ rem → lookupEntry ces'' k = lookupEntry ces' k) ∧
      (∀ k w, k ∈ rem → lookupEntry ces' k = some w →
        lookupEntry ces'' k = some w) ∧
      (∀ k, k ∈ rem → lookupEntry ces' k = none →
        lookupEntry ces'' k = Option.map (cpNode now) (lookupEntry les k)) ∧
      cr = c + (rem.filter (fun e => (lookupEntry ces' e).isNone)).length := by
  induction rem with
  | nil =>
    intro fs' c ces' _ _ hsd htd fsr cr hfold
    rw [List.foldl_nil] at hfold
    cases hfold
    exact ⟨ces', rfl, htd, fun k _ => rfl, fun k w _ hw => hw,
      fun k hk _ => absurd hk (by simp), by simp⟩
  | cons e rem ih =>
    intro fs' c ces' hnd hrem hsd htd fsr cr hfold
    rw [List.foldl_cons] at hfold
    have hnd' : rem.Nodup := (List.nodup_cons.mp hnd).2
    have hee : ¬ e ∈ rem := (List.nodup_cons.mp hnd).1
    have hrem' : ∀ x, x ∈ rem → lookupEntry les x ≠ none :=
      fun x hx => hrem x (List.mem_cons_of_mem e hx)
    have hres_te : resolve fs' ⟨.canonical, tdp ++ [e]⟩ = lookupEntry ces' e := by
      rw [resolve_append, htd, Option.some_bind, find?_singleton]
    cases hce : lookupEntry ces' e with
    | some w =>
      have hstep : syncEntryStep noErr now ⟨.legacy, sdp⟩ ⟨.canonical, tdp⟩
          (fs', c) e = (fs', c) := by
        have hex : existsL fs' ⟨.canonical, tdp ++ [e]⟩ = true := by
          unfold existsL
          rw [hres_te, hce]
          rfl
        simp [syncEntryStep, Loc.child, hex]
      rw [hstep] at hfold
      obtain ⟨ces'', hleg, htd'', hout, hkeep, hcopy, hcount⟩ :=
        ih fs' c ces' hnd' hrem' hsd htd fsr cr hfold
      refine ⟨ces'', hleg, htd'', ?_, ?_, ?_, ?_⟩
      · intro k hk
        exact hout k (fun hh => hk (List.mem_cons_of_mem e hh))
      · intro k w' hk hw'
        rcases List.mem_cons.mp hk with hk | hk
        · subst hk
          rw [hout k hee, hw']
        · exact hkeep k w' hk hw'
      · intro k hk hnone
        rcases List.mem_cons.mp hk with hk | hk
        · subst hk; rw [hce] at hnone; exact absurd hnone (by simp)
        · exact hcopy k hk hnone
      · rw [hcount, List.filter_cons]
        simp [hce]
    | none =>
      obtain ⟨v, hv⟩ : ∃ v, lookupEntry les e = some v := by
        cases hl : lookupEntry les e with
        | none => exact absurd hl (hrem e (List.mem_cons_self e rem))
        | some v => exact ⟨v, rfl⟩
      have hres_se : resolve fs' ⟨.legacy, sdp ++ [e]⟩ = some v := by
        rw [resolve_append, hsd, Option.some_bind, find?_singleton, hv]
      obtain ⟨rr, htr, hfr⟩ := resolve_tree_some htd
      obtain ⟨r', hr', hfind, hframe⟩ :=
        placeAt_child_spec rr tdp e (cpNode now v) ces' hfr
      have hcp : cpRecS noErr now fs' ⟨.legacy, sdp ++ [e]⟩
          ⟨.canonical, tdp ++ [e]⟩ =
          .ok (fs'.setTree .canonical (some r')) := by
        simp [cpRecS, noErr, hres_se, hres_te, hce, htr, writeAt_some, hr']
      have hstep : syncEntryStep noErr now ⟨.legacy, sdp⟩ ⟨.canonical, tdp⟩
          (fs', c) e = (fs'.setTree .canonical (some r'), c + 1) := by
        have hex : existsL fs' ⟨.canonical, tdp ++ [e]⟩ = false := by
          unfold existsL
          rw [hres_te, hce]
          rfl
        simp [syncEntryStep, Loc.child, hex, hcp]
      rw [hstep] at hfold
      have hsd2 : resolve (fs'.setTree .canonical (some r')) ⟨.legacy, sdp⟩ =
          some (.dir les) := by
        rw [resolve_setTree_other fs' .canonical (some r') ⟨.legacy, sdp⟩
          (by simp)]
        exact hsd
      have htd2 : resolve (fs'.setTree .canonical (some r')) ⟨.canonical, tdp⟩ =
          some (.dir (updEntries ces' e (cpNode now v))) := by
        rw [resolve_setTree_same, hfind]
      obtain ⟨ces'', hleg, htd'', hout, hkeep, hcopy, hcount⟩ :=
        ih (fs'.setTree .canonical (some r')) (c + 1)
          (updEntries ces' e (cpNode now v)) hnd' hrem' hsd2 htd2 fsr cr hfold
      have hleg' : fsr.legacyTree = fs'.legacyTree := by
        rw [hleg]; rfl
      refine ⟨ces'', hleg', htd'', ?_, ?_, ?_, ?_⟩
      · intro k hk
        have hk1 : ¬ k ∈ rem := fun hh => hk (List.mem_cons_of_mem e hh)
        have hk2 : ¬ e = k := fun hh => hk (hh ▸ List.mem_cons_self e rem)
        rw [hout k hk1, lookupEntry_upd, if_neg hk2]
      · intro k w' hk hw'
        rcases List.mem_cons.mp hk with hk | hk
        · subst hk; rw [hce] at hw'; exact absurd hw' (by simp)
        · have hk2 : ¬ e = k := fun hh => hee (hh ▸ hk)
          have := hkeep k w' hk
          rw [lookupEntry_upd, if_neg hk2] at this
          exact this hw'
      · intro k hk hnone
        rcases List.mem_cons.mp hk with hk | hk
        · subst hk
          rw [hout k hee, lookupEntry_upd, if_pos rfl, hv]
          rfl
        · have hk2 : ¬ e = k := fun hh => hee (hh ▸ hk)
          have := hcopy k hk
          rw [lookupEntry_upd, if_neg hk2] at this
          exact this hnone
      · rw [hcount, List.filter_cons]
        have hfc : (rem.filter
            (fun x => (lookupEntry (updEntries ces' e (cpNode now v)) x).isNone)) =
            (rem.filter (fun x => (lookupEntry ces' x).isNone)) := by
          apply List.filter_congr
          intro x hx
          have hk2 : ¬ e = x := fun hh => hee (hh ▸ hx)
          rw [lookupEntry_upd, if_neg hk2]
        rw [hfc]
        simp [hce]
        omega

theorem length_filter_map_fst (p : String → Bool)
    (les : List (String × FSNode)) :
    ((les.map Prod.fst).filter p).length = (les.filter (fun e => p e.1)).length := by
  induction les with
  | nil => rfl
  | cons e les ih =>
    obtain ⟨a, w⟩ := e
    by_cases h : p a <;> simp [List.filter_cons, h, ih]

/-- C8: EntryUnion behaviour of `syncSubdirectory` when the directory
exists on both sides, with no I/O errors: every canonical entry is left
untouched (even when the legacy entry of that name differs), every legacy
entry absent from the canonical side is copied recursively and counted as
one change each, entries on neither side stay absent — so the canonical
entry set becomes the union of the two entry sets. -/
theorem syncSubdirectory_entryUnion (now : Nat) (fs : FS)
    (lp tp : List String) (subdir : String)
    (les ces : List (String × FSNode))
    (hs : resolve fs ⟨.legacy, lp ++ [subdir]⟩ = some (.dir les))
    (ht : resolve fs ⟨.canonical, tp ++ [subdir]⟩ = some (.dir ces))
    (hnd : (les.map Prod.fst).Nodup) :
    ∀ fsr cr, syncSubdirectory noErr now fs ⟨.legacy, lp⟩ ⟨.canonical, tp⟩
      subdir = (fsr, cr) →
    ∃ ces'',
      fsr.legacyTree = fs.legacyTree ∧
      resolve fsr ⟨.canonical, tp ++ [subdir]⟩ = some (.dir ces'') ∧
      (∀ k w, lookupEntry ces k = some w → lookupEntry ces'' k = some w) ∧
      (∀ k v, lookupEntry les k = some v → lookupEntry ces k = none →
        lookupEntry ces'' k = some (cpNode now v)) ∧
      (∀ k, lookupEntry les k = none → lookupEntry ces k = none →
        lookupEntry ces'' k = none) ∧
      cr = (les.filter (fun e => (lookupEntry ces e.1).isNone)).length := by
  intro fsr cr hrun
  have h1 : existsL fs ⟨.legacy, lp ++ [subdir]⟩ = true := by
    simp [existsL, hs]
  have h2 : existsL fs ⟨.canonical, tp ++ [subdir]⟩ = true := by
    simp [existsL, ht]
  have hrd : readdirS noErr fs ⟨.legacy, lp ++ [subdir]⟩ =
      .ok (les.map Prod.fst) := by
    simp [readdirS, noErr, hs]
  have hrun' : (les.map Prod.fst).foldl
      (syncEntryStep noErr now ⟨.legacy, lp ++ [subdir]⟩
        ⟨.canonical, tp ++ [subdir]⟩) (fs, 0) = (fsr, cr) := by
    rw [← hrun]
    simp [syncSubdirectory, Loc.child, h1, h2, hrd]
  have hrem : ∀ e, e ∈ les.map Prod.fst → lookupEntry les e ≠ none := by
    intro e he hnone
    exact (lookupEntry_eq_none_iff les e).mp hnone he
  obtain ⟨ces'', hleg, htd'', hout, hkeep, hcopy, hcount⟩ :=
    entryUnion_go now (lp ++ [subdir]) (tp ++ [subdir]) les
      (les.map Prod.fst) fs 0 ces hnd hrem hs ht fsr cr hrun'
  refine ⟨ces'', hleg, htd'', ?_, ?_, ?_, ?_⟩
  · intro k w hw
    by_cases hk : k ∈ les.map Prod.fst
    · exact hkeep k w hk hw
    · rw [hout k hk, hw]
  · intro k v hv hnone
    have hk : k ∈ les.map Prod.fst := by
      by_contra hk
      rw [(lookupEntry_eq_none_iff les k).mpr hk] at hv
      exact absurd hv (by simp)
    rw [hcopy k hk hnone, hv]
    rfl
  · intro k hlnone hcnone
    have hk : ¬ k ∈ les.map Prod.fst := (lookupEntry_eq_none_iff les k).mp hlnone
    rw [hout k hk, hcnone]
  · rw [hcount, Nat.zero_add, length_filter_map_fst]

/-- Concrete instance of C8: legacy `sessions` = {A, B}, canonical
`sessions` = {A} with different content for A; post-sync the canonical set
is {A, B}, A is untouched, and one change is counted. -/
theorem syncSubdirectory_entryUnion_witness :
    ∃ ces'',
      (syncSubdirectory noErr 10
        ⟨some (.dir [("workspaces", .dir [("w", .dir [("sessions",
            .dir [("A", .file "legacyA" 9), ("B", .file "legacyB" 9)])])])]),
         some (.dir [("workspaces", .dir [("w", .dir [("sessions",
            .dir [("A", .file "canonA" 1)])])])])⟩
        ⟨.legacy, ["workspaces", "w"]⟩ ⟨.canonical, ["workspaces", "w"]⟩
        "sessions").1.legacyTree =
        some (.dir [("workspaces", .dir [("w", .dir [("sessions",
            .dir [("A", .file "legacyA" 9), ("B", .file "legacyB" 9)])])])]) ∧
      resolve (syncSubdirectory noErr 10
        ⟨some (.dir [("workspaces", .dir [("w", .dir [("sessions",
            .dir [("A", .file "legacyA" 9), ("B", .file "legacyB" 9)])])])]),
         some (.dir [("workspaces", .dir [("w", .dir [("sessions",
            .dir [("A", .file "canonA" 1)])])])])⟩
        ⟨.legacy, ["workspaces", "w"]⟩ ⟨.canonical, ["workspaces", "w"]⟩
        "sessions").1 ⟨.canonical, ["workspaces", "w"] ++ ["sessions"]⟩ =
        some (.dir ces'') ∧
      (∀ k w, lookupEntry [("A", FSNode.file "canonA" 1)] k = some w →
        lookupEntry ces'' k = some w) ∧
      (∀ k v, lookupEntry [("A", FSNode.file "legacyA" 9),
          ("B", FSNode.file "legacyB" 9)] k = some v →
        lookupEntry [("A", FSNode.file "canonA" 1)] k = none →
        lookupEntry ces'' k = some (cpNode 10 v)) ∧
      (∀ k, lookupEntry [("A", FSNode.file "legacyA" 9),
          ("B", FSNode.file "legacyB" 9)] k = none →
        lookupEntry [("A", FSNode.file "canonA" 1)] k = none →
        lookupEntry ces'' k = none) ∧
      (syncSubdirectory noErr 10
        ⟨some (.dir [("workspaces", .dir [("w", .dir [("sessions",
            .dir [("A", .file "legacyA" 9), ("B", .file "legacyB" 9)])])])]),
         some (.dir [("workspaces", .dir [("w", .dir [("sessions",
            .dir [("A", .file "canonA" 1)])])])])⟩
        ⟨.legacy, ["workspaces", "w"]⟩ ⟨.canonical, ["workspaces", "w"]⟩
        "sessions").2 =
        ([("A", FSNode.file "legacyA" 9), ("B", FSNode.file "legacyB" 9)].filter
          (fun e => (lookupEntry [("A", FSNode.file "canonA" 1)] e.1).isNone)).length :=
  syncSubdirectory_entryUnion 10
    ⟨some (.dir [("workspaces", .dir [("w", .dir [("sessions",
        .dir [("A", .file "legacyA" 9), ("B", .file "legacyB" 9)])])])]),
     some (.dir [("workspaces", .dir [("w", .dir [("sessions",
        .dir [("A", .file "canonA" 1)])])])])⟩
    ["workspaces", "w"] ["workspaces", "w"] "sessions"
    [("A", .file "legacyA" 9), ("B", .file "legacyB" 9)]
    [("A", .file "canonA" 1)] rfl rfl (by simp) _ _ rfl

/-! ### C10: `mkdirSync` before the whole-workspace copy -/

theorem find?_mkDirs (p : List String) : (mkDirs p).find? p = some (.dir []) := by
  induction p with
  | nil => rfl
  | cons a as ih =>
    rw [mkDirs, find?_cons_dir]
    simp [lookupEntry, ih]

theorem mkdirpN_cons_hit (es : List (String × FSNode)) (a : String)
    (as : List String) (c : FSNode) (h : lookupEntry es a = some c) :
    mkdirpN (.dir es) (a :: as) =
      (mkdirpN c as).map (fun c' => FSNode.dir (updEntries es a c')) := by
  simp only [mkdirpN, h]

theorem mkdirpN_cons_miss (es : List (String × FSNode)) (a : String)
    (as : List String) (h : lookupEntry es a = none) :
    mkdirpN (.dir es) (a :: as) =
      some (.dir (updEntries es a (mkDirs as))) := by
  simp only [mkdirpN, h]

theorem mkdirpN_creates (n : FSNode) (p : List String) (r : FSNode)
    (hmk : mkdirpN n p = some r) (habs : n.find? p = none) :
    r.find? p = some (.dir []) := by
  induction p generalizing n r with
  | nil => rw [find?_nil] at habs; exact absurd habs (by simp)
  | cons a as ih =>
    cases n with
    | file c m => rw [mkdirpN] at hmk; exact absurd hmk (by simp)
    | dir es =>
      rw [find?_cons_dir] at habs
      cases hle : lookupEntry es a with
      | some c =>
        rw [mkdirpN_cons_hit es a as c hle] at hmk
        rw [hle, Option.some_bind] at habs
        cases hmk' : mkdirpN c as with
        | none => rw [hmk'] at hmk; exact absurd hmk (by simp)
        | some c' =>
          rw [hmk', Option.map_some'] at hmk
          simp only [Option.some.injEq] at hmk
          subst hmk
          rw [find?_dir_upd_self]
          exact ih c c' hmk' habs
      | none =>
        rw [mkdirpN_cons_miss es a as hle] at hmk
        simp only [Option.some.injEq] at hmk
        subst hmk
        rw [find?_dir_upd_self]
        exact find?_mkDirs as

/-- When `mkdirSync(l, { recursive: true })` succeeds on an absent path, the
path afterwards resolves to a fresh empty directory, and nothing outside
the written side changes. -/
theorem mkdirS_creates (σ : Oracle) (fs : FS) (l : Loc) (fs1 : FS)
    (hmk : mkdirS σ fs l = .ok fs1) (habs : resolve fs l = none) :
    resolve fs1 l = some (.dir []) ∧
    (∀ l' : Loc, l'.side ≠ l.side → resolve fs1 l' = resolve fs l') := by
  unfold mkdirS at hmk
  cases hσ : σ (.mkdir l.side l.path) with
  | true => rw [hσ] at hmk; exact absurd hmk (by simp)
  | false =>
    rw [hσ] at hmk
    simp only [Bool.false_eq_true, if_false] at hmk
    cases hmp : mkdirp (fs.tree l.side) l.path with
    | none => rw [hmp] at hmk; exact absurd hmk (by simp)
    | some r =>
      rw [hmp] at hmk
      simp only [Except.ok.injEq] at hmk
      subst hmk
      constructor
      · rw [resolve_setTree_self]
        unfold mkdirp at hmp
        cases ht : fs.tree l.side with
        | none =>
          rw [ht] at hmp
          simp only [Option.some.injEq] at hmp
          subst hmp
          exact find?_mkDirs l.path
        | some n =>
          rw [ht] at hmp
          have habs' : n.find? l.path = none := by
            unfold resolve at habs
            rw [ht] at habs
            exact habs
          exact mkdirpN_creates n l.path r hmp habs'
      · intro l' hl'
        exact resolve_setTree_other fs l.side (some r) l' hl'

/-- C10: when a workspace slug exists in legacy but not in canonical, the
executor first creates the canonical workspace directory with `mkdirSync`
and only then attempts the recursive copy; if the copy fails, the unit is
counted as zero but the directory persists, so any later run sees the
workspace present on both sides and reconciles it per part
(NewerWins/LargerWins/EntryUnion) instead of retrying the whole-subtree
copy. -/
theorem syncWorkspaceSlug_mkdir_then_copy (σ : Oracle) (now : Nat) (fs : FS)
    (c : Nat) (slug : String) (fs1 : FS)
    (htw : resolve fs ⟨.canonical, ["workspaces", slug]⟩ = none)
    (hmk : mkdirS σ fs ⟨.canonical, ["workspaces", slug]⟩ = .ok fs1)
    (hcpfail : σ (.cp (Side.legacy, ["workspaces", slug])
      (Side.canonical, ["workspaces", slug]) true) = true) :
    syncWorkspaceSlug σ now (fs, c) slug = (fs1, c) ∧
    resolve fs1 ⟨.canonical, ["workspaces", slug]⟩ = some (.dir []) ∧
    (∀ (σ2 : Oracle) (now2 : Nat) (fs2 : FS) (c2 : Nat) (x : FSNode),
      resolve fs2 ⟨.canonical, ["workspaces", slug]⟩ = some x →
      syncWorkspaceSlug σ2 now2 (fs2, c2) slug =
        ((syncWorkspaceParts σ2 now2 fs2 ⟨.legacy, ["workspaces", slug]⟩
            ⟨.canonical, ["workspaces", slug]⟩).1,
         c2 + (syncWorkspaceParts σ2 now2 fs2 ⟨.legacy, ["workspaces", slug]⟩
            ⟨.canonical, ["workspaces", slug]⟩).2)) := by
  obtain ⟨hcreated, _⟩ := mkdirS_creates σ fs ⟨.canonical, ["workspaces", slug]⟩
    fs1 hmk htw
  refine ⟨?_, hcreated, ?_⟩
  · have h1 : existsL fs ⟨.canonical, ["workspaces", slug]⟩ = false := by
      simp [existsL, htw]
    have hcp : cpRecS σ now fs1 ⟨.legacy, ["workspaces", slug]⟩
        ⟨.canonical, ["workspaces", slug]⟩ = .error () := by
      simp [cpRecS, hcpfail]
    simp [syncWorkspaceSlug, h1, hmk, hcp]
  · intro σ2 now2 fs2 c2 x hx
    have h2 : existsL fs2 ⟨.canonical, ["workspaces", slug]⟩ = true := by
      simp [existsL, hx]
    simp [syncWorkspaceSlug, h2]

/-- Oracle for the C10 witness: exactly the whole-workspace copy of slug
`acme` fails. -/
def c10Oracle : Oracle := fun op =>
  match op with
  | .cp (Side.legacy, ["workspaces", "acme"])
      (Side.canonical, ["workspaces", "acme"]) true => true
  | _ => false

/-- Input for the C10 witness: legacy has workspace `acme`, canonical has
an empty root. -/
def c10Fs : FS :=
  ⟨some (.dir [("workspaces", .dir [("acme",
      .dir [("config.json", .file "cfg" 3)])])]),
   some (.dir [])⟩

/-- State after the failed whole-workspace copy: the canonical workspace
directory exists, empty. -/
def c10Fs1 : FS :=
  ⟨some (.dir [("workspaces", .dir [("acme",
      .dir [("config.json", .file "cfg" 3)])])]),
   some (.dir [("workspaces", .dir [("acme", .dir [])])])⟩

/-- Concrete instance of C10: the `acme` copy fails, the directory stays,
the next evaluation of the slug takes the per-part branch. -/
theorem syncWorkspaceSlug_mkdir_then_copy_witness :
    syncWorkspaceSlug c10Oracle 5 (c10Fs, 0) "acme" = (c10Fs1, 0) ∧
    resolve c10Fs1 ⟨.canonical, ["workspaces", "acme"]⟩ = some (.dir []) ∧
    syncWorkspaceSlug noErr 6 (c10Fs1, 0) "acme" =
      ((syncWorkspaceParts noErr 6 c10Fs1 ⟨.legacy, ["workspaces", "acme"]⟩
          ⟨.canonical, ["workspaces", "acme"]⟩).1,
       0 + (syncWorkspaceParts noErr 6 c10Fs1 ⟨.legacy, ["workspaces", "acme"]⟩
          ⟨.canonical, ["workspaces", "acme"]⟩).2) := by
  obtain ⟨h1, h2, h3⟩ := syncWorkspaceSlug_mkdir_then_copy c10Oracle 5 c10Fs 0
    "acme" c10Fs1 rfl rfl rfl
  exact ⟨h1, h2, h3 noErr 6 c10Fs1 0 (.dir []) h2⟩

/-! ### C9 (amended): the aggregate count is computed and logged, not
returned -/

/-- Counter-shift law for a fold step that only ever adds to the running
count: folding from count `c` equals folding from 0 with `c` added. -/
theorem foldl_count_shift (step : FS × Nat → String → FS × Nat)
    (hstep : ∀ p x, step p x = ((step (p.1, 0) x).1, p.2 + (step (p.1, 0) x).2))
    (l : List String) : ∀ (fs : FS) (c : Nat),
    l.foldl step (fs, c) =
      ((l.foldl step (fs, 0)).1, c + (l.foldl step (fs, 0)).2) := by
  induction l with
  | nil => intro fs c; simp
  | cons x l ih =>
    intro fs c
    rw [List.foldl_cons, List.foldl_cons, hstep (fs, c) x, hstep (fs, 0) x]
    simp only [Nat.zero_add]
    rw [ih (step (fs, 0) x).1 (c + (step (fs, 0) x).2),
      ih (step (fs, 0) x).1 (step (fs, 0) x).2]
    simp [Nat.add_assoc]

theorem topFileStep_shift (σ : Oracle) (now : Nat) :
    ∀ p x, topFileStep σ now p x =
      ((topFileStep σ now (p.1, 0) x).1, p.2 + (topFileStep σ now (p.1, 0) x).2) := by
  intro p x
  obtain ⟨fs, c⟩ := p
  cases h : (syncFile σ now fs ⟨.legacy, [x]⟩ ⟨.canonical, [x]⟩).2 <;>
    simp [topFileStep, h]

theorem topDirStep_shift (σ : Oracle) (now : Nat) :
    ∀ p x, topDirStep σ now p x =
      ((topDirStep σ now (p.1, 0) x).1, p.2 + (topDirStep σ now (p.1, 0) x).2) := by
  intro p x
  obtain ⟨fs, c⟩ := p
  cases h1 : existsL fs ⟨.legacy, [x]⟩ with
  | false => simp [topDirStep, h1]
  | true =>
    cases h2 : existsL fs ⟨.canonical, [x]⟩ with
    | true => simp [topDirStep, h1, h2]
    | false =>
      cases h3 : cpRecS σ now fs ⟨.legacy, [x]⟩ ⟨.canonical, [x]⟩ with
      | error e => simp [topDirStep, h1, h2, h3]
      | ok fs1 => simp [topDirStep, h1, h2, h3]

/-- C9 (amended): when the legacy root exists and the canonical root is
ensured, the entry point internally accumulates the aggregate change count
as the sum of the top-level-file contributions, the top-level-directory
contributions and the workspace contributions (each phase counted from
zero); this count is only logged — the value returned to the caller is the
unit value, since the TypeScript signature is `(): void`. -/
theorem migrate_void_with_logged_aggregate (σ : Oracle) (now : Nat) (fs : FS)
    (hleg : existsL fs LEGACY_ROOT = true) (fs0 : FS)
    (hens : (if existsL fs CONFIG_ROOT then Except.ok fs
             else mkdirS σ fs CONFIG_ROOT) = Except.ok fs0) :
    ∃ fsf nf fsd nd fsw nw,
      topLevelFiles.foldl (topFileStep σ now) (fs0, 0) = (fsf, nf) ∧
      topLevelDirs.foldl (topDirStep σ now) (fsf, 0) = (fsd, nd) ∧
      syncWorkspaces σ now fsd = (fsw, nw) ∧
      migrateCore σ now fs = .ok (fsw, nf + nd + nw) ∧
      migrateFromLegacyConfigDir σ now fs = .ok (fsw, ()) := by
  cases hF : topLevelFiles.foldl (topFileStep σ now) (fs0, 0) with
  | mk fsf nf =>
  cases hD : topLevelDirs.foldl (topDirStep σ now) (fsf, 0) with
  | mk fsd nd =>
  cases hW : syncWorkspaces σ now fsd with
  | mk fsw nw =>
  have hshift := foldl_count_shift (topDirStep σ now) (topDirStep_shift σ now)
    topLevelDirs fsf nf
  rw [hD] at hshift
  have hcore : migrateCore σ now fs = .ok (fsw, nf + nd + nw) := by
    simp [migrateCore, hleg, hens, hF, hshift, hW]
  refine ⟨fsf, nf, fsd, nd, fsw, nw, rfl, hD, hW, hcore, ?_⟩
  unfold migrateFromLegacyConfigDir
  rw [hcore]
  rfl

/-- Concrete instance of the amended C9, on the same run as the
counterexample input. -/
theorem migrate_void_with_logged_aggregate_witness :
    ∃ fsf nf fsd nd fsw nw,
      topLevelFiles.foldl (topFileStep noErr 10)
        (⟨some (.dir [("config.json", .file "x" 5)]), some (.dir [])⟩, 0) =
        (fsf, nf) ∧
      topLevelDirs.foldl (topDirStep noErr 10) (fsf, 0) = (fsd, nd) ∧
      syncWorkspaces noErr 10 fsd = (fsw, nw) ∧
      migrateCore noErr 10 c9Fs = .ok (fsw, nf + nd + nw) ∧
      migrateFromLegacyConfigDir noErr 10 c9Fs = .ok (fsw, ()) :=
  migrate_void_with_logged_aggregate noErr 10 c9Fs rfl
    ⟨some (.dir [("config.json", .file "x" 5)]), some (.dir [])⟩ rfl

/-! ### C2: non-destructiveness machinery -/

/-- How a node at a fixed path may change under the synchronizer's writes:
an absent node may become anything, a present node stays present and keeps
its kind (file or directory).  This is the per-path invariant behind
"never deletes a path". -/
def optEvolve : Option FSNode → Option FSNode → Prop
  | none, _ => True
  | some _, none => False
  | some x, some y => x.isDir = y.isDir

theorem optEvolve_refl (o : Option FSNode) : optEvolve o o := by
  cases o with
  | none => trivial
  | some x => exact rfl

theorem optEvolve_trans {a b c : Option FSNode} (h1 : optEvolve a b)
    (h2 : optEvolve b c) : optEvolve a c := by
  cases a with
  | none => trivial
  | some x =>
    cases b with
    | none => exact absurd h1 (by simp [optEvolve])
    | some y =>
      cases c with
      | none => exact absurd h2 (by simp [optEvolve])
      | some z => exact h1.trans h2

theorem find?_append_none {n : FSNode} {p : List String}
    (h : n.find? p = none) (ext : List String) : n.find? (p ++ ext) = none := by
  rw [find?_append, h, Option.none_bind]

/-- `mkdir -p` never removes a path and never changes the kind of an
existing node. -/
theorem mkdirpN_evolve (n : FSNode) (p : List String) (n' : FSNode)
    (h : mkdirpN n p = some n') :
    ∀ q, optEvolve (n.find? q) (n'.find? q) := by
  induction p generalizing n n' with
  | nil =>
    cases n with
    | file c m => rw [mkdirpN] at h; exact absurd h (by simp)
    | dir es =>
      rw [mkdirpN] at h
      simp only [Option.some.injEq] at h
      subst h
      intro q
      exact optEvolve_refl _
  | cons a as ih =>
    cases n with
    | file c m => rw [mkdirpN] at h; exact absurd h (by simp)
    | dir es =>
      cases hle : lookupEntry es a with
      | some c =>
        rw [mkdirpN_cons_hit es a as c hle] at h
        cases hmk : mkdirpN c as with
        | none => rw [hmk] at h; exact absurd h (by simp)
        | some c' =>
          rw [hmk, Option.map_some'] at h
          simp only [Option.some.injEq] at h
          subst h
          intro q
          cases q with
          | nil => rfl
          | cons b bs =>
            by_cases hb : b = a
            · subst hb
              rw [find?_dir_upd_self, find?_cons_dir, hle, Option.some_bind]
              exact ih c c' hmk bs
            · rw [find?_dir_upd_ne es a c' b bs (fun hh => hb hh.symm)]
              exact optEvolve_refl _
      | none =>
        rw [mkdirpN_cons_miss es a as hle] at h
        simp only [Option.some.injEq] at h
        subst h
        intro q
        cases q with
        | nil => rfl
        | cons b bs =>
          by_cases hb : b = a
          · subst hb
            rw [find?_cons_dir, hle, Option.none_bind]
            trivial
          · rw [find?_dir_upd_ne es a (mkDirs as) b bs (fun hh => hb hh.symm)]
            exact optEvolve_refl _

/-- Writing at a nonempty path whose subtree evolution is given never
removes a path and never changes the kind of an existing node elsewhere. -/
theorem placeAt_evolve (r : FSNode) (p : List String) (v r' : FSNode)
    (h : placeAt r p v = some r')
    (hsub : ∀ ext, optEvolve (r.find? (p ++ ext)) (v.find? ext)) :
    ∀ q, optEvolve (r.find? q) (r'.find? q) := by
  induction p generalizing r r' with
  | nil =>
    rw [placeAt_nil] at h
    simp only [Option.some.injEq] at h
    subst h
    intro q
    have := hsub q
    rw [List.nil_append] at this
    exact this
  | cons a as ih =>
    cases r with
    | file c m => rw [placeAt_file] at h; exact absurd h (by simp)
    | dir es =>
      cases as with
      | nil =>
        rw [placeAt_single] at h
        simp only [Option.some.injEq] at h
        subst h
        intro q
        cases q with
        | nil => rfl
        | cons b bs =>
          by_cases hb : b = a
          · subst hb
            rw [find?_dir_upd_self]
            have := hsub bs
            rw [List.singleton_append] at this
            exact this
          · rw [find?_dir_upd_ne es a v b bs (fun hh => hb hh.symm)]
            exact optEvolve_refl _
      | cons a' as' =>
        rw [placeAt_cons2] at h
        cases hle : lookupEntry es a with
        | none => rw [hle, Option.none_bind] at h; exact absurd h (by simp)
        | some c =>
          rw [hle, Option.some_bind] at h
          cases hpl : placeAt c (a' :: as') v with
          | none => rw [hpl, Option.map_none'] at h; exact absurd h (by simp)
          | some c' =>
            rw [hpl, Option.map_some'] at h
            simp only [Option.some.injEq] at h
            subst h
            have hsub' : ∀ ext,
                optEvolve (c.find? ((a' :: as') ++ ext)) (v.find? ext) := by
              intro ext
              have := hsub ext
              rw [List.cons_append, find?_cons_dir, hle, Option.some_bind]
                at this
              exact this
            intro q
            cases q with
            | nil => rfl
            | cons b bs =>
              by_cases hb : b = a
              · subst hb
                rw [find?_dir_upd_self, find?_cons_dir, hle, Option.some_bind]
                exact ih c c' hpl hsub' bs
              · rw [find?_dir_upd_ne es a c' b bs (fun hh => hb hh.symm)]
                exact optEvolve_refl _

mutual
/-- A recursive-copy merge never removes a destination path and never
changes the kind of an existing destination node. -/
theorem mergeCp_evolve (now : Nat) (sn dn m : FSNode)
    (h : mergeCp now sn dn = some m) :
    ∀ q, optEvolve (dn.find? q) (m.find? q) := by
  cases sn with
  | file c mt =>
    cases dn with
    | file c' mt' =>
      rw [mergeCp] at h
      simp only [Option.some.injEq] at h
      subst h
      intro q
      cases q with
      | nil => rfl
      | cons b bs => rw [find?_cons_file]; trivial
    | dir es' => rw [mergeCp] at h; exact absurd h (by simp)
  | dir es =>
    cases dn with
    | file c' mt' => rw [mergeCp] at h; exact absurd h (by simp)
    | dir es' =>
      rw [mergeCp] at h
      cases hme : mergeEntries now es es' with
      | none => rw [hme, Option.map_none'] at h; exact absurd h (by simp)
      | some acc' =>
        rw [hme, Option.map_some'] at h
        simp only [Option.some.injEq] at h
        subst h
        intro q
        cases q with
        | nil => rfl
        | cons b bs =>
          rw [find?_cons_dir, find?_cons_dir]
          exact mergeEntries_evolve now es es' acc' hme b bs

/-- Entry-list version of `mergeCp_evolve`. -/
theorem mergeEntries_evolve (now : Nat) (es acc acc' : List (String × FSNode))
    (h : mergeEntries now es acc = some acc') (k : String) (bs : List String) :
    optEvolve ((lookupEntry acc k).bind (fun n => n.find? bs))
      ((lookupEntry acc' k).bind (fun n => n.find? bs)) := by
  cases es with
  | nil =>
    rw [mergeEntries] at h
    simp only [Option.some.injEq] at h
    subst h
    exact optEvolve_refl _
  | cons e es =>
    obtain ⟨k0, v0⟩ := e
    cases hl : lookupEntry acc k0 with
    | none =>
      rw [show mergeEntries now ((k0, v0) :: es) acc =
          mergeEntries now es (updEntries acc k0 (cpNode now v0)) by
        simp only [mergeEntries, hl]] at h
      have hrec := mergeEntries_evolve now es
        (updEntries acc k0 (cpNode now v0)) acc' h k bs
      by_cases hk : k0 = k
      · subst hk
        rw [hl, Option.none_bind]
        trivial
      · rw [lookupEntry_upd, if_neg hk] at hrec
        exact hrec
    | some d0 =>
      rw [show mergeEntries now ((k0, v0) :: es) acc =
          (mergeCp now v0 d0).bind
            (fun m => mergeEntries now es (updEntries acc k0 m)) by
        simp only [mergeEntries, hl]] at h
      cases hm0 : mergeCp now v0 d0 with
      | none => rw [hm0, Option.none_bind] at h; exact absurd h (by simp)
      | some m0 =>
        rw [hm0, Option.some_bind] at h
        have hrec := mergeEntries_evolve now es (updEntries acc k0 m0) acc' h
          k bs
        by_cases hk : k0 = k
        · subst hk
          rw [lookupEntry_upd, if_pos rfl] at hrec
          rw [hl]
          rw [Option.some_bind] at hrec ⊢
          exact optEvolve_trans (mergeCp_evolve now v0 d0 m0 hm0 bs) hrec
        · rw [lookupEntry_upd, if_neg hk] at hrec
          exact hrec
end

/-- The whole-run evolution relation: the legacy tree is untouched, and on
the canonical side every path only ever evolves (a present node stays
present with its kind). -/
def Evolves (fs fs' : FS) : Prop :=
  fs'.legacyTree = fs.legacyTree ∧
  ∀ p : List String,
    optEvolve (resolve fs ⟨.canonical, p⟩) (resolve fs' ⟨.canonical, p⟩)

theorem Evolves.refl (fs : FS) : Evolves fs fs :=
  ⟨rfl, fun _ => optEvolve_refl _⟩

theorem Evolves.trans {fs1 fs2 fs3 : FS} (h1 : Evolves fs1 fs2)
    (h2 : Evolves fs2 fs3) : Evolves fs1 fs3 :=
  ⟨h2.1.trans h1.1, fun p => optEvolve_trans (h1.2 p) (h2.2 p)⟩

theorem resolve_canonical_eq (fs : FS) (p : List String) :
    resolve fs ⟨.canonical, p⟩ =
      (fs.canonicalTree).bind (fun r => r.find? p) := by
  cases h : fs.canonicalTree <;> simp [resolve, FS.tree, h]

/-- A write through `writeAt` on the canonical side evolves the state,
provided the written node evolves the subtree it replaces. -/
theorem writeAt_evolves (fs : FS) (p : List String) (v : FSNode)
    (t : Option FSNode)
    (hw : writeAt fs.canonicalTree p v = some t)
    (hsub : ∀ ext, optEvolve (resolve fs ⟨.canonical, p ++ ext⟩) (v.find? ext)) :
    Evolves fs (fs.setTree .canonical t) := by
  cases hroot : fs.canonicalTree with
  | none =>
    refine ⟨rfl, ?_⟩
    intro q
    rw [resolve_canonical_eq, hroot, Option.none_bind]
    trivial
  | some r =>
    rw [hroot, writeAt_some] at hw
    cases hpl : placeAt r p v with
    | none => rw [hpl] at hw; exact absurd hw (by simp)
    | some r' =>
      rw [hpl, Option.map_some'] at hw
      simp only [Option.some.injEq] at hw
      subst hw
      have hev := placeAt_evolve r p v r' hpl (fun ext => by
        have h1 := hsub ext
        rw [resolve_canonical_eq, hroot, Option.some_bind, find?_append] at h1
        rw [find?_append]
        exact h1)
      refine ⟨rfl, ?_⟩
      intro q
      rw [resolve_canonical_eq, hroot, Option.some_bind, resolve_setTree_same]
      exact hev q

/-- Inversion of a successful `mkdirSync`. -/
theorem mkdirS_ok_inv (σ : Oracle) (fs : FS) (l : Loc) (fs' : FS)
    (h : mkdirS σ fs l = .ok fs') :
    ∃ r, mkdirp (fs.tree l.side) l.path = some r ∧
      fs' = fs.setTree l.side (some r) := by
  cases hσ : σ (.mkdir l.side l.path) with
  | true =>
    have hcomp : mkdirS σ fs l = .error () := by simp [mkdirS, hσ]
    rw [hcomp] at h
    exact absurd h (by simp)
  | false =>
    cases hmp : mkdirp (fs.tree l.side) l.path with
    | none =>
      have hcomp : mkdirS σ fs l = .error () := by simp [mkdirS, hσ, hmp]
      rw [hcomp] at h
      exact absurd h (by simp)
    | some r =>
      have hcomp : mkdirS σ fs l = .ok (fs.setTree l.side (some r)) := by
        simp [mkdirS, hσ, hmp]
      rw [hcomp] at h
      simp only [Except.ok.injEq] at h
      exact ⟨r, rfl, h.symm⟩

/-- Inversion of a successful single-file `cpSync`: the source is a regular
file, the destination is not an existing directory, and the new state is a
`writeAt` of the fresh file. -/
theorem cpFileS_ok_inv (σ : Oracle) (now : Nat) (fs : FS) (src dst : Loc)
    (fs' : FS) (h : cpFileS σ now fs src dst = .ok fs') :
    ∃ c m t, resolve fs src = some (.file c m) ∧
      (resolve fs dst = none ∨ ∃ c' m', resolve fs dst = some (.file c' m')) ∧
      writeAt (fs.tree dst.side) dst.path (.file c now) = some t ∧
      fs' = fs.setTree dst.side t := by
  cases hσ : σ (.cp (src.side, src.path) (dst.side, dst.path) false) with
  | true =>
    have hcomp : cpFileS σ now fs src dst = .error () := by simp [cpFileS, hσ]
    rw [hcomp] at h; exact absurd h (by simp)
  | false =>
    cases hs : resolve fs src with
    | none =>
      have hcomp : cpFileS σ now fs src dst = .error () := by
        simp [cpFileS, hσ, hs]
      rw [hcomp] at h; exact absurd h (by simp)
    | some sn =>
      cases sn with
      | dir es =>
        have hcomp : cpFileS σ now fs src dst = .error () := by
          simp [cpFileS, hσ, hs]
        rw [hcomp] at h; exact absurd h (by simp)
      | file c m =>
        cases hd : resolve fs dst with
        | some dn =>
          cases dn with
          | dir es =>
            have hcomp : cpFileS σ now fs src dst = .error () := by
              simp [cpFileS, hσ, hs, hd]
            rw [hcomp] at h; exact absurd h (by simp)
          | file c' m' =>
            cases hw : writeAt (fs.tree dst.side) dst.path (.file c now) with
            | none =>
              have hcomp : cpFileS σ now fs src dst = .error () := by
                simp [cpFileS, hσ, hs, hd, hw]
              rw [hcomp] at h; exact absurd h (by simp)
            | some t =>
              have hcomp : cpFileS σ now fs src dst =
                  .ok (fs.setTree dst.side t) := by
                simp [cpFileS, hσ, hs, hd, hw]
              rw [hcomp] at h
              simp only [Except.ok.injEq] at h
              exact ⟨c, m, t, rfl, Or.inr ⟨c', m', rfl⟩, hw, h.symm⟩
        | none =>
          cases hw : writeAt (fs.tree dst.side) dst.path (.file c now) with
          | none =>
            have hcomp : cpFileS σ now fs src dst = .error () := by
              simp [cpFileS, hσ, hs, hd, hw]
            rw [hcomp] at h; exact absurd h (by simp)
          | some t =>
            have hcomp : cpFileS σ now fs src dst =
                .ok (fs.setTree dst.side t) := by
              simp [cpFileS, hσ, hs, hd, hw]
            rw [hcomp] at h
            simp only [Except.ok.injEq] at h
            exact ⟨c, m, t, rfl, Or.inl rfl, hw, h.symm⟩

/-- Inversion of a successful recursive `cpSync`. -/
theorem cpRecS_ok_inv (σ : Oracle) (now : Nat) (fs : FS) (src dst : Loc)
    (fs' : FS) (h : cpRecS σ now fs src dst = .ok fs') :
    ∃ sn t, resolve fs src = some sn ∧
      ((resolve fs dst = none ∧
        writeAt (fs.tree dst.side) dst.path (cpNode now sn) = some t) ∨
       (∃ dn m, resolve fs dst = some dn ∧ mergeCp now sn dn = some m ∧
        writeAt (fs.tree dst.side) dst.path m = some t)) ∧
      fs' = fs.setTree dst.side t := by
  cases hσ : σ (.cp (src.side, src.path) (dst.side, dst.path) true) with
  | true =>
    have hcomp : cpRecS σ now fs src dst = .error () := by simp [cpRecS, hσ]
    rw [hcomp] at h; exact absurd h (by simp)
  | false =>
    cases hs : resolve fs src with
    | none =>
      have hcomp : cpRecS σ now fs src dst = .error () := by
        simp [cpRecS, hσ, hs]
      rw [hcomp] at h; exact absurd h (by simp)
    | some sn =>
      cases hd : resolve fs dst with
      | none =>
        cases hw : writeAt (fs.tree dst.side) dst.path (cpNode now sn) with
        | none =>
          have hcomp : cpRecS σ now fs src dst = .error () := by
            simp [cpRecS, hσ, hs, hd, hw]
          rw [hcomp] at h; exact absurd h (by simp)
        | some t =>
          have hcomp : cpRecS σ now fs src dst =
              .ok (fs.setTree dst.side t) := by
            simp [cpRecS, hσ, hs, hd, hw]
          rw [hcomp] at h
          simp only [Except.ok.injEq] at h
          exact ⟨sn, t, rfl, Or.inl ⟨rfl, hw⟩, h.symm⟩
      | some dn =>
        cases hm : mergeCp now sn dn with
        | none =>
          have hcomp : cpRecS σ now fs src dst = .error () := by
            simp [cpRecS, hσ, hs, hd, hm]
          rw [hcomp] at h; exact absurd h (by simp)
        | some m =>
          cases hw : writeAt (fs.tree dst.side) dst.path m with
          | none =>
            have hcomp : cpRecS σ now fs src dst = .error () := by
              simp [cpRecS, hσ, hs, hd, hm, hw]
            rw [hcomp] at h; exact absurd h (by simp)
          | some t =>
            have hcomp : cpRecS σ now fs src dst =
                .ok (fs.setTree dst.side t) := by
              simp [cpRecS, hσ, hs, hd, hm, hw]
            rw [hcomp] at h
            simp only [Except.ok.injEq] at h
            exact ⟨sn, t, rfl, Or.inr ⟨dn, m, rfl, hm, hw⟩, h.symm⟩

theorem mkdirS_evolves (σ : Oracle) (fs : FS) (p : List String) (fs' : FS)
    (h : mkdirS σ fs ⟨.canonical, p⟩ = .ok fs') : Evolves fs fs' := by
  obtain ⟨r, hmp, hfs'⟩ := mkdirS_ok_inv σ fs ⟨.canonical, p⟩ fs' h
  subst hfs'
  unfold mkdirp at hmp
  cases hroot : fs.tree Side.canonical with
  | none =>
    refine ⟨rfl, ?_⟩
    intro q
    rw [resolve_canonical_eq, show fs.canonicalTree = none from hroot,
      Option.none_bind]
    trivial
  | some n =>
    rw [hroot] at hmp
    have hev := mkdirpN_evolve n p r hmp
    refine ⟨rfl, ?_⟩
    intro q
    rw [resolve_canonical_eq, show fs.canonicalTree = some n from hroot,
      Option.some_bind, resolve_setTree_same]
    exact hev q

theorem cpFileS_evolves (σ : Oracle) (now : Nat) (fs : FS) (src : Loc)
    (dp : List String) (fs' : FS)
    (h : cpFileS σ now fs src ⟨.canonical, dp⟩ = .ok fs') : Evolves fs fs' := by
  obtain ⟨c, m, t, hs, hd, hw, hfs'⟩ :=
    cpFileS_ok_inv σ now fs src ⟨.canonical, dp⟩ fs' h
  subst hfs'
  refine writeAt_evolves fs dp (.file c now) t hw ?_
  intro ext
  cases hd with
  | inl hd =>
    rw [resolve_append, hd, Option.none_bind]
    trivial
  | inr hd =>
    obtain ⟨c', m', hd⟩ := hd
    cases ext with
    | nil => rw [List.append_nil, hd]; rfl
    | cons b bs =>
      rw [resolve_append, hd, Option.some_bind, find?_cons_file]
      trivial

theorem cpRecS_evolves (σ : Oracle) (now : Nat) (fs : FS) (src : Loc)
    (dp : List String) (fs' : FS)
    (h : cpRecS σ now fs src ⟨.canonical, dp⟩ = .ok fs') : Evolves fs fs' := by
  obtain ⟨sn, t, hs, hcase, hfs'⟩ :=
    cpRecS_ok_inv σ now fs src ⟨.canonical, dp⟩ fs' h
  subst hfs'
  cases hcase with
  | inl hc =>
    obtain ⟨hd, hw⟩ := hc
    refine writeAt_evolves fs dp (cpNode now sn) t hw ?_
    intro ext
    rw [resolve_append, hd, Option.none_bind]
    trivial
  | inr hc =>
    obtain ⟨dn, mm, hd, hm, hw⟩ := hc
    refine writeAt_evolves fs dp mm t hw ?_
    intro ext
    rw [resolve_append, hd, Option.some_bind]
    exact mergeCp_evolve now sn dn mm hm ext

/-! Per-function evolution lemmas, following the control flow of each
translated function. -/

theorem syncFile_evolves (σ : Oracle) (now : Nat) (fs : FS) (src : Loc)
    (tp : List String) :
    Evolves fs (syncFile σ now fs src ⟨.canonical, tp⟩).1 := by
  cases h1 : existsL fs src with
  | false =>
    have hrun : syncFile σ now fs src ⟨.canonical, tp⟩ = (fs, false) := by
      simp [syncFile, h1]
    rw [hrun]
    exact Evolves.refl fs
  | true =>
    cases h2 : existsL fs ⟨.canonical, tp⟩ with
    | false =>
      cases h3 : (if existsL fs (Loc.parent ⟨.canonical, tp⟩) then Except.ok fs
          else mkdirS σ fs (Loc.parent ⟨.canonical, tp⟩)) with
      | error e =>
        have hrun : syncFile σ now fs src ⟨.canonical, tp⟩ = (fs, false) := by
          simp [syncFile, h1, h2, h3]
        rw [hrun]
        exact Evolves.refl fs
      | ok fs1 =>
        have hev1 : Evolves fs fs1 := by
          cases h4 : existsL fs (Loc.parent ⟨.canonical, tp⟩) with
          | true =>
            rw [h4, if_pos rfl] at h3
            simp only [Except.ok.injEq] at h3
            subst h3
            exact Evolves.refl _
          | false =>
            rw [h4] at h3
            simp only [Bool.false_eq_true, if_false] at h3
            exact mkdirS_evolves σ fs tp.dropLast fs1 h3
        cases h5 : cpFileS σ now fs1 src ⟨.canonical, tp⟩ with
        | error e =>
          have hrun : syncFile σ now fs src ⟨.canonical, tp⟩ = (fs1, false) := by
            simp [syncFile, h1, h2, h3, h5]
          rw [hrun]
          exact hev1
        | ok fs2 =>
          have hrun : syncFile σ now fs src ⟨.canonical, tp⟩ = (fs2, true) := by
            simp [syncFile, h1, h2, h3, h5]
          rw [hrun]
          exact hev1.trans (cpFileS_evolves σ now fs1 src tp fs2 h5)
    | true =>
      cases h3 : statS σ fs src with
      | error e =>
        have hrun : syncFile σ now fs src ⟨.canonical, tp⟩ = (fs, false) := by
          simp [syncFile, h1, h2, h3]
        rw [hrun]
        exact Evolves.refl fs
      | ok sn =>
        cases h4 : statS σ fs ⟨.canonical, tp⟩ with
        | error e =>
          have hrun : syncFile σ now fs src ⟨.canonical, tp⟩ = (fs, false) := by
            simp [syncFile, h1, h2, h3, h4]
          rw [hrun]
          exact Evolves.refl fs
        | ok tn =>
          by_cases h5 : sn.mtime > tn.mtime
          · cases h6 : cpFileS σ now fs src ⟨.canonical, tp⟩ with
            | error e =>
              have hrun : syncFile σ now fs src ⟨.canonical, tp⟩ =
                  (fs, false) := by
                simp [syncFile, h1, h2, h3, h4, h5, h6]
              rw [hrun]
              exact Evolves.refl fs
            | ok fs2 =>
              have hrun : syncFile σ now fs src ⟨.canonical, tp⟩ =
                  (fs2, true) := by
                simp [syncFile, h1, h2, h3, h4, h5, h6]
              rw [hrun]
              exact cpFileS_evolves σ now fs src tp fs2 h6
          · have hrun : syncFile σ now fs src ⟨.canonical, tp⟩ = (fs, false) := by
              simp [syncFile, h1, h2, h3, h4, h5]
            rw [hrun]
            exact Evolves.refl fs

theorem syncEventsFile_evolves (σ : Oracle) (now : Nat) (fs : FS)
    (legacyWs : Loc) (twp : List String) :
    Evolves fs (syncEventsFile σ now fs legacyWs ⟨.canonical, twp⟩).1 := by
  cases h1 : existsL fs (legacyWs.child "events.jsonl") with
  | false =>
    have hrun : syncEventsFile σ now fs legacyWs ⟨.canonical, twp⟩ = (fs, 0) := by
      simp [syncEventsFile, h1]
    rw [hrun]
    exact Evolves.refl fs
  | true =>
    cases h2 : existsL fs (Loc.child ⟨.canonical, twp⟩ "events.jsonl") with
    | false =>
      cases h3 : cpFileS σ now fs (legacyWs.child "events.jsonl")
          (Loc.child ⟨.canonical, twp⟩ "events.jsonl") with
      | error e =>
        have hrun : syncEventsFile σ now fs legacyWs ⟨.canonical, twp⟩ =
            (fs, 0) := by
          simp [syncEventsFile, h1, h2, h3]
        rw [hrun]
        exact Evolves.refl fs
      | ok fs1 =>
        have hrun : syncEventsFile σ now fs legacyWs ⟨.canonical, twp⟩ =
            (fs1, 1) := by
          simp [syncEventsFile, h1, h2, h3]
        rw [hrun]
        exact cpFileS_evolves σ now fs (legacyWs.child "events.jsonl")
          (twp ++ ["events.jsonl"]) fs1 h3
    | true =>
      cases h3 : statS σ fs (legacyWs.child "events.jsonl") with
      | error e =>
        have hrun : syncEventsFile σ now fs legacyWs ⟨.canonical, twp⟩ =
            (fs, 0) := by
          simp [syncEventsFile, h1, h2, h3]
        rw [hrun]
        exact Evolves.refl fs
      | ok sn =>
        cases h4 : statS σ fs (Loc.child ⟨.canonical, twp⟩ "events.jsonl") with
        | error e =>
          have hrun : syncEventsFile σ now fs legacyWs ⟨.canonical, twp⟩ =
              (fs, 0) := by
            simp [syncEventsFile, h1, h2, h3, h4]
          rw [hrun]
          exact Evolves.refl fs
        | ok tn =>
          by_cases h5 : sn.size > tn.size
          · cases h6 : cpFileS σ now fs (legacyWs.child "events.jsonl")
                (Loc.child ⟨.canonical, twp⟩ "events.jsonl") with
            | error e =>
              have hrun : syncEventsFile σ now fs legacyWs ⟨.canonical, twp⟩ =
                  (fs, 0) := by
                simp [syncEventsFile, h1, h2, h3, h4, h5, h6]
              rw [hrun]
              exact Evolves.refl fs
            | ok fs1 =>
              have hrun : syncEventsFile σ now fs legacyWs ⟨.canonical, twp⟩ =
                  (fs1, 1) := by
                simp [syncEventsFile, h1, h2, h3, h4, h5, h6]
              rw [hrun]
              exact cpFileS_evolves σ now fs (legacyWs.child "events.jsonl")
                (twp ++ ["events.jsonl"]) fs1 h6
          · have hrun : syncEventsFile σ now fs legacyWs ⟨.canonical, twp⟩ =
                (fs, 0) := by
              simp [syncEventsFile, h1, h2, h3, h4, h5]
            rw [hrun]
            exact Evolves.refl fs

theorem syncEntryStep_evolves (σ : Oracle) (now : Nat) (sourceDir : Loc)
    (tdp : List String) (acc : FS × Nat) (entry : String) :
    Evolves acc.1 (syncEntryStep σ now sourceDir ⟨.canonical, tdp⟩ acc entry).1 := by
  cases h1 : existsL acc.1 (Loc.child ⟨.canonical, tdp⟩ entry) with
  | true =>
    have hrun : syncEntryStep σ now sourceDir ⟨.canonical, tdp⟩ acc entry =
        acc := by
      simp [syncEntryStep, h1]
    rw [hrun]
    exact Evolves.refl acc.1
  | false =>
    cases h2 : cpRecS σ now acc.1 (sourceDir.child entry)
        (Loc.child ⟨.canonical, tdp⟩ entry) with
    | error e =>
      have hrun : syncEntryStep σ now sourceDir ⟨.canonical, tdp⟩ acc entry =
          acc := by
        simp [syncEntryStep, h1, h2]
      rw [hrun]
      exact Evolves.refl acc.1
    | ok fs1 =>
      have hrun : syncEntryStep σ now sourceDir ⟨.canonical, tdp⟩ acc entry =
          (fs1, acc.2 + 1) := by
        simp [syncEntryStep, h1, h2]
      rw [hrun]
      exact cpRecS_evolves σ now acc.1 (sourceDir.child entry)
        (tdp ++ [entry]) fs1 h2

/-- Folding an evolution-preserving step preserves evolution. -/
theorem foldl_evolves (step : FS × Nat → String → FS × Nat)
    (hstep : ∀ fs c x, Evolves fs (step (fs, c) x).1)
    (l : List String) : ∀ (fs : FS) (c : Nat),
    Evolves fs (l.foldl step (fs, c)).1 := by
  induction l with
  | nil => intro fs c; exact Evolves.refl fs
  | cons x l ih =>
    intro fs c
    rw [List.foldl_cons]
    cases hx : step (fs, c) x with
    | mk fs2 c2 =>
      have h1 : Evolves fs fs2 := by
        have h0 := hstep fs c x
        rw [hx] at h0
        exact h0
      exact h1.trans (ih fs2 c2)

theorem syncSubdirectory_evolves (σ : Oracle) (now : Nat) (fs : FS)
    (legacyWs : Loc) (twp : List String) (subdir : String) :
    Evolves fs (syncSubdirectory σ now fs legacyWs ⟨.canonical, twp⟩ subdir).1 := by
  cases h1 : existsL fs (legacyWs.child subdir) with
  | false =>
    have hrun : syncSubdirectory σ now fs legacyWs ⟨.canonical, twp⟩ subdir =
        (fs, 0) := by
      simp [syncSubdirectory, h1]
    rw [hrun]
    exact Evolves.refl fs
  | true =>
    cases h2 : existsL fs (Loc.child ⟨.canonical, twp⟩ subdir) with
    | false =>
      cases h3 : cpRecS σ now fs (legacyWs.child subdir)
          (Loc.child ⟨.canonical, twp⟩ subdir) with
      | error e =>
        have hrun : syncSubdirectory σ now fs legacyWs ⟨.canonical, twp⟩
            subdir = (fs, 0) := by
          simp [syncSubdirectory, h1, h2, h3]
        rw [hrun]
        exact Evolves.refl fs
      | ok fs1 =>
        have hrun : syncSubdirectory σ now fs legacyWs ⟨.canonical, twp⟩
            subdir = (fs1, 1) := by
          simp [syncSubdirectory, h1, h2, h3]
        rw [hrun]
        exact cpRecS_evolves σ now fs (legacyWs.child subdir)
          (twp ++ [subdir]) fs1 h3
    | true =>
      cases h3 : readdirS σ fs (legacyWs.child subdir) with
      | error e =>
        have hrun : syncSubdirectory σ now fs legacyWs ⟨.canonical, twp⟩
            subdir = (fs, 0) := by
          simp [syncSubdirectory, h1, h2, h3]
        rw [hrun]
        exact Evolves.refl fs
      | ok entries =>
        have hrun : syncSubdirectory σ now fs legacyWs ⟨.canonical, twp⟩
            subdir = entries.foldl
              (syncEntryStep σ now (legacyWs.child subdir)
                (Loc.child ⟨.canonical, twp⟩ subdir)) (fs, 0) := by
          simp [syncSubdirectory, h1, h2, h3]
        rw [hrun]
        exact foldl_evolves _
          (fun fs' c x => syncEntryStep_evolves σ now (legacyWs.child subdir)
            (twp ++ [subdir]) (fs', c) x) entries fs 0

theorem syncWorkspaceParts_evolves (σ : Oracle) (now : Nat) (fs : FS)
    (legacyWs : Loc) (twp : List String) :
    Evolves fs (syncWorkspaceParts σ now fs legacyWs ⟨.canonical, twp⟩).1 := by
  cases hF : workspaceFiles.foldl (wsFileStep σ now legacyWs ⟨.canonical, twp⟩)
      (fs, 0) with
  | mk fs1 c1 =>
  cases hE : syncEventsFile σ now fs1 legacyWs ⟨.canonical, twp⟩ with
  | mk fs2 c2 =>
  cases hS : workspaceSubdirs.foldl (wsSubdirStep σ now legacyWs
      ⟨.canonical, twp⟩) (fs2, c1 + c2) with
  | mk fs3 c3 =>
  have hrun : syncWorkspaceParts σ now fs legacyWs ⟨.canonical, twp⟩ =
      (fs3, c3) := by
    simp [syncWorkspaceParts, hF, hE, hS]
  rw [hrun]
  have hev1 : Evolves fs fs1 := by
    have h0 := foldl_evolves (wsFileStep σ now legacyWs ⟨.canonical, twp⟩)
      (fun fs' c x => syncFile_evolves σ now fs' (legacyWs.child x) (twp ++ [x]))
      workspaceFiles fs 0
    rw [hF] at h0
    exact h0
  have hev2 : Evolves fs1 fs2 := by
    have h0 := syncEventsFile_evolves σ now fs1 legacyWs twp
    rw [hE] at h0
    exact h0
  have hev3 : Evolves fs2 fs3 := by
    have h0 := foldl_evolves (wsSubdirStep σ now legacyWs ⟨.canonical, twp⟩)
      (fun fs' c x => syncSubdirectory_evolves σ now fs' legacyWs twp x)
      workspaceSubdirs fs2 (c1 + c2)
    rw [hS] at h0
    exact h0
  exact (hev1.trans hev2).trans hev3

theorem syncWorkspaceSlug_evolves (σ : Oracle) (now : Nat) (acc : FS × Nat)
    (slug : String) :
    Evolves acc.1 (syncWorkspaceSlug σ now acc slug).1 := by
  cases h1 : existsL acc.1 ⟨.canonical, ["workspaces", slug]⟩ with
  | true =>
    cases hP : syncWorkspaceParts σ now acc.1 ⟨.legacy, ["workspaces", slug]⟩
        ⟨.canonical, ["workspaces", slug]⟩ with
    | mk fs1 c1 =>
      have hrun : syncWorkspaceSlug σ now acc slug = (fs1, acc.2 + c1) := by
        simp [syncWorkspaceSlug, h1, hP]
      rw [hrun]
      have h0 := syncWorkspaceParts_evolves σ now acc.1
        ⟨.legacy, ["workspaces", slug]⟩ ["workspaces", slug]
      rw [hP] at h0
      exact h0
  | false =>
    cases h2 : mkdirS σ acc.1 ⟨.canonical, ["workspaces", slug]⟩ with
    | error e =>
      have hrun : syncWorkspaceSlug σ now acc slug = acc := by
        simp [syncWorkspaceSlug, h1, h2]
      rw [hrun]
      exact Evolves.refl acc.1
    | ok fs1 =>
      have hev1 : Evolves acc.1 fs1 :=
        mkdirS_evolves σ acc.1 ["workspaces", slug] fs1 h2
      cases h3 : cpRecS σ now fs1 ⟨.legacy, ["workspaces", slug]⟩
          ⟨.canonical, ["workspaces", slug]⟩ with
      | error e =>
        have hrun : syncWorkspaceSlug σ now acc slug = (fs1, acc.2) := by
          simp [syncWorkspaceSlug, h1, h2, h3]
        rw [hrun]
        exact hev1
      | ok fs2 =>
        have hrun : syncWorkspaceSlug σ now acc slug = (fs2, acc.2 + 1) := by
          simp [syncWorkspaceSlug, h1, h2, h3]
        rw [hrun]
        exact hev1.trans (cpRecS_evolves σ now fs1
          ⟨.legacy, ["workspaces", slug]⟩ ["workspaces", slug] fs2 h3)

theorem syncWorkspaces_evolves (σ : Oracle) (now : Nat) (fs : FS) :
    Evolves fs (syncWorkspaces σ now fs).1 := by
  cases h1 : existsL fs ⟨.legacy, ["workspaces"]⟩ with
  | false =>
    have hrun : syncWorkspaces σ now fs = (fs, 0) := by
      simp [syncWorkspaces, h1]
    rw [hrun]
    exact Evolves.refl fs
  | true =>
    cases h2 : readdirS σ fs ⟨.legacy, ["workspaces"]⟩ with
    | error e =>
      have hrun : syncWorkspaces σ now fs = (fs, 0) := by
        simp [syncWorkspaces, h1, h2]
      rw [hrun]
      exact Evolves.refl fs
    | ok entries =>
      have hrun : syncWorkspaces σ now fs =
          (entries.filter (fun e =>
            match statS σ fs (Loc.child ⟨.legacy, ["workspaces"]⟩ e) with
            | .ok n => n.isDir
            | .error _ => false)).foldl (syncWorkspaceSlug σ now) (fs, 0) := by
        simp [syncWorkspaces, h1, h2]
      rw [hrun]
      exact foldl_evolves _
        (fun fs' c x => syncWorkspaceSlug_evolves σ now (fs', c) x) _ fs 0

theorem topDirStep_evolves (σ : Oracle) (now : Nat) (fs : FS) (c : Nat)
    (x : String) : Evolves fs (topDirStep σ now (fs, c) x).1 := by
  cases hx1 : existsL fs ⟨.legacy, [x]⟩ with
  | false =>
    have hrun : topDirStep σ now (fs, c) x = (fs, c) := by
      simp [topDirStep, hx1]
    rw [hrun]
    exact Evolves.refl fs
  | true =>
    cases hx2 : existsL fs ⟨.canonical, [x]⟩ with
    | true =>
      have hrun : topDirStep σ now (fs, c) x = (fs, c) := by
        simp [topDirStep, hx1, hx2]
      rw [hrun]
      exact Evolves.refl fs
    | false =>
      cases hx3 : cpRecS σ now fs ⟨.legacy, [x]⟩ ⟨.canonical, [x]⟩ with
      | error e =>
        have hrun : topDirStep σ now (fs, c) x = (fs, c) := by
          simp [topDirStep, hx1, hx2, hx3]
        rw [hrun]
        exact Evolves.refl fs
      | ok fs1 =>
        have hrun : topDirStep σ now (fs, c) x = (fs1, c + 1) := by
          simp [topDirStep, hx1, hx2, hx3]
        rw [hrun]
        exact cpRecS_evolves σ now fs ⟨.legacy, [x]⟩ [x] fs1 hx3

/-- C2 (core form): a run of the synchronizer never touches the legacy
tree and never removes a canonical path; on the error path the state at the
throw is the untouched input state. -/
theorem migrateCore_evolves (σ : Oracle) (now : Nat) (fs : FS) :
    (∀ fs' n, migrateCore σ now fs = .ok (fs', n) → Evolves fs fs') ∧
    (∀ fs', migrateCore σ now fs = .error fs' → fs' = fs) := by
  cases h1 : existsL fs LEGACY_ROOT with
  | false =>
    have hrun : migrateCore σ now fs = .ok (fs, 0) := by
      simp [migrateCore, h1]
    constructor
    · intro fs' n h
      rw [hrun] at h
      simp only [Except.ok.injEq, Prod.mk.injEq] at h
      rw [← h.1]
      exact Evolves.refl fs
    · intro fs' h
      rw [hrun] at h
      exact absurd h (by simp)
  | true =>
    cases h2 : (if existsL fs CONFIG_ROOT then Except.ok fs
        else mkdirS σ fs CONFIG_ROOT) with
    | error e =>
      have hrun : migrateCore σ now fs = .error fs := by
        simp [migrateCore, h1, h2]
      constructor
      · intro fs' n h
        rw [hrun] at h
        exact absurd h (by simp)
      · intro fs' h
        rw [hrun] at h
        simp only [Except.error.injEq] at h
        exact h.symm
    | ok fs0 =>
      have hev0 : Evolves fs fs0 := by
        cases h3 : existsL fs CONFIG_ROOT with
        | true =>
          rw [h3, if_pos rfl] at h2
          simp only [Except.ok.injEq] at h2
          subst h2
          exact Evolves.refl _
        | false =>
          rw [h3] at h2
          simp only [Bool.false_eq_true, if_false] at h2
          exact mkdirS_evolves σ fs [] fs0 h2
      cases hF : topLevelFiles.foldl (topFileStep σ now) (fs0, 0) with
      | mk fs1 c1 =>
      cases hD : topLevelDirs.foldl (topDirStep σ now) (fs1, c1) with
      | mk fs2 c2 =>
      cases hW : syncWorkspaces σ now fs2 with
      | mk fs3 c3 =>
      have hrun : migrateCore σ now fs = .ok (fs3, c2 + c3) := by
        simp [migrateCore, h1, h2, hF, hD, hW]
      have hev1 : Evolves fs0 fs1 := by
        have h0 := foldl_evolves (topFileStep σ now)
          (fun fs' c x => syncFile_evolves σ now fs' ⟨.legacy, [x]⟩ [x])
          topLevelFiles fs0 0
        rw [hF] at h0
        exact h0
      have hev2 : Evolves fs1 fs2 := by
        have h0 := foldl_evolves (topDirStep σ now)
          (fun fs' c x => topDirStep_evolves σ now fs' c x)
          topLevelDirs fs1 c1
        rw [hD] at h0
        exact h0
      have hev3 : Evolves fs2 fs3 := by
        have h0 := syncWorkspaces_evolves σ now fs2
        rw [hW] at h0
        exact h0
      constructor
      · intro fs' n h
        rw [hrun] at h
        simp only [Except.ok.injEq, Prod.mk.injEq] at h
        rw [← h.1]
        exact ((hev0.trans hev1).trans hev2).trans hev3
      · intro fs' h
        rw [hrun] at h
        exact absurd h (by simp)

/-- C2: no run of `migrateFromLegacyConfigDir` deletes a path from either
tree: the legacy tree's byte content is exactly unchanged, every canonical
path present before a run is still present after it (every write in the
routine targets the canonical side), and on the escaping-error path the
state is the untouched input. -/
theorem migrate_non_destructive (σ : Oracle) (now : Nat) (fs : FS) :
    (∀ fs' n, migrateCore σ now fs = .ok (fs', n) →
      fs'.legacyTree = fs.legacyTree ∧
      ∀ p : List String, (resolve fs ⟨.canonical, p⟩).isSome = true →
        (resolve fs' ⟨.canonical, p⟩).isSome = true) ∧
    (∀ fs', migrateCore σ now fs = .error fs' → fs' = fs) := by
  obtain ⟨hok, herr⟩ := migrateCore_evolves σ now fs
  refine ⟨?_, herr⟩
  intro fs' n h
  obtain ⟨hleg, hcan⟩ := hok fs' n h
  refine ⟨hleg, ?_⟩
  intro p hp
  have := hcan p
  cases hb : resolve fs ⟨.canonical, p⟩ with
  | none => rw [hb] at hp; exact absurd hp (by simp)
  | some x =>
    rw [hb] at this
    cases hb' : resolve fs' ⟨.canonical, p⟩ with
    | none => rw [hb'] at this; exact absurd this (by simp [optEvolve])
    | some y => simp

/-- Input for the C2 witness: canonical holds `keep.txt`, legacy holds a
`config.json` to be copied in. -/
def c2Fs : FS :=
  ⟨some (.dir [("config.json", .file "x" 9)]),
   some (.dir [("keep.txt", .file "k" 1)])⟩

/-- State after the C2 witness run at clock 5. -/
def c2Fs1 : FS :=
  ⟨some (.dir [("config.json", .file "x" 9)]),
   some (.dir [("keep.txt", .file "k" 1), ("config.json", .file "x" 5)])⟩

/-- Concrete instance of C2: after a run that copies `config.json`, the
legacy tree is unchanged and the pre-existing canonical `keep.txt` is still
present. -/
theorem migrate_non_destructive_witness :
    c2Fs1.legacyTree = c2Fs.legacyTree ∧
    (resolve c2Fs1 ⟨.canonical, ["keep.txt"]⟩).isSome = true :=
  ⟨((migrate_non_destructive noErr 5 c2Fs).1 c2Fs1 1 rfl).1,
   ((migrate_non_destructive noErr 5 c2Fs).1 c2Fs1 1 rfl).2 ["keep.txt"] rfl⟩

/-! ### C1: idempotence machinery -/

/-- `initSeg q p`: `q` is an initial segment (ancestor-or-self) of `p`. -/
def initSeg : List String → List String → Bool
  | [], _ => true
  | _ :: _, [] => false
  | a :: as, b :: bs => a = b && initSeg as bs

mutual
/-- Well-formedness of a tree: every directory's entry names are distinct
(real filesystems cannot hold two entries of the same name). -/
def wfNode : FSNode → Bool
  | .file _ _ => true
  | .dir es => wfEntries es

/-- Entry-list version of `wfNode`. -/
def wfEntries : List (String × FSNode) → Bool
  | [] => true
  | (k, v) :: es => (lookupEntry es k).isNone && wfNode v && wfEntries es
end

mutual
/-- Every file mtime in the tree is at most `now`. -/
def mtimeLE (now : Nat) : FSNode → Bool
  | .file _ m => decide (m ≤ now)
  | .dir es => mtimeLEEntries now es

/-- Entry-list version of `mtimeLE`. -/
def mtimeLEEntries (now : Nat) : List (String × FSNode) → Bool
  | [] => true
  | (_, v) :: es => mtimeLE now v && mtimeLEEntries now es
end

/-- Optional-tree versions. -/
def optWF : Option FSNode → Bool
  | none => true
  | some n => wfNode n

def optMtimeLE (now : Nat) : Option FSNode → Bool
  | none => true
  | some n => mtimeLE now n

theorem wfEntries_lookup {es : List (String × FSNode)} {k : String}
    {v : FSNode} (hwf : wfEntries es = true) (h : lookupEntry es k = some v) :
    wfNode v = true := by
  induction es with
  | nil => exact absurd h (by simp [lookupEntry])
  | cons e es ih =>
    obtain ⟨a, w⟩ := e
    rw [wfEntries, Bool.and_eq_true, Bool.and_eq_true] at hwf
    rw [lookupEntry] at h
    by_cases hk : a = k
    · rw [if_pos hk] at h
      cases h
      exact hwf.1.2
    · rw [if_neg hk] at h
      exact ih hwf.2 h

theorem wfEntries_nodup {es : List (String × FSNode)}
    (hwf : wfEntries es = true) : (es.map Prod.fst).Nodup := by
  induction es with
  | nil => simp
  | cons e es ih =>
    obtain ⟨a, w⟩ := e
    rw [wfEntries, Bool.and_eq_true, Bool.and_eq_true] at hwf
    rw [List.map_cons, List.nodup_cons]
    refine ⟨?_, ih hwf.2⟩
    intro hmem
    have := (lookupEntry_eq_none_iff es a).mpr
    rw [Option.isNone_iff_eq_none] at hwf
    exact absurd hwf.1.1 (by
      intro hnone
      exact (lookupEntry_eq_none_iff es a).mp hnone hmem)

theorem wf_find? {n : FSNode} (hwf : wfNode n = true) :
    ∀ {p : List String} {m : FSNode}, n.find? p = some m → wfNode m = true := by
  intro p
  induction p generalizing n with
  | nil =>
    intro m h
    rw [find?_nil] at h
    cases h
    exact hwf
  | cons a as ih =>
    intro m h
    cases n with
    | file c mt => rw [find?_cons_file] at h; exact absurd h (by simp)
    | dir es =>
      rw [find?_cons_dir] at h
      cases hle : lookupEntry es a with
      | none => rw [hle] at h; exact absurd h (by simp)
      | some c =>
        rw [hle, Option.some_bind] at h
        rw [wfNode] at hwf
        exact ih (wfEntries_lookup hwf hle) h

theorem mtimeLEEntries_lookup {now : Nat} {es : List (String × FSNode)}
    {k : String} {v : FSNode} (hmt : mtimeLEEntries now es = true)
    (h : lookupEntry es k = some v) : mtimeLE now v = true := by
  induction es with
  | nil => exact absurd h (by simp [lookupEntry])
  | cons e es ih =>
    obtain ⟨a, w⟩ := e
    rw [mtimeLEEntries, Bool.and_eq_true] at hmt
    rw [lookupEntry] at h
    by_cases hk : a = k
    · rw [if_pos hk] at h
      cases h
      exact hmt.1
    · rw [if_neg hk] at h
      exact ih hmt.2 h

theorem mtimeLE_find? {now : Nat} {n : FSNode} (hmt : mtimeLE now n = true) :
    ∀ {p : List String} {m : FSNode}, n.find? p = some m →
      mtimeLE now m = true := by
  intro p
  induction p generalizing n with
  | nil =>
    intro m h
    rw [find?_nil] at h
    cases h
    exact hmt
  | cons a as ih =>
    intro m h
    cases n with
    | file c mt => rw [find?_cons_file] at h; exact absurd h (by simp)
    | dir es =>
      rw [find?_cons_dir] at h
      cases hle : lookupEntry es a with
      | none => rw [hle] at h; exact absurd h (by simp)
      | some c =>
        rw [hle, Option.some_bind] at h
        rw [mtimeLE] at hmt
        exact ih (mtimeLEEntries_lookup hmt hle) h

theorem mtimeLE_file {now m : Nat} {c : String}
    (h : mtimeLE now (.file c m) = true) : m ≤ now := by
  rw [mtimeLE] at h
  exact of_decide_eq_true h

/-- Looking up in a copied entry list. -/
theorem lookupEntry_cpEntries (now : Nat) (es : List (String × FSNode))
    (k : String) :
    lookupEntry (cpEntries now es) k = (lookupEntry es k).map (cpNode now) := by
  induction es with
  | nil => simp [cpEntries, lookupEntry]
  | cons e es ih =>
    obtain ⟨a, w⟩ := e
    rw [cpEntries, lookupEntry, lookupEntry]
    by_cases hk : a = k
    · rw [if_pos hk, if_pos hk, Option.map_some']
    · rw [if_neg hk, if_neg hk, ih]

/-- Resolving inside a fresh copy. -/
theorem cpNode_find? (now : Nat) (n : FSNode) (p : List String) :
    (cpNode now n).find? p = (n.find? p).map (cpNode now) := by
  induction p generalizing n with
  | nil => rw [find?_nil, find?_nil, Option.map_some']
  | cons a as ih =>
    cases n with
    | file c m => rw [cpNode, find?_cons_file, find?_cons_file]; rfl
    | dir es =>
      rw [cpNode, find?_cons_dir, find?_cons_dir, lookupEntry_cpEntries]
      cases hle : lookupEntry es a with
      | none => rfl
      | some c => rw [Option.map_some', Option.some_bind, Option.some_bind, ih]

theorem map_fst_cpEntries (now : Nat) (es : List (String × FSNode)) :
    (cpEntries now es).map Prod.fst = es.map Prod.fst := by
  induction es with
  | nil => rfl
  | cons e es ih =>
    obtain ⟨a, w⟩ := e
    rw [cpEntries, List.map_cons, List.map_cons, ih]

/-- Appending a fresh entry. -/
theorem updEntries_append (es : List (String × FSNode)) (k : String)
    (v : FSNode) (h : lookupEntry es k = none) :
    updEntries es k v = es ++ [(k, v)] := by
  induction es with
  | nil => rfl
  | cons e es ih =>
    obtain ⟨a, w⟩ := e
    rw [lookupEntry] at h
    by_cases hk : a = k
    · rw [if_pos hk] at h; exact absurd h (by simp)
    · rw [if_neg hk] at h
      rw [updEntries, if_neg hk, List.cons_append, ih h]

/-- Merging a source whose keys are distinct and all fresh for the
accumulator just appends a fresh copy of every source entry. -/
theorem mergeEntries_fresh (now : Nat) (les : List (String × FSNode)) :
    ∀ (acc : List (String × FSNode)),
    (∀ k, k ∈ les.map Prod.fst → lookupEntry acc k = none) →
    (les.map Prod.fst).Nodup →
    mergeEntries now les acc = some (acc ++ cpEntries now les) := by
  induction les with
  | nil => intro acc _ _; rw [mergeEntries, cpEntries, List.append_nil]
  | cons e les ih =>
    obtain ⟨k, v⟩ := e
    intro acc hfresh hnd
    have hk : lookupEntry acc k = none :=
      hfresh k (by rw [List.map_cons]; exact List.mem_cons_self _ _)
    rw [show mergeEntries now ((k, v) :: les) acc =
        mergeEntries now les (updEntries acc k (cpNode now v)) by
      simp only [mergeEntries, hk]]
    rw [updEntries_append acc k (cpNode now v) hk]
    rw [List.map_cons, List.nodup_cons] at hnd
    have hfresh' : ∀ k', k' ∈ les.map Prod.fst →
        lookupEntry (acc ++ [(k, cpNode now v)]) k' = none := by
      intro k' hk'
      have h1 : lookupEntry acc k' = none :=
        hfresh k' (by rw [List.map_cons]; exact List.mem_cons_of_mem _ hk')
      have h2 : ¬ k = k' := fun hh => hnd.1 (hh ▸ hk')
      rw [← updEntries_append acc k (cpNode now v) hk, lookupEntry_upd,
        if_neg h2]
      exact h1
    rw [ih (acc ++ [(k, cpNode now v)]) hfresh' hnd.2, cpEntries,
      List.append_assoc]
    rfl

/-- Recursive copy onto a fresh empty directory is exactly a fresh copy of
the source tree, provided the source's top-level names are distinct. -/
theorem mergeCp_into_empty (now : Nat) (les : List (String × FSNode))
    (hnd : (les.map Prod.fst).Nodup) :
    mergeCp now (.dir les) (.dir []) = some (cpNode now (.dir les)) := by
  rw [mergeCp, mergeEntries_fresh now les [] (fun k _ => rfl) hnd,
    List.nil_append, Option.map_some', cpNode]

/-- A regular file on the way blocks any deeper write. -/
theorem placeAt_blocked (r : FSNode) (p : List String) (cf : String) (mf : Nat)
    (h : r.find? p = some (.file cf mf)) (e : String) (rest : List String)
    (v : FSNode) : placeAt r (p ++ e :: rest) v = none := by
  induction p generalizing r with
  | nil =>
    rw [find?_nil] at h
    cases h
    rw [List.nil_append, placeAt_file]
  | cons a as ih =>
    cases r with
    | file c m => rw [find?_cons_file] at h; exact absurd h (by simp)
    | dir es =>
      rw [find?_cons_dir] at h
      cases hle : lookupEntry es a with
      | none =>
        rw [hle] at h
        exact absurd h (by simp)
      | some c =>
        rw [hle, Option.some_bind] at h
        rw [List.cons_append]
        cases hx : as ++ e :: rest with
        | nil => exact absurd hx (by simp)
        | cons y ys =>
          rw [placeAt_cons2, hle, Option.some_bind, ← hx, ih c h,
            Option.map_none']

/-- General frame property of `placeAt`: diverging paths are untouched. -/
theorem placeAt_frame (r : FSNode) (p : List String) (v r' : FSNode)
    (h : placeAt r p v = some r') :
    ∀ q, Diverge q p → r'.find? q = r.find? q := by
  induction p generalizing r r' with
  | nil =>
    intro q hq
    cases q <;> simp [Diverge] at hq
  | cons a as ih =>
    cases r with
    | file c m => rw [placeAt_file] at h; exact absurd h (by simp)
    | dir es =>
      cases as with
      | nil =>
        rw [placeAt_single] at h
        simp only [Option.some.injEq] at h
        subst h
        intro q hq
        cases q with
        | nil => simp [Diverge] at hq
        | cons b bs =>
          cases hq with
          | inl hb => exact find?_dir_upd_ne es a v b bs (Ne.symm hb)
          | inr hd => simp [Diverge] at hd
      | cons a' as' =>
        rw [placeAt_cons2] at h
        cases hle : lookupEntry es a with
        | none => rw [hle, Option.none_bind] at h; exact absurd h (by simp)
        | some c =>
          rw [hle, Option.some_bind] at h
          cases hpl : placeAt c (a' :: as') v with
          | none => rw [hpl, Option.map_none'] at h; exact absurd h (by simp)
          | some c' =>
            rw [hpl, Option.map_some'] at h
            simp only [Option.some.injEq] at h
            subst h
            intro q hq
            cases q with
            | nil => simp [Diverge] at hq
            | cons b bs =>
              cases hq with
              | inl hb => exact find?_dir_upd_ne es a c' b bs (Ne.symm hb)
              | inr hd =>
                by_cases hb : b = a
                · subst hb
                  rw [find?_dir_upd_self, find?_cons_dir, hle,
                    Option.some_bind, ih c c' hpl bs hd]
                · exact find?_dir_upd_ne es a c' b bs (fun hh => hb hh.symm)

/-- Off the created chain, `mkDirs` holds nothing. -/
theorem find?_mkDirs_off (p q : List String) (h : initSeg q p = false) :
    (mkDirs p).find? q = none := by
  induction p generalizing q with
  | nil =>
    cases q with
    | nil => rw [initSeg] at h; exact absurd h (by simp)
    | cons b bs => rw [mkDirs, find?_cons_dir]; rfl
  | cons a as ih =>
    cases q with
    | nil => rw [initSeg] at h; exact absurd h (by simp)
    | cons b bs =>
      rw [mkDirs, find?_cons_dir]
      rw [initSeg, Bool.and_eq_false_iff] at h
      by_cases hb : a = b
      · subst hb
        rw [lookupEntry, if_pos rfl, Option.some_bind]
        cases h with
        | inl h => simp at h
        | inr h => exact ih bs h
      · rw [lookupEntry, if_neg hb]
        rfl

/-- General frame property of `mkdir -p`: every path that is not an
ancestor-or-self of the created path is untouched. -/
theorem mkdirpN_frame (n : FSNode) (p : List String) (n' : FSNode)
    (h : mkdirpN n p = some n') :
    ∀ q, initSeg q p = false → n'.find? q = n.find? q := by
  induction p generalizing n n' with
  | nil =>
    cases n with
    | file c m => rw [mkdirpN] at h; exact absurd h (by simp)
    | dir es =>
      rw [mkdirpN] at h
      simp only [Option.some.injEq] at h
      subst h
      intro q _
      rfl
  | cons a as ih =>
    cases n with
    | file c m => rw [mkdirpN] at h; exact absurd h (by simp)
    | dir es =>
      cases hle : lookupEntry es a with
      | some c =>
        rw [mkdirpN_cons_hit es a as c hle] at h
        cases hmk : mkdirpN c as with
        | none => rw [hmk, Option.map_none'] at h; exact absurd h (by simp)
        | some c' =>
          rw [hmk, Option.map_some'] at h
          simp only [Option.some.injEq] at h
          subst h
          intro q hq
          cases q with
          | nil => rw [initSeg] at hq; exact absurd hq (by simp)
          | cons b bs =>
            rw [initSeg, Bool.and_eq_false_iff] at hq
            by_cases hb : b = a
            · subst hb
              rw [find?_dir_upd_self, find?_cons_dir, hle, Option.some_bind]
              cases hq with
              | inl h1 => simp at h1
              | inr h1 => exact ih c c' hmk bs h1
            · exact find?_dir_upd_ne es a c' b bs (fun hh => hb hh.symm)
      | none =>
        rw [mkdirpN_cons_miss es a as hle] at h
        simp only [Option.some.injEq] at h
        subst h
        intro q hq
        cases q with
        | nil => rw [initSeg] at hq; exact absurd hq (by simp)
        | cons b bs =>
          rw [initSeg, Bool.and_eq_false_iff] at hq
          by_cases hb : b = a
          · subst hb
            rw [find?_dir_upd_self, find?_cons_dir, hle, Option.none_bind]
            cases hq with
            | inl h1 => simp at h1
            | inr h1 => exact find?_mkDirs_off as bs h1
          · exact find?_dir_upd_ne es a (mkDirs as) b bs (fun hh => hb hh.symm)

theorem Diverge_append {q p : List String} (h : Diverge q p)
    (ext : List String) : Diverge q (p ++ ext) := by
  induction p generalizing q with
  | nil => cases q <;> simp [Diverge] at h
  | cons a as ih =>
    cases q with
    | nil => simp [Diverge] at h
    | cons b bs =>
      cases h with
      | inl hb => exact Or.inl hb
      | inr hd => exact Or.inr (ih hd)

theorem diverge_not_initSeg {q p : List String} (h : Diverge q p) :
    initSeg q p = false := by
  induction p generalizing q with
  | nil => cases q <;> simp [Diverge] at h
  | cons a as ih =>
    cases q with
    | nil => simp [Diverge] at h
    | cons b bs =>
      rw [initSeg, Bool.and_eq_false_iff]
      cases h with
      | inl hb => exact Or.inl (by simp [hb])
      | inr hd => exact Or.inr (ih hd)

theorem resolve_congr_under {g g' : FS} {p : List String}
    (h : resolve g' ⟨.canonical, p⟩ = resolve g ⟨.canonical, p⟩)
    (q : List String) :
    resolve g' ⟨.canonical, p ++ q⟩ = resolve g ⟨.canonical, p ++ q⟩ := by
  rw [resolve_append, resolve_append, h]

theorem resolve_legacy_congr {g g' : FS} (h : g'.legacyTree = g.legacyTree)
    (p : List String) :
    resolve g' ⟨.legacy, p⟩ = resolve g ⟨.legacy, p⟩ := by
  unfold resolve
  have ht : g'.tree .legacy = g.tree .legacy := h
  rw [ht]

/-- The canonical root stays a directory along any evolution once it is
one. -/
def rootDir (g : FS) : Prop := ∃ es, g.canonicalTree = some (.dir es)

theorem rootDir_evolves {g g' : FS} (hev : Evolves g g') (h : rootDir g) :
    rootDir g' := by
  obtain ⟨es, hes⟩ := h
  have h0 := hev.2 []
  rw [resolve_root, resolve_root] at h0
  show ∃ es', g'.tree .canonical = some (.dir es')
  rw [show g.tree .canonical = some (.dir es) from hes] at h0
  cases hg' : g'.tree .canonical with
  | none => rw [hg'] at h0; exact absurd h0 (by simp [optEvolve])
  | some x =>
    rw [hg'] at h0
    cases x with
    | file c m => exact absurd h0 (by simp [optEvolve, FSNode.isDir])
    | dir es' => exact ⟨es', rfl⟩

theorem isSome_evolves {g g' : FS} (hev : Evolves g g') {p : List String}
    (h : (resolve g ⟨.canonical, p⟩).isSome = true) :
    (resolve g' ⟨.canonical, p⟩).isSome = true := by
  have h0 := hev.2 p
  cases hb : resolve g ⟨.canonical, p⟩ with
  | none => rw [hb] at h; exact absurd h (by simp)
  | some x =>
    rw [hb] at h0
    cases hb' : resolve g' ⟨.canonical, p⟩ with
    | none => rw [hb'] at h0; exact absurd h0 (by simp [optEvolve])
    | some y => simp

theorem fileKind_evolves {g g' : FS} (hev : Evolves g g') {p : List String}
    {cf : String} {mf : Nat}
    (h : resolve g ⟨.canonical, p⟩ = some (.file cf mf)) :
    ∃ cf' mf', resolve g' ⟨.canonical, p⟩ = some (.file cf' mf') := by
  have h0 := hev.2 p
  rw [h] at h0
  cases hb' : resolve g' ⟨.canonical, p⟩ with
  | none => rw [hb'] at h0; exact absurd h0 (by simp [optEvolve])
  | some y =>
    rw [hb'] at h0
    cases y with
    | file c m => exact ⟨c, m, rfl⟩
    | dir es => exact absurd h0 (by simp [optEvolve, FSNode.isDir])

/-- Frame of a canonical `writeAt`: diverging paths are untouched, and the
legacy tree is untouched. -/
theorem writeAt_set_frame (g : FS) (p : List String) (v : FSNode)
    (t : Option FSNode) (hw : writeAt g.canonicalTree p v = some t) :
    (g.setTree .canonical t).legacyTree = g.legacyTree ∧
    ∀ q, Diverge q p →
      resolve (g.setTree .canonical t) ⟨.canonical, q⟩ = resolve g ⟨.canonical, q⟩ := by
  refine ⟨rfl, ?_⟩
  intro q hq
  cases hroot : g.canonicalTree with
  | none =>
    cases p with
    | nil => cases q <;> simp [Diverge] at hq
    | cons a as =>
      rw [hroot] at hw
      exact absurd hw (by simp [writeAt])
  | some r =>
    rw [hroot, writeAt_some] at hw
    cases hpl : placeAt r p v with
    | none => rw [hpl] at hw; exact absurd hw (by simp)
    | some r' =>
      rw [hpl, Option.map_some'] at hw
      simp only [Option.some.injEq] at hw
      subst hw
      rw [resolve_setTree_same, resolve_canonical_eq, hroot, Option.some_bind,
        placeAt_frame r p v r' hpl q hq]

/-- Frame of a canonical `mkdirSync`: non-ancestor paths are untouched. -/
theorem mkdirS_frame (σ : Oracle) (g : FS) (p : List String) (g' : FS)
    (h : mkdirS σ g ⟨.canonical, p⟩ = .ok g') :
    g'.legacyTree = g.legacyTree ∧
    ∀ q, initSeg q p = false →
      resolve g' ⟨.canonical, q⟩ = resolve g ⟨.canonical, q⟩ := by
  obtain ⟨r, hmp, hg'⟩ := mkdirS_ok_inv σ g ⟨.canonical, p⟩ g' h
  subst hg'
  refine ⟨rfl, ?_⟩
  intro q hq
  unfold mkdirp at hmp
  cases hroot : g.tree Side.canonical with
  | none =>
    rw [hroot] at hmp
    simp only [Option.some.injEq] at hmp
    subst hmp
    rw [resolve_setTree_same, resolve_canonical_eq,
      show g.canonicalTree = none from hroot, Option.none_bind,
      find?_mkDirs_off p q hq]
  | some n =>
    rw [hroot] at hmp
    rw [resolve_setTree_same, resolve_canonical_eq,
      show g.canonicalTree = some n from hroot, Option.some_bind,
      mkdirpN_frame n p r hmp q hq]

/-- Frame of a successful canonical single-file copy. -/
theorem cpFileS_frame (σ : Oracle) (now : Nat) (g : FS) (src : Loc)
    (dp : List String) (g' : FS)
    (h : cpFileS σ now g src ⟨.canonical, dp⟩ = .ok g') :
    g'.legacyTree = g.legacyTree ∧
    ∀ q, Diverge q dp →
      resolve g' ⟨.canonical, q⟩ = resolve g ⟨.canonical, q⟩ := by
  obtain ⟨c, m, t, _, _, hw, hg'⟩ :=
    cpFileS_ok_inv σ now g src ⟨.canonical, dp⟩ g' h
  subst hg'
  exact writeAt_set_frame g dp (.file c now) t hw

/-- Frame of a successful canonical recursive copy. -/
theorem cpRecS_frame (σ : Oracle) (now : Nat) (g : FS) (src : Loc)
    (dp : List String) (g' : FS)
    (h : cpRecS σ now g src ⟨.canonical, dp⟩ = .ok g') :
    g'.legacyTree = g.legacyTree ∧
    ∀ q, Diverge q dp →
      resolve g' ⟨.canonical, q⟩ = resolve g ⟨.canonical, q⟩ := by
  obtain ⟨sn, t, _, hcase, hg'⟩ :=
    cpRecS_ok_inv σ now g src ⟨.canonical, dp⟩ g' h
  subst hg'
  cases hcase with
  | inl hc => exact writeAt_set_frame g dp (cpNode now sn) t hc.2
  | inr hc =>
    obtain ⟨dn, mm, _, _, hw⟩ := hc
    exact writeAt_set_frame g dp mm t hw

/-! ### C1: blocked-write computations and per-unit stability -/

theorem writeAt_blocked_under (g : FS) (p : List String) (cf : String)
    (mf : Nat) (hpf : resolve g ⟨.canonical, p⟩ = some (.file cf mf))
    (e : String) (rest : List String) (v : FSNode) :
    writeAt (g.tree .canonical) (p ++ e :: rest) v = none := by
  obtain ⟨r, htr, hfr⟩ := resolve_tree_some hpf
  rw [htr, writeAt_some, placeAt_blocked r p cf mf hfr e rest v,
    Option.map_none']

/-- A single-file copy into a path whose parent is a regular file fails. -/
theorem cpFileS_blocked (now : Nat) (g : FS) (src : Loc) (p : List String)
    (cf : String) (mf : Nat) (e : String)
    (hpf : resolve g ⟨.canonical, p⟩ = some (.file cf mf))
    (hd : resolve g ⟨.canonical, p ++ [e]⟩ = none) :
    cpFileS noErr now g src ⟨.canonical, p ++ [e]⟩ = .error () := by
  have hwa : ∀ v, writeAt (g.tree .canonical) (p ++ [e]) v = none :=
    fun v => writeAt_blocked_under g p cf mf hpf e [] v
  cases hs : resolve g src with
  | none => simp [cpFileS, noErr, hs]
  | some sn =>
    cases sn with
    | dir es => simp [cpFileS, noErr, hs]
    | file c m => simp [cpFileS, noErr, hs, hd, hwa]

/-- A recursive copy into a path whose parent is a regular file fails. -/
theorem cpRecS_blocked (now : Nat) (g : FS) (src : Loc) (p : List String)
    (cf : String) (mf : Nat) (e : String)
    (hpf : resolve g ⟨.canonical, p⟩ = some (.file cf mf))
    (hd : resolve g ⟨.canonical, p ++ [e]⟩ = none) :
    cpRecS noErr now g src ⟨.canonical, p ++ [e]⟩ = .error () := by
  have hwa : ∀ v, writeAt (g.tree .canonical) (p ++ [e]) v = none :=
    fun v => writeAt_blocked_under g p cf mf hpf e [] v
  cases hs : resolve g src with
  | none => simp [cpRecS, noErr, hs]
  | some sn => simp [cpRecS, noErr, hs, hd, hwa]

/-- A fold whose step is the identity on states shared with `g` is the
identity. -/
theorem foldl_id (step : FS × Nat → String → FS × Nat) (g : FS)
    (l : List String) (h : ∀ x ∈ l, ∀ c, step (g, c) x = (g, c)) :
    ∀ c, l.foldl step (g, c) = (g, c) := by
  induction l with
  | nil => intro c; rfl
  | cons x xs ih =>
    intro c
    rw [List.foldl_cons, h x (by simp) c]
    exact ih (fun y hy c' => h y (by simp [hy]) c') c

/-- A `syncFile` unit is settled: the legacy source is absent, or the
canonical side already holds a node `syncFile` will not replace (a
directory, a file at least as recent, or an unwritable location whose
parent is a regular file). -/
def fileSynced (g : FS) (sp tp : List String) : Prop :=
  match resolve g ⟨.legacy, sp⟩ with
  | none => True
  | some (.dir _) => (resolve g ⟨.canonical, tp.dropLast⟩).isSome = true
  | some (.file _ m) =>
    match resolve g ⟨.canonical, tp⟩ with
    | some (.dir _) => True
    | some (.file _ m') => m ≤ m'
    | none => ∃ cf mf, resolve g ⟨.canonical, tp.dropLast⟩ = some (.file cf mf)

/-- On a settled unit `syncFile` is the identity and reports no copy,
whatever the current clock. -/
theorem syncFile_stable (now : Nat) (g : FS) (sp tp : List String)
    (htp : tp ≠ []) (h : fileSynced g sp tp) :
    syncFile noErr now g ⟨.legacy, sp⟩ ⟨.canonical, tp⟩ = (g, false) := by
  unfold fileSynced at h
  cases hs : resolve g ⟨.legacy, sp⟩ with
  | none => simp [syncFile, existsL, hs]
  | some sn =>
    rw [hs] at h
    cases sn with
    | dir des =>
      cases ht : resolve g ⟨.canonical, tp⟩ with
      | some tn =>
        simp [syncFile, existsL, hs, ht, statS, noErr, FSNode.mtime,
          Nat.not_lt_zero]
      | none =>
        simp [syncFile, existsL, hs, ht, Loc.parent, h, cpFileS, noErr]
    | file c m =>
      cases ht : resolve g ⟨.canonical, tp⟩ with
      | some tn =>
        rw [ht] at h
        cases tn with
        | dir tes =>
          simp [syncFile, existsL, hs, ht, statS, noErr, cpFileS, FSNode.mtime]
        | file c' m' =>
          have hnl : ¬ (FSNode.file c' m').mtime < (FSNode.file c m).mtime := by
            simp only [FSNode.mtime]
            omega
          simp [syncFile, existsL, hs, ht, statS, noErr, hnl]
      | none =>
        rw [ht] at h
        obtain ⟨cf, mf, hpf⟩ := h
        have htp' : tp.dropLast ++ [tp.getLast htp] = tp :=
          List.dropLast_append_getLast htp
        have hcp : cpFileS noErr now g ⟨.legacy, sp⟩ ⟨.canonical, tp⟩ =
            .error () := by
          rw [← htp']
          exact cpFileS_blocked now g _ tp.dropLast cf mf _ hpf
            (by rw [htp']; exact ht)
        simp [syncFile, existsL, hs, ht, Loc.parent, hpf, hcp]

/-- The `events.jsonl` unit of a workspace is settled. -/
def eventsSynced (g : FS) (wp : List String) : Prop :=
  match resolve g ⟨.legacy, wp ++ ["events.jsonl"]⟩ with
  | none => True
  | some (.dir _) => True
  | some (.file c _) =>
    match resolve g ⟨.canonical, wp ++ ["events.jsonl"]⟩ with
    | some (.dir _) => True
    | some (.file c' _) => c.length ≤ c'.length
    | none => ∃ cf mf, resolve g ⟨.canonical, wp⟩ = some (.file cf mf)

/-- On a settled `events.jsonl` unit `syncEventsFile` is the identity with
count 0, whatever the current clock. -/
theorem syncEventsFile_stable (now : Nat) (g : FS) (wp : List String)
    (h : eventsSynced g wp) :
    syncEventsFile noErr now g ⟨.legacy, wp⟩ ⟨.canonical, wp⟩ = (g, 0) := by
  unfold eventsSynced at h
  cases hs : resolve g ⟨.legacy, wp ++ ["events.jsonl"]⟩ with
  | none => simp [syncEventsFile, Loc.child, existsL, hs]
  | some sn =>
    rw [hs] at h
    cases sn with
    | dir des =>
      cases ht : resolve g ⟨.canonical, wp ++ ["events.jsonl"]⟩ with
      | some tn =>
        simp [syncEventsFile, Loc.child, existsL, hs, ht, statS, noErr,
          FSNode.size, Nat.not_lt_zero]
      | none =>
        simp [syncEventsFile, Loc.child, existsL, hs, ht, cpFileS, noErr]
    | file c m =>
      cases ht : resolve g ⟨.canonical, wp ++ ["events.jsonl"]⟩ with
      | some tn =>
        rw [ht] at h
        cases tn with
        | dir tes =>
          simp [syncEventsFile, Loc.child, existsL, hs, ht, statS, noErr,
            cpFileS, FSNode.size]
        | file c' m' =>
          have hnl : ¬ (FSNode.file c' m').size < (FSNode.file c m).size := by
            simp only [FSNode.size]
            omega
          simp [syncEventsFile, Loc.child, existsL, hs, ht, statS, noErr, hnl]
      | none =>
        rw [ht] at h
        obtain ⟨cf, mf, hpf⟩ := h
        have hcp : cpFileS noErr now g ⟨.legacy, wp ++ ["events.jsonl"]⟩
            ⟨.canonical, wp ++ ["events.jsonl"]⟩ = .error () :=
          cpFileS_blocked now g _ wp cf mf _ hpf ht
        simp [syncEventsFile, Loc.child, existsL, hs, ht, hcp]

/-- A sub-collection unit (`sessions`, `sources`, …) of a workspace is
settled: the legacy side has none, or every legacy entry name already
exists on the canonical side (or the canonical location cannot be written
because a regular file is in the way). -/
def subdirSynced (g : FS) (wp : List String) (sd : String) : Prop :=
  match resolve g ⟨.legacy, wp ++ [sd]⟩ with
  | none => True
  | some (.file _ _) =>
    (resolve g ⟨.canonical, wp ++ [sd]⟩).isSome = true ∨
      (∃ cf mf, resolve g ⟨.canonical, wp⟩ = some (.file cf mf))
  | some (.dir les) =>
    match resolve g ⟨.canonical, wp ++ [sd]⟩ with
    | none => ∃ cf mf, resolve g ⟨.canonical, wp⟩ = some (.file cf mf)
    | some (.file _ _) => True
    | some (.dir ces) =>
      ∀ e ∈ les.map Prod.fst, (lookupEntry ces e).isSome = true

/-- On a settled sub-collection `syncSubdirectory` is the identity with
count 0, whatever the current clock. -/
theorem syncSubdirectory_stable (now : Nat) (g : FS) (wp : List String)
    (sd : String) (h : subdirSynced g wp sd) :
    syncSubdirectory noErr now g ⟨.legacy, wp⟩ ⟨.canonical, wp⟩ sd = (g, 0) := by
  unfold subdirSynced at h
  cases hs : resolve g ⟨.legacy, wp ++ [sd]⟩ with
  | none => simp [syncSubdirectory, Loc.child, existsL, hs]
  | some sn =>
    rw [hs] at h
    cases sn with
    | file c m =>
      cases h with
      | inl hsome =>
        simp [syncSubdirectory, Loc.child, existsL, hs, hsome, readdirS, noErr]
      | inr hpf =>
        obtain ⟨cf, mf, hpf⟩ := hpf
        have ht : resolve g ⟨.canonical, wp ++ [sd]⟩ = none := by
          rw [resolve_append, hpf]; rfl
        have hcp := cpRecS_blocked now g ⟨.legacy, wp ++ [sd]⟩ wp cf mf sd hpf ht
        simp [syncSubdirectory, Loc.child, existsL, hs, ht, hcp]
    | dir les =>
      cases ht : resolve g ⟨.canonical, wp ++ [sd]⟩ with
      | none =>
        rw [ht] at h
        obtain ⟨cf, mf, hpf⟩ := h
        have hcp := cpRecS_blocked now g ⟨.legacy, wp ++ [sd]⟩ wp cf mf sd hpf ht
        simp [syncSubdirectory, Loc.child, existsL, hs, ht, hcp]
      | some tn =>
        rw [ht] at h
        have hrd : readdirS noErr g ⟨.legacy, wp ++ [sd]⟩ =
            .ok (les.map Prod.fst) := by
          simp [readdirS, noErr, hs]
        cases tn with
        | file cf' mf' =>
          have hstep : ∀ e ∈ les.map Prod.fst, ∀ cc,
              syncEntryStep noErr now ⟨.legacy, wp ++ [sd]⟩
                ⟨.canonical, wp ++ [sd]⟩ (g, cc) e = (g, cc) := by
            intro e he cc
            have hte : resolve g ⟨.canonical, (wp ++ [sd]) ++ [e]⟩ = none := by
              rw [resolve_append, ht]; rfl
            have hcpe := cpRecS_blocked now g ⟨.legacy, (wp ++ [sd]) ++ [e]⟩
              (wp ++ [sd]) cf' mf' e ht hte
            have hte2 : resolve g ⟨.canonical, wp ++ [sd, e]⟩ = none := by
              simpa using hte
            have hcpe2 : cpRecS noErr now g ⟨.legacy, wp ++ [sd, e]⟩
                ⟨.canonical, wp ++ [sd, e]⟩ = .error () := by
              simpa using hcpe
            simp [syncEntryStep, Loc.child, existsL, hte2, hcpe2]
          have hfold := foldl_id
            (syncEntryStep noErr now ⟨.legacy, wp ++ [sd]⟩ ⟨.canonical, wp ++ [sd]⟩)
            g (les.map Prod.fst) hstep 0
          simp [syncSubdirectory, Loc.child, existsL, hs, ht, hrd, hfold]
        | dir ces =>
          have hstep : ∀ e ∈ les.map Prod.fst, ∀ cc,
              syncEntryStep noErr now ⟨.legacy, wp ++ [sd]⟩
                ⟨.canonical, wp ++ [sd]⟩ (g, cc) e = (g, cc) := by
            intro e he cc
            have hte : (resolve g ⟨.canonical, (wp ++ [sd]) ++ [e]⟩).isSome = true := by
              rw [resolve_append, ht, Option.some_bind, find?_singleton]
              exact h e he
            have hte2 : (resolve g ⟨.canonical, wp ++ [sd, e]⟩).isSome = true := by
              simpa using hte
            simp [syncEntryStep, Loc.child, existsL, hte2]
          have hfold := foldl_id
            (syncEntryStep noErr now ⟨.legacy, wp ++ [sd]⟩ ⟨.canonical, wp ++ [sd]⟩)
            g (les.map Prod.fst) hstep 0
          simp [syncSubdirectory, Loc.child, existsL, hs, ht, hrd, hfold]

/-- All eleven per-workspace units are settled. -/
def partsSynced (g : FS) (wp : List String) : Prop :=
  (∀ f ∈ workspaceFiles, fileSynced g (wp ++ [f]) (wp ++ [f])) ∧
  eventsSynced g wp ∧
  (∀ sd ∈ workspaceSubdirs, subdirSynced g wp sd)

/-- On a settled workspace the parts pass is the identity with count 0. -/
theorem syncWorkspaceParts_stable (now : Nat) (g : FS) (wp : List String)
    (h : partsSynced g wp) :
    syncWorkspaceParts noErr now g ⟨.legacy, wp⟩ ⟨.canonical, wp⟩ = (g, 0) := by
  obtain ⟨hf, he, hsd⟩ := h
  have hfiles : workspaceFiles.foldl
      (wsFileStep noErr now ⟨.legacy, wp⟩ ⟨.canonical, wp⟩) (g, 0) = (g, 0) := by
    refine foldl_id _ g _ ?_ 0
    intro f hfm cc
    have hst := syncFile_stable now g (wp ++ [f]) (wp ++ [f]) (by simp)
      (hf f hfm)
    simp [wsFileStep, Loc.child, hst]
  have hev := syncEventsFile_stable now g wp he
  have hsubs : ∀ cc, workspaceSubdirs.foldl
      (wsSubdirStep noErr now ⟨.legacy, wp⟩ ⟨.canonical, wp⟩) (g, cc) = (g, cc) := by
    refine foldl_id _ g _ ?_
    intro sd hm cc
    have hst := syncSubdirectory_stable now g wp sd (hsd sd hm)
    simp [wsSubdirStep, hst]
  simp [syncWorkspaceParts, hfiles, hev, hsubs]

/-- A regular file on the way blocks recursive directory creation. -/
theorem mkdirpN_blocked (r : FSNode) (p : List String) (cf : String)
    (mf : Nat) (h : r.find? p = some (.file cf mf)) (e : String)
    (rest : List String) : mkdirpN r (p ++ e :: rest) = none := by
  induction p generalizing r with
  | nil =>
    rw [find?_nil] at h
    cases h
    rfl
  | cons a as ih =>
    cases r with
    | file c m => rw [find?_cons_file] at h; exact absurd h (by simp)
    | dir es =>
      rw [find?_cons_dir] at h
      cases hle : lookupEntry es a with
      | none => rw [hle] at h; exact absurd h (by simp)
      | some ch =>
        rw [hle, Option.some_bind] at h
        rw [List.cons_append, mkdirpN_cons_hit es a (as ++ e :: rest) ch hle,
          ih ch h, Option.map_none']

/-- `mkdirSync` into a path below a regular file fails. -/
theorem mkdirS_blocked (g : FS) (p : List String) (cf : String) (mf : Nat)
    (hpf : resolve g ⟨.canonical, p⟩ = some (.file cf mf)) (e : String)
    (rest : List String) :
    mkdirS noErr g ⟨.canonical, p ++ e :: rest⟩ = .error () := by
  obtain ⟨r, htr, hfr⟩ := resolve_tree_some hpf
  have htr' : g.tree Side.canonical = some r := htr
  simp [mkdirS, noErr, mkdirp, htr', mkdirpN_blocked r p cf mf hfr e rest]

/-- A workspace slug is settled: either the canonical `workspaces` location
is a regular file (so the slug directory can never be created), or the
canonical workspace exists and all its parts are settled. -/
def slugSynced (g : FS) (s : String) : Prop :=
  (∃ cf mf, resolve g ⟨.canonical, ["workspaces"]⟩ = some (.file cf mf)) ∨
  ((resolve g ⟨.canonical, ["workspaces", s]⟩).isSome = true ∧
    partsSynced g ["workspaces", s])

/-- On a settled slug the per-slug step is the identity, whatever the
current clock. -/
theorem syncWorkspaceSlug_stable (now : Nat) (g : FS) (c : Nat) (s : String)
    (h : slugSynced g s) : syncWorkspaceSlug noErr now (g, c) s = (g, c) := by
  cases h with
  | inl hwf =>
    obtain ⟨cf, mf, hwf⟩ := hwf
    have ht : resolve g ⟨.canonical, ["workspaces", s]⟩ = none := by
      rw [show (["workspaces", s] : List String) = ["workspaces"] ++ [s] from rfl,
        resolve_append, hwf]
      rfl
    have hmk : mkdirS noErr g ⟨.canonical, ["workspaces", s]⟩ = .error () :=
      mkdirS_blocked g ["workspaces"] cf mf hwf s []
    simp [syncWorkspaceSlug, existsL, ht, hmk]
  | inr hp =>
    obtain ⟨hsome, hparts⟩ := hp
    have hst := syncWorkspaceParts_stable now g ["workspaces", s] hparts
    simp [syncWorkspaceSlug, existsL, hsome, hst]

/-- On a state where every eligible slug is settled, the workspace pass is
the identity with count 0, whatever the current clock. -/
theorem syncWorkspaces_stable (now : Nat) (g : FS)
    (h : ∀ les, resolve g ⟨.legacy, ["workspaces"]⟩ = some (.dir les) →
      ∀ s ∈ (les.map Prod.fst).filter (fun e =>
        match statS noErr g ⟨.legacy, ["workspaces", e]⟩ with
        | .ok n => n.isDir
        | .error _ => false), slugSynced g s) :
    syncWorkspaces noErr now g = (g, 0) := by
  cases hs : resolve g ⟨.legacy, ["workspaces"]⟩ with
  | none => simp [syncWorkspaces, existsL, hs]
  | some n =>
    cases n with
    | file c m => simp [syncWorkspaces, existsL, hs, readdirS, noErr]
    | dir les =>
      have hrd : readdirS noErr g ⟨.legacy, ["workspaces"]⟩ =
          .ok (les.map Prod.fst) := by
        simp [readdirS, noErr, hs]
      have hfold := foldl_id (syncWorkspaceSlug noErr now) g
        ((les.map Prod.fst).filter (fun e =>
          match statS noErr g ⟨.legacy, ["workspaces", e]⟩ with
          | .ok n => n.isDir
          | .error _ => false))
        (fun s hsm cc => syncWorkspaceSlug_stable now g cc s (h les hs s hsm)) 0
      simp [syncWorkspaces, existsL, hs, hrd, Loc.child, hfold]

/-- `fileSynced` survives any evolution that fixes the legacy source and
the canonical target path. -/
theorem fileSynced_preserved {g g' : FS} (sp tp : List String)
    (hleg : resolve g' ⟨.legacy, sp⟩ = resolve g ⟨.legacy, sp⟩)
    (hev : Evolves g g')
    (hfr : resolve g' ⟨.canonical, tp⟩ = resolve g ⟨.canonical, tp⟩)
    (h : fileSynced g sp tp) : fileSynced g' sp tp := by
  unfold fileSynced at h ⊢
  rw [hleg, hfr]
  cases hs : resolve g ⟨.legacy, sp⟩ with
  | none => trivial
  | some sn =>
    rw [hs] at h
    cases sn with
    | dir des => exact isSome_evolves hev h
    | file c m =>
      cases ht : resolve g ⟨.canonical, tp⟩ with
      | none =>
        rw [ht] at h
        obtain ⟨cf, mf, hpf⟩ := h
        exact fileKind_evolves hev hpf
      | some tn =>
        rw [ht] at h
        cases tn with
        | dir tes => trivial
        | file c' m' => exact h

/-- `eventsSynced` survives any evolution that fixes the legacy source and
the canonical `events.jsonl` path. -/
theorem eventsSynced_preserved {g g' : FS} (wp : List String)
    (hleg : resolve g' ⟨.legacy, wp ++ ["events.jsonl"]⟩ =
      resolve g ⟨.legacy, wp ++ ["events.jsonl"]⟩)
    (hev : Evolves g g')
    (hfr : resolve g' ⟨.canonical, wp ++ ["events.jsonl"]⟩ =
      resolve g ⟨.canonical, wp ++ ["events.jsonl"]⟩)
    (h : eventsSynced g wp) : eventsSynced g' wp := by
  unfold eventsSynced at h ⊢
  rw [hleg, hfr]
  cases hs : resolve g ⟨.legacy, wp ++ ["events.jsonl"]⟩ with
  | none => trivial
  | some sn =>
    rw [hs] at h
    cases sn with
    | dir des => trivial
    | file c m =>
      cases ht : resolve g ⟨.canonical, wp ++ ["events.jsonl"]⟩ with
      | none =>
        rw [ht] at h
        obtain ⟨cf, mf, hpf⟩ := h
        exact fileKind_evolves hev hpf
      | some tn =>
        rw [ht] at h
        cases tn with
        | dir tes => trivial
        | file c' m' => exact h

/-- `subdirSynced` survives any evolution that fixes the legacy source and
the canonical sub-collection path. -/
theorem subdirSynced_preserved {g g' : FS} (wp : List String) (sd : String)
    (hleg : resolve g' ⟨.legacy, wp ++ [sd]⟩ = resolve g ⟨.legacy, wp ++ [sd]⟩)
    (hev : Evolves g g')
    (hfr : resolve g' ⟨.canonical, wp ++ [sd]⟩ =
      resolve g ⟨.canonical, wp ++ [sd]⟩)
    (h : subdirSynced g wp sd) : subdirSynced g' wp sd := by
  unfold subdirSynced at h ⊢
  rw [hleg, hfr]
  cases hs : resolve g ⟨.legacy, wp ++ [sd]⟩ with
  | none => trivial
  | some sn =>
    rw [hs] at h
    cases sn with
    | file c m =>
      cases h with
      | inl hsome => exact Or.inl hsome
      | inr hpf =>
        obtain ⟨cf, mf, hpf⟩ := hpf
        exact Or.inr (fileKind_evolves hev hpf)
    | dir les =>
      cases ht : resolve g ⟨.canonical, wp ++ [sd]⟩ with
      | none =>
        rw [ht] at h
        obtain ⟨cf, mf, hpf⟩ := h
        exact fileKind_evolves hev hpf
      | some tn =>
        rw [ht] at h
        cases tn with
        | file c' m' => trivial
        | dir ces => exact h

/-- `partsSynced` survives any evolution that fixes the legacy tree and the
canonical workspace node. -/
theorem partsSynced_preserved {g g' : FS} (wp : List String)
    (hleg : g'.legacyTree = g.legacyTree) (hev : Evolves g g')
    (hfr : resolve g' ⟨.canonical, wp⟩ = resolve g ⟨.canonical, wp⟩)
    (h : partsSynced g wp) : partsSynced g' wp := by
  obtain ⟨hf, he, hsd⟩ := h
  refine ⟨?_, ?_, ?_⟩
  · intro f hfm
    exact fileSynced_preserved (wp ++ [f]) (wp ++ [f])
      (resolve_legacy_congr hleg _) hev (resolve_congr_under hfr [f]) (hf f hfm)
  · exact eventsSynced_preserved wp (resolve_legacy_congr hleg _) hev
      (resolve_congr_under hfr ["events.jsonl"]) he
  · intro sd hm
    exact subdirSynced_preserved wp sd (resolve_legacy_congr hleg _) hev
      (resolve_congr_under hfr [sd]) (hsd sd hm)

/-- `slugSynced` survives any evolution that fixes the legacy tree and the
canonical workspace node of the slug. -/
theorem slugSynced_preserved {g g' : FS} (s : String)
    (hleg : g'.legacyTree = g.legacyTree) (hev : Evolves g g')
    (hfr : resolve g' ⟨.canonical, ["workspaces", s]⟩ =
      resolve g ⟨.canonical, ["workspaces", s]⟩)
    (h : slugSynced g s) : slugSynced g' s := by
  cases h with
  | inl hwf =>
    obtain ⟨cf, mf, hwf⟩ := hwf
    exact Or.inl (fileKind_evolves hev hwf)
  | inr hp =>
    obtain ⟨hsome, hparts⟩ := hp
    refine Or.inr ⟨by rw [hfr]; exact hsome, ?_⟩
    exact partsSynced_preserved ["workspaces", s] hleg hev hfr hparts

/-- With no I/O errors, a clock bounding the legacy mtimes, and a present
canonical parent, one `syncFile` pass settles its unit, evolving the state
and touching no diverging canonical path. -/
theorem syncFile_establishes (now : Nat) (g : FS) (sp tp : List String)
    (htp : tp ≠ [])
    (hmt : ∀ c m, resolve g ⟨.legacy, sp⟩ = some (.file c m) → m ≤ now)
    (hpar : (resolve g ⟨.canonical, tp.dropLast⟩).isSome = true) :
    ∃ g1 b, syncFile noErr now g ⟨.legacy, sp⟩ ⟨.canonical, tp⟩ = (g1, b) ∧
      fileSynced g1 sp tp ∧ Evolves g g1 ∧
      ∀ q, Diverge q tp →
        resolve g1 ⟨.canonical, q⟩ = resolve g ⟨.canonical, q⟩ := by
  cases hs : resolve g ⟨.legacy, sp⟩ with
  | none =>
    refine ⟨g, false, by simp [syncFile, existsL, hs], ?_, Evolves.refl g,
      fun q _ => rfl⟩
    unfold fileSynced
    rw [hs]
    trivial
  | some sn =>
    cases sn with
    | dir des =>
      cases ht : resolve g ⟨.canonical, tp⟩ with
      | none =>
        refine ⟨g, false,
          by simp [syncFile, existsL, hs, ht, Loc.parent, hpar, cpFileS, noErr],
          ?_, Evolves.refl g, fun q _ => rfl⟩
        unfold fileSynced
        rw [hs]
        exact hpar
      | some tn =>
        refine ⟨g, false,
          by simp [syncFile, existsL, hs, ht, statS, noErr, FSNode.mtime,
            Nat.not_lt_zero],
          ?_, Evolves.refl g, fun q _ => rfl⟩
        unfold fileSynced
        rw [hs]
        exact hpar
    | file c m =>
      have hm := hmt c m hs
      cases ht : resolve g ⟨.canonical, tp⟩ with
      | none =>
        cases hp : resolve g ⟨.canonical, tp.dropLast⟩ with
        | none => rw [hp] at hpar; exact absurd hpar (by simp)
        | some pn =>
          cases pn with
          | dir pes =>
            obtain ⟨fs', hcp, hdst, hside, hfr⟩ :=
              cpFileS_create_spec noErr now g ⟨.legacy, sp⟩ ⟨.canonical, tp⟩
                c m pes rfl hs ht htp hp
            refine ⟨fs', true,
              by simp [syncFile, existsL, hs, ht, Loc.parent, hp, hcp], ?_,
              cpFileS_evolves noErr now g ⟨.legacy, sp⟩ tp fs' hcp, hfr⟩
            unfold fileSynced
            rw [hside ⟨.legacy, sp⟩ (by simp), hs, hdst]
            exact hm
          | file cf mf =>
            have htp' : tp.dropLast ++ [tp.getLast htp] = tp :=
              List.dropLast_append_getLast htp
            have hcp : cpFileS noErr now g ⟨.legacy, sp⟩ ⟨.canonical, tp⟩ =
                .error () := by
              rw [← htp']
              exact cpFileS_blocked now g _ tp.dropLast cf mf _ hp
                (by rw [htp']; exact ht)
            refine ⟨g, false,
              by simp [syncFile, existsL, hs, ht, Loc.parent, hp, hcp], ?_,
              Evolves.refl g, fun q _ => rfl⟩
            unfold fileSynced
            rw [hs, ht]
            exact ⟨cf, mf, hp⟩
      | some tn =>
        cases tn with
        | dir tes =>
          refine ⟨g, false,
            by simp [syncFile, existsL, hs, ht, statS, noErr, cpFileS,
              FSNode.mtime],
            ?_, Evolves.refl g, fun q _ => rfl⟩
          unfold fileSynced
          rw [hs, ht]
          trivial
        | file c' m' =>
          by_cases hgt : m' < m
          · obtain ⟨fs', hcp, hdst, hside, hfr⟩ :=
              cpFileS_overwrite_spec noErr now g ⟨.legacy, sp⟩ ⟨.canonical, tp⟩
                c m c' m' rfl hs ht
            refine ⟨fs', true,
              by simp [syncFile, existsL, hs, ht, statS, noErr, FSNode.mtime,
                hgt, hcp],
              ?_, cpFileS_evolves noErr now g ⟨.legacy, sp⟩ tp fs' hcp, hfr⟩
            unfold fileSynced
            rw [hside ⟨.legacy, sp⟩ (by simp), hs, hdst]
            exact hm
          · have hnl : ¬ (FSNode.file c' m').mtime < (FSNode.file c m).mtime := by
              simp only [FSNode.mtime]
              omega
            refine ⟨g, false,
              by simp [syncFile, existsL, hs, ht, statS, noErr, hnl], ?_,
              Evolves.refl g, fun q _ => rfl⟩
            unfold fileSynced
            rw [hs, ht]
            omega

/-- With no I/O errors and a present canonical workspace node, one
`syncEventsFile` pass settles the `events.jsonl` unit. -/
theorem syncEventsFile_establishes (now : Nat) (g : FS) (wp : List String)
    (hws : (resolve g ⟨.canonical, wp⟩).isSome = true) :
    ∃ g1 k, syncEventsFile noErr now g ⟨.legacy, wp⟩ ⟨.canonical, wp⟩ = (g1, k) ∧
      eventsSynced g1 wp ∧ Evolves g g1 ∧
      ∀ q, Diverge q (wp ++ ["events.jsonl"]) →
        resolve g1 ⟨.canonical, q⟩ = resolve g ⟨.canonical, q⟩ := by
  cases hs : resolve g ⟨.legacy, wp ++ ["events.jsonl"]⟩ with
  | none =>
    refine ⟨g, 0, by simp [syncEventsFile, Loc.child, existsL, hs], ?_,
      Evolves.refl g, fun q _ => rfl⟩
    unfold eventsSynced
    rw [hs]
    trivial
  | some sn =>
    cases sn with
    | dir des =>
      cases ht : resolve g ⟨.canonical, wp ++ ["events.jsonl"]⟩ with
      | none =>
        refine ⟨g, 0,
          by simp [syncEventsFile, Loc.child, existsL, hs, ht, cpFileS, noErr],
          ?_, Evolves.refl g, fun q _ => rfl⟩
        unfold eventsSynced
        rw [hs]
        trivial
      | some tn =>
        refine ⟨g, 0,
          by simp [syncEventsFile, Loc.child, existsL, hs, ht, statS, noErr,
            FSNode.size, Nat.not_lt_zero],
          ?_, Evolves.refl g, fun q _ => rfl⟩
        unfold eventsSynced
        rw [hs]
        trivial
    | file c m =>
      cases ht : resolve g ⟨.canonical, wp ++ ["events.jsonl"]⟩ with
      | none =>
        cases hp : resolve g ⟨.canonical, wp⟩ with
        | none => rw [hp] at hws; exact absurd hws (by simp)
        | some pn =>
          cases pn with
          | dir pes =>
            have hdl : (wp ++ ["events.jsonl"]).dropLast = wp := by simp
            have hp' : resolve g
                ⟨.canonical, (wp ++ ["events.jsonl"]).dropLast⟩ =
                some (.dir pes) := by rw [hdl]; exact hp
            obtain ⟨fs', hcp, hdst, hside, hfr⟩ :=
              cpFileS_create_spec noErr now g ⟨.legacy, wp ++ ["events.jsonl"]⟩
                ⟨.canonical, wp ++ ["events.jsonl"]⟩ c m pes rfl hs ht
                (by simp) hp'
            refine ⟨fs', 1,
              by simp [syncEventsFile, Loc.child, existsL, hs, ht, hcp], ?_,
              cpFileS_evolves noErr now g _ _ fs' hcp, hfr⟩
            unfold eventsSynced
            rw [hside ⟨.legacy, wp ++ ["events.jsonl"]⟩ (by simp), hs, hdst]
          | file cf mf =>
            have hcp : cpFileS noErr now g ⟨.legacy, wp ++ ["events.jsonl"]⟩
                ⟨.canonical, wp ++ ["events.jsonl"]⟩ = .error () :=
              cpFileS_blocked now g _ wp cf mf _ hp ht
            refine ⟨g, 0,
              by simp [syncEventsFile, Loc.child, existsL, hs, ht, hcp], ?_,
              Evolves.refl g, fun q _ => rfl⟩
            unfold eventsSynced
            rw [hs, ht]
            exact ⟨cf, mf, hp⟩
      | some tn =>
        cases tn with
        | dir tes =>
          refine ⟨g, 0,
            by simp [syncEventsFile, Loc.child, existsL, hs, ht, statS, noErr,
              cpFileS, FSNode.size],
            ?_, Evolves.refl g, fun q _ => rfl⟩
          unfold eventsSynced
          rw [hs, ht]
          trivial
        | file c' m' =>
          by_cases hgt : c'.length < c.length
          · obtain ⟨fs', hcp, hdst, hside, hfr⟩ :=
              cpFileS_overwrite_spec noErr now g ⟨.legacy, wp ++ ["events.jsonl"]⟩
                ⟨.canonical, wp ++ ["events.jsonl"]⟩ c m c' m' rfl hs ht
            refine ⟨fs', 1,
              by simp [syncEventsFile, Loc.child, existsL, hs, ht, statS, noErr,
                FSNode.size, hgt, hcp],
              ?_, cpFileS_evolves noErr now g _ _ fs' hcp, hfr⟩
            unfold eventsSynced
            rw [hside ⟨.legacy, wp ++ ["events.jsonl"]⟩ (by simp), hs, hdst]
          · have hnl : ¬ (FSNode.file c' m').size < (FSNode.file c m).size := by
              simp only [FSNode.size]
              omega
            refine ⟨g, 0,
              by simp [syncEventsFile, Loc.child, existsL, hs, ht, statS, noErr,
                hnl],
              ?_, Evolves.refl g, fun q _ => rfl⟩
            unfold eventsSynced
            rw [hs, ht]
            omega

/-- Frame of the per-entry copy fold: canonical paths diverging from the
sub-collection path are untouched. -/
theorem entryFold_frame (now : Nat) (src : Loc) (tdp : List String)
    (rem : List String) :
    ∀ (fs : FS) (c : Nat) (q : List String), Diverge q tdp →
      resolve ((rem.foldl (syncEntryStep noErr now src ⟨.canonical, tdp⟩)
          (fs, c)).1) ⟨.canonical, q⟩ = resolve fs ⟨.canonical, q⟩ := by
  induction rem with
  | nil => intro fs c q hq; rfl
  | cons e rest ih =>
    intro fs c q hq
    rw [List.foldl_cons]
    cases hstep : syncEntryStep noErr now src ⟨.canonical, tdp⟩ (fs, c) e with
    | mk fs1 c1 =>
      have hres : resolve fs1 ⟨.canonical, q⟩ = resolve fs ⟨.canonical, q⟩ := by
        unfold syncEntryStep at hstep
        by_cases h1 : existsL fs (Loc.child ⟨.canonical, tdp⟩ e) = true
        · rw [if_neg (by simp [h1])] at hstep
          cases hstep
          rfl
        · rw [if_pos (by simpa using h1)] at hstep
          cases hcp : cpRecS noErr now fs (src.child e)
              (Loc.child ⟨.canonical, tdp⟩ e) with
          | error u =>
            rw [hcp] at hstep
            cases hstep
            rfl
          | ok fs' =>
            rw [hcp] at hstep
            cases hstep
            exact (cpRecS_frame noErr now fs (src.child e) (tdp ++ [e]) fs1
              hcp).2 q (Diverge_append hq [e])
      rw [ih fs1 c1 q hq]
      exact hres

theorem legacy_wf_at {g : FS} (hwf : optWF g.legacyTree = true)
    {p : List String} {n : FSNode} (h : resolve g ⟨.legacy, p⟩ = some n) :
    wfNode n = true := by
  obtain ⟨r, htr, hfr⟩ := resolve_tree_some h
  have htr' : g.legacyTree = some r := htr
  rw [htr'] at hwf
  exact wf_find? hwf hfr

theorem legacy_mtime_at {g : FS} {now : Nat}
    (hmt : optMtimeLE now g.legacyTree = true) {p : List String} {n : FSNode}
    (h : resolve g ⟨.legacy, p⟩ = some n) : mtimeLE now n = true := by
  obtain ⟨r, htr, hfr⟩ := resolve_tree_some h
  have htr' : g.legacyTree = some r := htr
  rw [htr'] at hmt
  exact mtimeLE_find? hmt hfr

/-- With no I/O errors, a duplicate-free legacy tree and a present
canonical workspace node, one `syncSubdirectory` pass settles the
sub-collection unit. -/
theorem syncSubdirectory_establishes (now : Nat) (g : FS) (wp : List String)
    (sd : String) (hwf : optWF g.legacyTree = true)
    (hws : (resolve g ⟨.canonical, wp⟩).isSome = true) :
    ∃ g1 k, syncSubdirectory noErr now g ⟨.legacy, wp⟩ ⟨.canonical, wp⟩ sd =
        (g1, k) ∧
      subdirSynced g1 wp sd ∧ Evolves g g1 ∧
      ∀ q, Diverge q (wp ++ [sd]) →
        resolve g1 ⟨.canonical, q⟩ = resolve g ⟨.canonical, q⟩ := by
  cases hs : resolve g ⟨.legacy, wp ++ [sd]⟩ with
  | none =>
    refine ⟨g, 0, by simp [syncSubdirectory, Loc.child, existsL, hs], ?_,
      Evolves.refl g, fun q _ => rfl⟩
    unfold subdirSynced
    rw [hs]
    trivial
  | some sn =>
    cases ht : resolve g ⟨.canonical, wp ++ [sd]⟩ with
    | none =>
      cases hp : resolve g ⟨.canonical, wp⟩ with
      | none => rw [hp] at hws; exact absurd hws (by simp)
      | some pn =>
        cases pn with
        | file cf mf =>
          have hcp := cpRecS_blocked now g ⟨.legacy, wp ++ [sd]⟩ wp cf mf sd hp ht
          refine ⟨g, 0,
            by simp [syncSubdirectory, Loc.child, existsL, hs, ht, hcp], ?_,
            Evolves.refl g, fun q _ => rfl⟩
          unfold subdirSynced
          rw [hs, ht]
          cases sn with
          | file c m => exact Or.inr ⟨cf, mf, hp⟩
          | dir les => exact ⟨cf, mf, hp⟩
        | dir pes =>
          have hdl : (wp ++ [sd]).dropLast = wp := by simp
          have hp' : resolve g ⟨.canonical, (wp ++ [sd]).dropLast⟩ =
              some (.dir pes) := by rw [hdl]; exact hp
          obtain ⟨fs', hcp, hdst, hside, hfr⟩ :=
            cpRecS_create_spec noErr now g ⟨.legacy, wp ++ [sd]⟩
              ⟨.canonical, wp ++ [sd]⟩ sn pes rfl hs ht (by simp) hp'
          refine ⟨fs', 1,
            by simp [syncSubdirectory, Loc.child, existsL, hs, ht, hcp], ?_,
            cpRecS_evolves noErr now g _ _ fs' hcp, hfr⟩
          unfold subdirSynced
          rw [hside ⟨.legacy, wp ++ [sd]⟩ (by simp), hs, hdst]
          cases sn with
          | file c m => exact Or.inl rfl
          | dir les =>
            intro e he
            rw [lookupEntry_cpEntries]
            cases hle : lookupEntry les e with
            | none => exact absurd he ((lookupEntry_eq_none_iff les e).mp hle)
            | some w => simp
    | some tn =>
      cases tn with
      | file cf' mf' =>
        have hsync : subdirSynced g wp sd := by
          unfold subdirSynced
          rw [hs, ht]
          cases sn with
          | file c m => exact Or.inl rfl
          | dir les => trivial
        refine ⟨g, 0, syncSubdirectory_stable now g wp sd hsync, hsync,
          Evolves.refl g, fun q _ => rfl⟩
      | dir ces =>
        cases sn with
        | file c m =>
          refine ⟨g, 0,
            by simp [syncSubdirectory, Loc.child, existsL, hs, ht, readdirS,
              noErr],
            ?_, Evolves.refl g, fun q _ => rfl⟩
          unfold subdirSynced
          rw [hs, ht]
          exact Or.inl rfl
        | dir les =>
          have hwfn := legacy_wf_at hwf hs
          have hnd : (les.map Prod.fst).Nodup := wfEntries_nodup hwfn
          have hrd : readdirS noErr g ⟨.legacy, wp ++ [sd]⟩ =
              .ok (les.map Prod.fst) := by
            simp [readdirS, noErr, hs]
          cases hfold : (les.map Prod.fst).foldl
              (syncEntryStep noErr now ⟨.legacy, wp ++ [sd]⟩
                ⟨.canonical, wp ++ [sd]⟩) (g, 0) with
          | mk fsr cr =>
            have hrun : syncSubdirectory noErr now g ⟨.legacy, wp⟩
                ⟨.canonical, wp⟩ sd = (fsr, cr) := by
              simp [syncSubdirectory, Loc.child, existsL, hs, ht, hrd, hfold]
            obtain ⟨ces'', hleg2, hres2, _, hkeep, hnew, _⟩ :=
              entryUnion_go now (wp ++ [sd]) (wp ++ [sd]) les
                (les.map Prod.fst) g 0 ces hnd
                (fun e he hnone => (lookupEntry_eq_none_iff les e).mp hnone he)
                hs ht fsr cr hfold
            have hev := syncSubdirectory_evolves noErr now g ⟨.legacy, wp⟩ wp sd
            rw [hrun] at hev
            refine ⟨fsr, cr, hrun, ?_, hev, fun q hq => ?_⟩
            · unfold subdirSynced
              rw [resolve_legacy_congr hleg2 _, hs, hres2]
              intro e he
              cases hce : lookupEntry ces e with
              | some w => rw [hkeep e w he hce]; rfl
              | none =>
                rw [hnew e he hce]
                cases hle : lookupEntry les e with
                | none => exact absurd he ((lookupEntry_eq_none_iff les e).mp hle)
                | some w => simp
            · have hff := entryFold_frame now ⟨.legacy, wp ++ [sd]⟩ (wp ++ [sd])
                (les.map Prod.fst) g 0 q hq
              rw [hfold] at hff
              exact hff

theorem Diverge_snoc (p : List String) (a b : String) (h : a ≠ b) :
    Diverge (p ++ [a]) (p ++ [b]) := by
  induction p with
  | nil => exact Or.inl h
  | cons x xs ih => exact Or.inr ih

/-- The per-workspace file loop settles every file unit of its table. -/
theorem wsFilesFold_establishes (now : Nat) (wp : List String) :
    ∀ (fl : List String), fl.Nodup →
    ∀ (g : FS) (c : Nat),
      optMtimeLE now g.legacyTree = true →
      (resolve g ⟨.canonical, wp⟩).isSome = true →
      ∃ g1 c1,
        fl.foldl (wsFileStep noErr now ⟨.legacy, wp⟩ ⟨.canonical, wp⟩) (g, c) =
          (g1, c1) ∧
        (∀ f ∈ fl, fileSynced g1 (wp ++ [f]) (wp ++ [f])) ∧
        Evolves g g1 ∧
        ∀ q, (∀ f ∈ fl, Diverge q (wp ++ [f])) →
          resolve g1 ⟨.canonical, q⟩ = resolve g ⟨.canonical, q⟩ := by
  intro fl
  induction fl with
  | nil =>
    intro _ g c _ _
    exact ⟨g, c, rfl, by simp, Evolves.refl g, fun q _ => rfl⟩
  | cons f rest ih =>
    intro hnd g c hmt hws
    have hpar : (resolve g ⟨.canonical, (wp ++ [f]).dropLast⟩).isSome = true := by
      rw [show (wp ++ [f]).dropLast = wp by simp]
      exact hws
    have hmt' : ∀ cc mm, resolve g ⟨.legacy, wp ++ [f]⟩ = some (.file cc mm) →
        mm ≤ now :=
      fun cc mm h => mtimeLE_file (legacy_mtime_at hmt h)
    obtain ⟨ga, b, hstep, hsynca, heva, hfra⟩ :=
      syncFile_establishes now g (wp ++ [f]) (wp ++ [f]) (by simp) hmt' hpar
    have hstep' : wsFileStep noErr now ⟨.legacy, wp⟩ ⟨.canonical, wp⟩ (g, c) f
        = (ga, if b then c + 1 else c) := by
      simp [wsFileStep, Loc.child, hstep]
    obtain ⟨g1, c1, hfold, hsync1, hev1, hfr1⟩ :=
      ih hnd.of_cons ga (if b then c + 1 else c) (by rw [heva.1]; exact hmt)
        (isSome_evolves heva hws)
    refine ⟨g1, c1, ?_, ?_, heva.trans hev1, ?_⟩
    · rw [List.foldl_cons, hstep', hfold]
    · intro f' hf'
      rcases List.mem_cons.mp hf' with h1 | h1
      · subst h1
        refine fileSynced_preserved (wp ++ [f']) (wp ++ [f'])
          (resolve_legacy_congr hev1.1 _) hev1 ?_ hsynca
        refine hfr1 (wp ++ [f']) ?_
        intro f2 hf2
        refine Diverge_snoc wp f' f2 ?_
        intro he
        exact (List.nodup_cons.mp hnd).1 (he ▸ hf2)
      · exact hsync1 f' h1
    · intro q hq
      rw [hfr1 q (fun f2 hf2 => hq f2 (by simp [hf2])), hfra q (hq f (by simp))]

/-- The per-workspace sub-collection loop settles every unit of its
table. -/
theorem wsSubdirFold_establishes (now : Nat) (wp : List String) :
    ∀ (sl : List String), sl.Nodup →
    ∀ (g : FS) (c : Nat),
      optWF g.legacyTree = true →
      (resolve g ⟨.canonical, wp⟩).isSome = true →
      ∃ g1 c1,
        sl.foldl (wsSubdirStep noErr now ⟨.legacy, wp⟩ ⟨.canonical, wp⟩) (g, c) =
          (g1, c1) ∧
        (∀ sd ∈ sl, subdirSynced g1 wp sd) ∧
        Evolves g g1 ∧
        ∀ q, (∀ sd ∈ sl, Diverge q (wp ++ [sd])) →
          resolve g1 ⟨.canonical, q⟩ = resolve g ⟨.canonical, q⟩ := by
  intro sl
  induction sl with
  | nil =>
    intro _ g c _ _
    exact ⟨g, c, rfl, by simp, Evolves.refl g, fun q _ => rfl⟩
  | cons sd rest ih =>
    intro hnd g c hwf hws
    obtain ⟨ga, k, hstep, hsynca, heva, hfra⟩ :=
      syncSubdirectory_establishes now g wp sd hwf hws
    have hstep' : wsSubdirStep noErr now ⟨.legacy, wp⟩ ⟨.canonical, wp⟩ (g, c) sd
        = (ga, c + k) := by
      simp [wsSubdirStep, hstep]
    obtain ⟨g1, c1, hfold, hsync1, hev1, hfr1⟩ :=
      ih hnd.of_cons ga (c + k) (by rw [heva.1]; exact hwf)
        (isSome_evolves heva hws)
    refine ⟨g1, c1, ?_, ?_, heva.trans hev1, ?_⟩
    · rw [List.foldl_cons, hstep', hfold]
    · intro sd' hsd'
      rcases List.mem_cons.mp hsd' with h1 | h1
      · subst h1
        refine subdirSynced_preserved wp sd' (resolve_legacy_congr hev1.1 _)
          hev1 ?_ hsynca
        refine hfr1 (wp ++ [sd']) ?_
        intro s2 hs2
        refine Diverge_snoc wp sd' s2 ?_
        intro he
        exact (List.nodup_cons.mp hnd).1 (he ▸ hs2)
      · exact hsync1 sd' h1
    · intro q hq
      rw [hfr1 q (fun s2 hs2 => hq s2 (by simp [hs2])), hfra q (hq sd (by simp))]

/-- With no I/O errors, a duplicate-free legacy tree whose mtimes the clock
bounds, and a present canonical workspace node, the parts pass settles
every unit of the workspace, touching no diverging canonical path. -/
theorem syncWorkspaceParts_establishes (now : Nat) (g : FS) (wp : List String)
    (hwf : optWF g.legacyTree = true)
    (hmt : optMtimeLE now g.legacyTree = true)
    (hws : (resolve g ⟨.canonical, wp⟩).isSome = true) :
    ∃ g1 k, syncWorkspaceParts noErr now g ⟨.legacy, wp⟩ ⟨.canonical, wp⟩ =
        (g1, k) ∧
      partsSynced g1 wp ∧ Evolves g g1 ∧
      ∀ q, Diverge q wp →
        resolve g1 ⟨.canonical, q⟩ = resolve g ⟨.canonical, q⟩ := by
  have hneF : ∀ f ∈ workspaceFiles, f ≠ "events.jsonl" := by decide
  have hneFS : ∀ f ∈ workspaceFiles, ∀ sd ∈ workspaceSubdirs, f ≠ sd := by
    decide
  have hneES : ∀ sd ∈ workspaceSubdirs, "events.jsonl" ≠ sd := by decide
  obtain ⟨gF, cF, hFold, hFsync, hFev, hFfr⟩ :=
    wsFilesFold_establishes now wp workspaceFiles (by decide) g 0 hmt hws
  obtain ⟨gE, kE, hEeq, hEsync, hEev, hEfr⟩ :=
    syncEventsFile_establishes now gF wp (isSome_evolves hFev hws)
  obtain ⟨gS, cS, hSfold, hSsync, hSev, hSfr⟩ :=
    wsSubdirFold_establishes now wp workspaceSubdirs (by decide) gE (cF + kE)
      (by rw [hEev.1, hFev.1]; exact hwf)
      (isSome_evolves hEev (isSome_evolves hFev hws))
  refine ⟨gS, cS, ?_, ⟨?_, ?_, hSsync⟩, (hFev.trans hEev).trans hSev, ?_⟩
  · simp [syncWorkspaceParts, hFold, hEeq, hSfold]
  · intro f hf
    have h1 : fileSynced gE (wp ++ [f]) (wp ++ [f]) :=
      fileSynced_preserved (wp ++ [f]) (wp ++ [f])
        (resolve_legacy_congr hEev.1 _) hEev
        (hEfr (wp ++ [f]) (Diverge_snoc wp f "events.jsonl" (hneF f hf)))
        (hFsync f hf)
    exact fileSynced_preserved (wp ++ [f]) (wp ++ [f])
      (resolve_legacy_congr hSev.1 _) hSev
      (hSfr (wp ++ [f])
        (fun sd hsd => Diverge_snoc wp f sd (hneFS f hf sd hsd))) h1
  · exact eventsSynced_preserved wp (resolve_legacy_congr hSev.1 _) hSev
      (hSfr (wp ++ ["events.jsonl"])
        (fun sd hsd => Diverge_snoc wp "events.jsonl" sd (hneES sd hsd))) hEsync
  · intro q hq
    rw [hSfr q (fun sd _ => Diverge_append hq [sd]),
      hEfr q (Diverge_append hq _), hFfr q (fun f _ => Diverge_append hq [f])]

/-- Recursive copy onto an existing destination node whose merge with the
source is defined: it succeeds, leaves the merged node at the destination,
and changes nothing else. -/
theorem cpRecS_merge_spec (σ : Oracle) (now : Nat) (fs : FS) (src dst : Loc)
    (sn dn mm : FSNode)
    (hσ : σ (.cp (src.side, src.path) (dst.side, dst.path) true) = false)
    (hs : resolve fs src = some sn)
    (hd : resolve fs dst = some dn)
    (hm : mergeCp now sn dn = some mm) :
    ∃ fs', cpRecS σ now fs src dst = .ok fs' ∧
      resolve fs' dst = some mm ∧
      (∀ l : Loc, l.side ≠ dst.side → resolve fs' l = resolve fs l) ∧
      (∀ q, Diverge q dst.path →
        resolve fs' ⟨dst.side, q⟩ = resolve fs ⟨dst.side, q⟩) := by
  obtain ⟨r, htr, hfr⟩ := resolve_tree_some hd
  obtain ⟨r', hr', hfind, hframe⟩ := placeAt_present_spec r dst.path dn mm hfr
  have htr' : fs.tree dst.side = some r := htr
  refine ⟨fs.setTree dst.side (some r'), ?_, ?_, ?_, ?_⟩
  · simp [cpRecS, hσ, hs, hd, hm, htr', writeAt_some, hr']
  · rw [resolve_setTree_self, hfind]
  · intro l hl; exact resolve_setTree_other fs dst.side _ l hl
  · intro q hq
    rw [resolve_setTree_same, hframe q hq]
    simp [resolve, htr']

/-- A canonical workspace that is a fresh whole copy of the legacy
workspace (stamped with a clock bounding the legacy mtimes) has every part
settled. -/
theorem partsSynced_of_fresh_copy (g : FS) (wp : List String) (now : Nat)
    (les : List (String × FSNode))
    (hl : resolve g ⟨.legacy, wp⟩ = some (.dir les))
    (hc : resolve g ⟨.canonical, wp⟩ = some (cpNode now (.dir les)))
    (hmtn : mtimeLE now (.dir les) = true) :
    partsSynced g wp := by
  have hleg : ∀ x : String, resolve g ⟨.legacy, wp ++ [x]⟩ =
      lookupEntry les x := by
    intro x
    rw [resolve_append, hl, Option.some_bind, find?_singleton]
  have hcan : ∀ x : String, resolve g ⟨.canonical, wp ++ [x]⟩ =
      Option.map (cpNode now) (lookupEntry les x) := by
    intro x
    rw [resolve_append, hc, Option.some_bind,
      show cpNode now (.dir les) = .dir (cpEntries now les) from rfl,
      find?_singleton, lookupEntry_cpEntries]
  refine ⟨?_, ?_, ?_⟩
  · intro f hfm
    unfold fileSynced
    rw [hleg f]
    cases hx : lookupEntry les f with
    | none => trivial
    | some xn =>
      cases xn with
      | dir des =>
        rw [show (wp ++ [f]).dropLast = wp by simp, hc]
        rfl
      | file cc mm =>
        rw [hcan f, hx]
        exact mtimeLE_file (mtimeLEEntries_lookup hmtn hx)
  · unfold eventsSynced
    rw [hleg "events.jsonl"]
    cases hx : lookupEntry les "events.jsonl" with
    | none => trivial
    | some xn =>
      cases xn with
      | dir des => trivial
      | file cc mm =>
        rw [hcan "events.jsonl", hx]
        exact Nat.le_refl _
  · intro sd hm
    unfold subdirSynced
    rw [hleg sd]
    cases hx : lookupEntry les sd with
    | none => trivial
    | some xn =>
      cases xn with
      | file cc mm =>
        rw [hcan sd, hx]
        exact Or.inl rfl
      | dir des =>
        rw [hcan sd, hx]
        intro e he
        rw [lookupEntry_cpEntries]
        cases hle : lookupEntry des e with
        | none => exact absurd he ((lookupEntry_eq_none_iff des e).mp hle)
        | some w => simp

/-- The copy-whole-workspace branch: after a successful `mkdirSync` of the
canonical workspace, the recursive copy succeeds and settles the slug. -/
theorem slug_copy_after_mkdir (now : Nat) (g : FS) (c : Nat) (s : String)
    (hwf : optWF g.legacyTree = true)
    (hmt : optMtimeLE now g.legacyTree = true)
    (les : List (String × FSNode))
    (hlws : resolve g ⟨.legacy, ["workspaces", s]⟩ = some (.dir les))
    (hex : resolve g ⟨.canonical, ["workspaces", s]⟩ = none)
    (fs1 : FS)
    (hmk : mkdirS noErr g ⟨.canonical, ["workspaces", s]⟩ = .ok fs1) :
    ∃ g1 c1, syncWorkspaceSlug noErr now (g, c) s = (g1, c1) ∧
      slugSynced g1 s ∧ Evolves g g1 ∧
      ∀ q, Diverge q ["workspaces", s] →
        resolve g1 ⟨.canonical, q⟩ = resolve g ⟨.canonical, q⟩ := by
  obtain ⟨hnew, hside1⟩ :=
    mkdirS_creates noErr g ⟨.canonical, ["workspaces", s]⟩ fs1 hmk hex
  obtain ⟨hleg1, hfr1⟩ := mkdirS_frame noErr g ["workspaces", s] fs1 hmk
  have hev1 : Evolves g fs1 := mkdirS_evolves noErr g ["workspaces", s] fs1 hmk
  have hsrc1 : resolve fs1 ⟨.legacy, ["workspaces", s]⟩ = some (.dir les) := by
    rw [resolve_legacy_congr hleg1]
    exact hlws
  have hwfn := legacy_wf_at hwf hlws
  have hnd : (les.map Prod.fst).Nodup := wfEntries_nodup hwfn
  have hmerge : mergeCp now (.dir les) (.dir []) =
      some (cpNode now (.dir les)) := mergeCp_into_empty now les hnd
  obtain ⟨fs2, hcp, hdst2, hside2, hfr2⟩ :=
    cpRecS_merge_spec noErr now fs1 ⟨.legacy, ["workspaces", s]⟩
      ⟨.canonical, ["workspaces", s]⟩ (.dir les) (.dir [])
      (cpNode now (.dir les)) rfl hsrc1 hnew hmerge
  have hev2 := cpRecS_evolves noErr now fs1 ⟨.legacy, ["workspaces", s]⟩
    ["workspaces", s] fs2 hcp
  refine ⟨fs2, c + 1, by simp [syncWorkspaceSlug, existsL, hex, hmk, hcp], ?_,
    hev1.trans hev2, ?_⟩
  · refine Or.inr ⟨by rw [hdst2]; rfl, ?_⟩
    refine partsSynced_of_fresh_copy fs2 ["workspaces", s] now les ?_ hdst2 ?_
    · rw [resolve_legacy_congr hev2.1]
      exact hsrc1
    · exact legacy_mtime_at hmt hlws
  · intro q hq
    rw [hfr2 q hq, hfr1 q (diverge_not_initSeg hq)]

/-- With no I/O errors, a well-formed legacy tree whose mtimes the clock
bounds, a directory at the canonical root and a legacy workspace directory
at the slug, the per-slug step settles the slug, touching no diverging
canonical path. -/
theorem syncWorkspaceSlug_establishes (now : Nat) (g : FS) (c : Nat)
    (s : String) (hwf : optWF g.legacyTree = true)
    (hmt : optMtimeLE now g.legacyTree = true)
    (les : List (String × FSNode))
    (hlws : resolve g ⟨.legacy, ["workspaces", s]⟩ = some (.dir les))
    (hroot : rootDir g) :
    ∃ g1 c1, syncWorkspaceSlug noErr now (g, c) s = (g1, c1) ∧
      slugSynced g1 s ∧ Evolves g g1 ∧
      ∀ q, Diverge q ["workspaces", s] →
        resolve g1 ⟨.canonical, q⟩ = resolve g ⟨.canonical, q⟩ := by
  obtain ⟨res, htree⟩ := hroot
  cases hex : resolve g ⟨.canonical, ["workspaces", s]⟩ with
  | some tn =>
    obtain ⟨gP, kP, hPeq, hPsync, hPev, hPfr⟩ :=
      syncWorkspaceParts_establishes now g ["workspaces", s] hwf hmt
        (by rw [hex]; rfl)
    refine ⟨gP, c + kP, by simp [syncWorkspaceSlug, existsL, hex, hPeq], ?_,
      hPev, hPfr⟩
    exact Or.inr ⟨isSome_evolves hPev (by rw [hex]; rfl), hPsync⟩
  | none =>
    cases hw : resolve g ⟨.canonical, ["workspaces"]⟩ with
    | none =>
      have hl : lookupEntry res "workspaces" = none := by
        rw [resolve_canonical_eq, htree, Option.some_bind, find?_singleton] at hw
        exact hw
      have hmkp : mkdirp (g.tree Side.canonical) ["workspaces", s] =
          some (.dir (updEntries res "workspaces" (mkDirs [s]))) := by
        rw [show g.tree Side.canonical = g.canonicalTree from rfl, htree]
        exact mkdirpN_cons_miss res "workspaces" [s] hl
      have hmk : mkdirS noErr g ⟨.canonical, ["workspaces", s]⟩ =
          .ok (g.setTree .canonical
            (some (.dir (updEntries res "workspaces" (mkDirs [s]))))) := by
        simp [mkdirS, noErr, hmkp]
      exact slug_copy_after_mkdir now g c s hwf hmt les hlws hex _ hmk
    | some wn =>
      cases wn with
      | file cf mf =>
        have hmk0 := mkdirS_blocked g ["workspaces"] cf mf hw s []
        have hmk : mkdirS noErr g ⟨.canonical, ["workspaces", s]⟩ =
            .error () := by simpa using hmk0
        refine ⟨g, c, by simp [syncWorkspaceSlug, existsL, hex, hmk], ?_,
          Evolves.refl g, fun q _ => rfl⟩
        exact Or.inl ⟨cf, mf, hw⟩
      | dir wres =>
        have hl : lookupEntry res "workspaces" = some (.dir wres) := by
          rw [resolve_canonical_eq, htree, Option.some_bind,
            find?_singleton] at hw
          exact hw
        have hs2 : lookupEntry wres s = none := by
          rw [resolve_canonical_eq, htree, Option.some_bind, find?_cons_dir,
            hl, Option.some_bind, find?_singleton] at hex
          exact hex
        have hmkp : mkdirp (g.tree Side.canonical) ["workspaces", s] =
            some (.dir (updEntries res "workspaces"
              (.dir (updEntries wres s (mkDirs []))))) := by
          rw [show g.tree Side.canonical = g.canonicalTree from rfl, htree]
          rw [show mkdirp (some (FSNode.dir res)) ["workspaces", s] =
            mkdirpN (.dir res) ["workspaces", s] from rfl]
          rw [mkdirpN_cons_hit res "workspaces" [s] (.dir wres) hl,
            mkdirpN_cons_miss wres s [] hs2, Option.map_some']
        have hmk : mkdirS noErr g ⟨.canonical, ["workspaces", s]⟩ =
            .ok (g.setTree .canonical
              (some (.dir (updEntries res "workspaces"
                (.dir (updEntries wres s (mkDirs []))))))) := by
          simp [mkdirS, noErr, hmkp]
        exact slug_copy_after_mkdir now g c s hwf hmt les hlws hex _ hmk

theorem statS_legacy_congr {g g' : FS} (h : g'.legacyTree = g.legacyTree)
    (p : List String) :
    statS noErr g' ⟨.legacy, p⟩ = statS noErr g ⟨.legacy, p⟩ := by
  unfold statS
  rw [resolve_legacy_congr h]

/-- The per-slug fold settles every slug of its list, provided each is a
legacy workspace directory. -/
theorem slugFold_establishes (now : Nat) :
    ∀ (sl : List String), sl.Nodup →
    ∀ (g : FS) (c : Nat),
      optWF g.legacyTree = true →
      optMtimeLE now g.legacyTree = true →
      rootDir g →
      (∀ s ∈ sl, ∃ les,
        resolve g ⟨.legacy, ["workspaces", s]⟩ = some (.dir les)) →
      ∃ g1 c1, sl.foldl (syncWorkspaceSlug noErr now) (g, c) = (g1, c1) ∧
        (∀ s ∈ sl, slugSynced g1 s) ∧
        Evolves g g1 ∧
        ∀ q, (∀ s ∈ sl, Diverge q ["workspaces", s]) →
          resolve g1 ⟨.canonical, q⟩ = resolve g ⟨.canonical, q⟩ := by
  intro sl
  induction sl with
  | nil =>
    intro _ g c _ _ _ _
    exact ⟨g, c, rfl, by simp, Evolves.refl g, fun q _ => rfl⟩
  | cons s rest ih =>
    intro hnd g c hwf hmt hroot hdirs
    obtain ⟨les, hles⟩ := hdirs s (by simp)
    obtain ⟨ga, ca, hstep, hsynca, heva, hfra⟩ :=
      syncWorkspaceSlug_establishes now g c s hwf hmt les hles hroot
    obtain ⟨g1, c1, hfold, hsync1, hev1, hfr1⟩ :=
      ih hnd.of_cons ga ca (by rw [heva.1]; exact hwf)
        (by rw [heva.1]; exact hmt) (rootDir_evolves heva hroot)
        (fun s2 hs2 => by
          rw [resolve_legacy_congr heva.1]
          exact hdirs s2 (by simp [hs2]))
    refine ⟨g1, c1, ?_, ?_, heva.trans hev1, ?_⟩
    · rw [List.foldl_cons, hstep, hfold]
    · intro s' hs'
      rcases List.mem_cons.mp hs' with h1 | h1
      · subst h1
        refine slugSynced_preserved s' hev1.1 hev1 ?_ hsynca
        refine hfr1 ["workspaces", s'] ?_
        intro s2 hs2
        refine Diverge_snoc ["workspaces"] s' s2 ?_
        intro he
        exact (List.nodup_cons.mp hnd).1 (he ▸ hs2)
      · exact hsync1 s' h1
    · intro q hq
      rw [hfr1 q (fun s2 hs2 => hq s2 (by simp [hs2])), hfra q (hq s (by simp))]

/-- With no I/O errors, a well-formed legacy tree whose mtimes the clock
bounds, and a directory at the canonical root, one workspace pass reaches a
state on which any later workspace pass is the identity with count 0; it
touches no canonical path diverging from `workspaces`. -/
theorem syncWorkspaces_establishes (now : Nat) (g : FS)
    (hwf : optWF g.legacyTree = true)
    (hmt : optMtimeLE now g.legacyTree = true)
    (hroot : rootDir g) :
    ∃ g1 k, syncWorkspaces noErr now g = (g1, k) ∧ Evolves g g1 ∧
      (∀ q, Diverge q ["workspaces"] →
        resolve g1 ⟨.canonical, q⟩ = resolve g ⟨.canonical, q⟩) ∧
      ∀ now2, syncWorkspaces noErr now2 g1 = (g1, 0) := by
  cases hs0 : resolve g ⟨.legacy, ["workspaces"]⟩ with
  | none =>
    refine ⟨g, 0, by simp [syncWorkspaces, existsL, hs0], Evolves.refl g,
      fun q _ => rfl, fun now2 => by simp [syncWorkspaces, existsL, hs0]⟩
  | some wn =>
    cases wn with
    | file cw mw =>
      refine ⟨g, 0, by simp [syncWorkspaces, existsL, hs0, readdirS, noErr],
        Evolves.refl g, fun q _ => rfl,
        fun now2 => by simp [syncWorkspaces, existsL, hs0, readdirS, noErr]⟩
    | dir wes =>
      have hrd : ∀ g' : FS, resolve g' ⟨.legacy, ["workspaces"]⟩ =
          some (.dir wes) → ∀ now2 : Nat, readdirS noErr g' ⟨.legacy, ["workspaces"]⟩ =
          .ok (wes.map Prod.fst) := by
        intro g' h now2
        simp [readdirS, noErr, h]
      have hndw : (wes.map Prod.fst).Nodup :=
        wfEntries_nodup (legacy_wf_at hwf hs0)
      have hnds : ((wes.map Prod.fst).filter (fun e =>
          match statS noErr g ⟨.legacy, ["workspaces", e]⟩ with
          | .ok n => n.isDir
          | .error _ => false)).Nodup := List.Nodup.filter _ hndw
      have hdirs : ∀ s ∈ (wes.map Prod.fst).filter (fun e =>
          match statS noErr g ⟨.legacy, ["workspaces", e]⟩ with
          | .ok n => n.isDir
          | .error _ => false),
          ∃ les, resolve g ⟨.legacy, ["workspaces", s]⟩ = some (.dir les) := by
        intro s hsm
        have hp := (List.mem_filter.mp hsm).2
        cases hr : resolve g ⟨.legacy, ["workspaces", s]⟩ with
        | none => rw [show statS noErr g ⟨.legacy, ["workspaces", s]⟩ =
            .error () from by simp [statS, noErr, hr]] at hp; simp at hp
        | some n =>
          cases n with
          | file cc mm =>
            rw [show statS noErr g ⟨.legacy, ["workspaces", s]⟩ =
              .ok (.file cc mm) from by simp [statS, noErr, hr]] at hp
            simp [FSNode.isDir] at hp
          | dir les => exact ⟨les, rfl⟩
      obtain ⟨g1, c1, hfold, hsync1, hev1, hfr1⟩ :=
        slugFold_establishes now _ hnds g 0 hwf hmt hroot hdirs
      refine ⟨g1, c1, ?_, hev1, ?_, ?_⟩
      · simp [syncWorkspaces, existsL, hs0, hrd g hs0 now, Loc.child, hfold]
      · intro q hq
        refine hfr1 q ?_
        intro s _
        cases q with
        | nil => simp [Diverge] at hq
        | cons b bs =>
          cases hq with
          | inl hb => exact Or.inl hb
          | inr hd => cases bs <;> simp [Diverge] at hd
      · intro now2
        apply syncWorkspaces_stable now2 g1
        intro les' hles' s hsm
        have hw1 : resolve g1 ⟨.legacy, ["workspaces"]⟩ = some (.dir wes) := by
          rw [resolve_legacy_congr hev1.1]
          exact hs0
        rw [hw1] at hles'
        have hwes : wes = les' := by simpa using hles'
        subst hwes
        have hpred : ∀ e ∈ wes.map Prod.fst,
            (match statS noErr g1 ⟨.legacy, ["workspaces", e]⟩ with
              | .ok n => n.isDir
              | .error _ => false) =
            (match statS noErr g ⟨.legacy, ["workspaces", e]⟩ with
              | .ok n => n.isDir
              | .error _ => false) := by
          intro e _
          rw [statS_legacy_congr hev1.1]
        rw [List.filter_congr hpred] at hsm
        exact hsync1 s hsm

/-- The top-level file loop settles every file unit of its table. -/
theorem topFilesFold_establishes (now : Nat) :
    ∀ (fl : List String), fl.Nodup →
    ∀ (g : FS) (c : Nat),
      optMtimeLE now g.legacyTree = true →
      (resolve g ⟨.canonical, []⟩).isSome = true →
      ∃ g1 c1, fl.foldl (topFileStep noErr now) (g, c) = (g1, c1) ∧
        (∀ f ∈ fl, fileSynced g1 [f] [f]) ∧
        Evolves g g1 ∧
        ∀ q, (∀ f ∈ fl, Diverge q [f]) →
          resolve g1 ⟨.canonical, q⟩ = resolve g ⟨.canonical, q⟩ := by
  intro fl
  induction fl with
  | nil =>
    intro _ g c _ _
    exact ⟨g, c, rfl, by simp, Evolves.refl g, fun q _ => rfl⟩
  | cons f rest ih =>
    intro hnd g c hmt hws
    have hmt' : ∀ cc mm, resolve g ⟨.legacy, [f]⟩ = some (.file cc mm) →
        mm ≤ now :=
      fun cc mm h => mtimeLE_file (legacy_mtime_at hmt h)
    obtain ⟨ga, b, hstep, hsynca, heva, hfra⟩ :=
      syncFile_establishes now g [f] [f] (by simp) hmt' hws
    have hstep' : topFileStep noErr now (g, c) f =
        (ga, if b then c + 1 else c) := by
      simp [topFileStep, hstep]
    obtain ⟨g1, c1, hfold, hsync1, hev1, hfr1⟩ :=
      ih hnd.of_cons ga (if b then c + 1 else c) (by rw [heva.1]; exact hmt)
        (isSome_evolves heva hws)
    refine ⟨g1, c1, ?_, ?_, heva.trans hev1, ?_⟩
    · rw [List.foldl_cons, hstep', hfold]
    · intro f' hf'
      rcases List.mem_cons.mp hf' with h1 | h1
      · subst h1
        refine fileSynced_preserved [f'] [f']
          (resolve_legacy_congr hev1.1 _) hev1 ?_ hsynca
        refine hfr1 [f'] ?_
        intro f2 hf2
        refine Diverge_snoc [] f' f2 ?_
        intro he
        exact (List.nodup_cons.mp hnd).1 (he ▸ hf2)
      · exact hsync1 f' h1
    · intro q hq
      rw [hfr1 q (fun f2 hf2 => hq f2 (by simp [hf2])), hfra q (hq f (by simp))]

/-- A top-level directory unit is settled: the legacy side is absent, the
canonical side is present, or the canonical root is a regular file. -/
def topDirSynced (g : FS) (d : String) : Prop :=
  (resolve g ⟨.legacy, [d]⟩).isSome = false ∨
  (resolve g ⟨.canonical, [d]⟩).isSome = true ∨
  (∃ cf mf, resolve g ⟨.canonical, []⟩ = some (.file cf mf))

/-- On a settled top-level directory unit `topDirStep` is the identity. -/
theorem topDirStep_stable (now : Nat) (g : FS) (c : Nat) (d : String)
    (h : topDirSynced g d) : topDirStep noErr now (g, c) d = (g, c) := by
  rcases h with habs | hsome | hrf
  · simp [topDirStep, existsL, habs]
  · simp [topDirStep, existsL, hsome]
  · obtain ⟨cf, mf, hrf⟩ := hrf
    have htgt : resolve g ⟨.canonical, [d]⟩ = none := by
      rw [show ([d] : List String) = [] ++ [d] from rfl, resolve_append, hrf]
      rfl
    have hcp0 := cpRecS_blocked now g ⟨.legacy, [d]⟩ [] cf mf d hrf
      (by rw [show (([] : List String) ++ [d]) = [d] from rfl]; exact htgt)
    have hcp : cpRecS noErr now g ⟨.legacy, [d]⟩ ⟨.canonical, [d]⟩ =
        .error () := by simpa using hcp0
    simp [topDirStep, existsL, htgt, hcp]

/-- `topDirSynced` survives any evolution that fixes the legacy tree. -/
theorem topDirSynced_preserved {g g' : FS} (d : String)
    (hleg : g'.legacyTree = g.legacyTree) (hev : Evolves g g')
    (h : topDirSynced g d) : topDirSynced g' d := by
  rcases h with habs | hsome | hrf
  · exact Or.inl (by rw [resolve_legacy_congr hleg]; exact habs)
  · exact Or.inr (Or.inl (isSome_evolves hev hsome))
  · obtain ⟨cf, mf, hrf⟩ := hrf
    exact Or.inr (Or.inr (fileKind_evolves hev hrf))

/-- With no I/O errors and a present canonical root, one `topDirStep`
settles its unit, touching no diverging canonical path. -/
theorem topDirStep_establishes (now : Nat) (g : FS) (c : Nat) (d : String)
    (hroot : (resolve g ⟨.canonical, []⟩).isSome = true) :
    ∃ g1 c1, topDirStep noErr now (g, c) d = (g1, c1) ∧
      topDirSynced g1 d ∧ Evolves g g1 ∧
      ∀ q, Diverge q [d] →
        resolve g1 ⟨.canonical, q⟩ = resolve g ⟨.canonical, q⟩ := by
  cases hsrc : resolve g ⟨.legacy, [d]⟩ with
  | none =>
    refine ⟨g, c, by simp [topDirStep, existsL, hsrc], ?_, Evolves.refl g,
      fun q _ => rfl⟩
    exact Or.inl (by rw [hsrc]; rfl)
  | some sn =>
    cases htgt : resolve g ⟨.canonical, [d]⟩ with
    | some tn =>
      refine ⟨g, c, by simp [topDirStep, existsL, hsrc, htgt], ?_,
        Evolves.refl g, fun q _ => rfl⟩
      exact Or.inr (Or.inl (by rw [htgt]; rfl))
    | none =>
      cases hr : resolve g ⟨.canonical, []⟩ with
      | none => rw [hr] at hroot; exact absurd hroot (by simp)
      | some rn =>
        cases rn with
        | file cf mf =>
          have hcp0 := cpRecS_blocked now g ⟨.legacy, [d]⟩ [] cf mf d hr
            (by rw [show (([] : List String) ++ [d]) = [d] from rfl]; exact htgt)
          have hcp : cpRecS noErr now g ⟨.legacy, [d]⟩ ⟨.canonical, [d]⟩ =
              .error () := by simpa using hcp0
          refine ⟨g, c, by simp [topDirStep, existsL, hsrc, htgt, hcp], ?_,
            Evolves.refl g, fun q _ => rfl⟩
          exact Or.inr (Or.inr ⟨cf, mf, hr⟩)
        | dir res =>
          have hpar : resolve g ⟨.canonical, ([d] : List String).dropLast⟩ =
              some (.dir res) := hr
          obtain ⟨fs', hcp, hdst, hside, hfr⟩ :=
            cpRecS_create_spec noErr now g ⟨.legacy, [d]⟩ ⟨.canonical, [d]⟩
              sn res rfl hsrc htgt (by simp) hpar
          refine ⟨fs', c + 1, by simp [topDirStep, existsL, hsrc, htgt, hcp], ?_,
            cpRecS_evolves noErr now g _ _ fs' hcp, hfr⟩
          exact Or.inr (Or.inl (by rw [hdst]; rfl))

/-- The top-level directory loop settles every unit of its table. -/
theorem topDirsFold_establishes (now : Nat) :
    ∀ (dl : List String), dl.Nodup →
    ∀ (g : FS) (c : Nat),
      (resolve g ⟨.canonical, []⟩).isSome = true →
      ∃ g1 c1, dl.foldl (topDirStep noErr now) (g, c) = (g1, c1) ∧
        (∀ d ∈ dl, topDirSynced g1 d) ∧
        Evolves g g1 ∧
        ∀ q, (∀ d ∈ dl, Diverge q [d]) →
          resolve g1 ⟨.canonical, q⟩ = resolve g ⟨.canonical, q⟩ := by
  intro dl
  induction dl with
  | nil =>
    intro _ g c _
    exact ⟨g, c, rfl, by simp, Evolves.refl g, fun q _ => rfl⟩
  | cons d rest ih =>
    intro hnd g c hws
    obtain ⟨ga, ca, hstep, hsynca, heva, hfra⟩ :=
      topDirStep_establishes now g c d hws
    obtain ⟨g1, c1, hfold, hsync1, hev1, hfr1⟩ :=
      ih hnd.of_cons ga ca (isSome_evolves heva hws)
    refine ⟨g1, c1, ?_, ?_, heva.trans hev1, ?_⟩
    · rw [List.foldl_cons, hstep, hfold]
    · intro d' hd'
      rcases List.mem_cons.mp hd' with h1 | h1
      · subst h1
        exact topDirSynced_preserved d' hev1.1 hev1 hsynca
      · exact hsync1 d' h1
    · intro q hq
      rw [hfr1 q (fun d2 hd2 => hq d2 (by simp [hd2])), hfra q (hq d (by simp))]

/-- When the canonical root is a regular file, the workspace pass is the
identity with count 0 (every write below the root is blocked). -/
theorem syncWorkspaces_rootFile (now : Nat) (g : FS) (cf : String) (mf : Nat)
    (hr : resolve g ⟨.canonical, []⟩ = some (.file cf mf)) :
    syncWorkspaces noErr now g = (g, 0) := by
  have htC : g.canonicalTree = some (.file cf mf) := by
    have h0 := hr
    rw [resolve_root] at h0
    exact h0
  cases hs : resolve g ⟨.legacy, ["workspaces"]⟩ with
  | none => simp [syncWorkspaces, existsL, hs]
  | some wn =>
    cases wn with
    | file cw mw => simp [syncWorkspaces, existsL, hs, readdirS, noErr]
    | dir wes =>
      have hrd : readdirS noErr g ⟨.legacy, ["workspaces"]⟩ =
          .ok (wes.map Prod.fst) := by
        simp [readdirS, noErr, hs]
      have hstep : ∀ s ∈ (wes.map Prod.fst).filter (fun e =>
          match statS noErr g ⟨.legacy, ["workspaces", e]⟩ with
          | .ok n => n.isDir
          | .error _ => false), ∀ c,
          syncWorkspaceSlug noErr now (g, c) s = (g, c) := by
        intro s _ c
        have htgt : resolve g ⟨.canonical, ["workspaces", s]⟩ = none := by
          rw [resolve_canonical_eq, htC]
          rfl
        have hmk0 := mkdirS_blocked g [] cf mf hr "workspaces" [s]
        have hmk : mkdirS noErr g ⟨.canonical, ["workspaces", s]⟩ =
            .error () := by simpa using hmk0
        simp [syncWorkspaceSlug, existsL, htgt, hmk]
      have hfold := foldl_id (syncWorkspaceSlug noErr now) g _ hstep 0
      simp [syncWorkspaces, existsL, hs, hrd, Loc.child, hfold]

/-- When the canonical root is a regular file, the whole run is the
identity with count 0: every unit is either skipped or fails its write. -/
theorem migrateCore_rootFile (now : Nat) (g : FS) (cf : String) (mf : Nat)
    (hr : resolve g ⟨.canonical, []⟩ = some (.file cf mf)) :
    migrateCore noErr now g = .ok (g, 0) := by
  have htC : g.canonicalTree = some (.file cf mf) := by
    have h0 := hr
    rw [resolve_root] at h0
    exact h0
  cases hleg : existsL g LEGACY_ROOT with
  | false => simp [migrateCore, hleg]
  | true =>
    have hex : existsL g CONFIG_ROOT = true := by
      simp [existsL, CONFIG_ROOT, hr]
    have hfS : ∀ f : String, fileSynced g [f] [f] := by
      intro f
      unfold fileSynced
      cases hs : resolve g ⟨.legacy, [f]⟩ with
      | none => trivial
      | some sn =>
        have htgt : resolve g ⟨.canonical, [f]⟩ = none := by
          rw [resolve_canonical_eq, htC]
          rfl
        cases sn with
        | dir des =>
          rw [show ([f] : List String).dropLast = [] from rfl, hr]
          rfl
        | file cc mm =>
          rw [htgt, show ([f] : List String).dropLast = [] from rfl]
          exact ⟨cf, mf, hr⟩
    have hFid : topLevelFiles.foldl (topFileStep noErr now) (g, 0) = (g, 0) := by
      refine foldl_id _ g _ ?_ 0
      intro f _ c
      have hst := syncFile_stable now g [f] [f] (by simp) (hfS f)
      simp [topFileStep, hst]
    have hDid : topLevelDirs.foldl (topDirStep noErr now) (g, 0) = (g, 0) := by
      refine foldl_id _ g _ ?_ 0
      intro d _ c
      exact topDirStep_stable now g c d (Or.inr (Or.inr ⟨cf, mf, hr⟩))
    have hW := syncWorkspaces_rootFile now g cf mf hr
    simp [migrateCore, hleg, hex, hFid, hDid, hW]

/-- One full pipeline from a state whose canonical root is a directory:
the three phases settle every top-level file, top-level directory and
workspace unit, and any later workspace pass is the identity. -/
theorem run1_core (now : Nat) (g0 : FS)
    (hwf : optWF g0.legacyTree = true)
    (hmt : optMtimeLE now g0.legacyTree = true)
    (hroot : rootDir g0) :
    ∃ gF cF gD cD gW cW,
      topLevelFiles.foldl (topFileStep noErr now) (g0, 0) = (gF, cF) ∧
      topLevelDirs.foldl (topDirStep noErr now) (gF, cF) = (gD, cD) ∧
      syncWorkspaces noErr now gD = (gW, cW) ∧
      (resolve gW ⟨.canonical, []⟩).isSome = true ∧
      (∀ f ∈ topLevelFiles, fileSynced gW [f] [f]) ∧
      (∀ d ∈ topLevelDirs, topDirSynced gW d) ∧
      ∀ now2, syncWorkspaces noErr now2 gW = (gW, 0) := by
  have hne1 : ∀ f ∈ topLevelFiles, ∀ d ∈ topLevelDirs, f ≠ d := by decide
  have hne2 : ∀ f ∈ topLevelFiles, f ≠ "workspaces" := by decide
  have hrootSome : (resolve g0 ⟨.canonical, []⟩).isSome = true := by
    obtain ⟨res, htree⟩ := hroot
    rw [resolve_root, show g0.tree Side.canonical = g0.canonicalTree from rfl,
      htree]
    rfl
  obtain ⟨gF, cF, hF, hFsync, hFev, hFfr⟩ :=
    topFilesFold_establishes now topLevelFiles (by decide) g0 0 hmt hrootSome
  obtain ⟨gD, cD, hD, hDsync, hDev, hDfr⟩ :=
    topDirsFold_establishes now topLevelDirs (by decide) gF cF
      (isSome_evolves hFev hrootSome)
  have hrootD : rootDir gD := rootDir_evolves hDev (rootDir_evolves hFev hroot)
  obtain ⟨gW, cW, hWeq, hWev, hWfr, hWstable⟩ :=
    syncWorkspaces_establishes now gD
      (by rw [hDev.1, hFev.1]; exact hwf)
      (by rw [hDev.1, hFev.1]; exact hmt) hrootD
  refine ⟨gF, cF, gD, cD, gW, cW, hF, hD, hWeq, ?_, ?_, ?_, hWstable⟩
  · exact isSome_evolves hWev
      (isSome_evolves hDev (isSome_evolves hFev hrootSome))
  · intro f hf
    have h1 : fileSynced gD [f] [f] :=
      fileSynced_preserved [f] [f] (resolve_legacy_congr hDev.1 _) hDev
        (hDfr [f] (fun d hd => Diverge_snoc [] f d (hne1 f hf d hd)))
        (hFsync f hf)
    refine fileSynced_preserved [f] [f] (resolve_legacy_congr hWev.1 _) hWev
      ?_ h1
    exact hWfr [f] (Or.inl (hne2 f hf))
  · intro d hd
    exact topDirSynced_preserved d hWev.1 hWev (hDsync d hd)

/-- On a state with every unit settled, a whole run is the identity with
aggregate count 0. -/
theorem run2_identity (now2 : Nat) (gW : FS)
    (hroot : (resolve gW ⟨.canonical, []⟩).isSome = true)
    (hf : ∀ f ∈ topLevelFiles, fileSynced gW [f] [f])
    (hd : ∀ d ∈ topLevelDirs, topDirSynced gW d)
    (hw : syncWorkspaces noErr now2 gW = (gW, 0)) :
    migrateCore noErr now2 gW = .ok (gW, 0) := by
  cases hleg : existsL gW LEGACY_ROOT with
  | false => simp [migrateCore, hleg]
  | true =>
    have hex : existsL gW CONFIG_ROOT = true := by
      simpa [existsL, CONFIG_ROOT] using hroot
    have hFid : topLevelFiles.foldl (topFileStep noErr now2) (gW, 0) =
        (gW, 0) := by
      refine foldl_id _ gW _ ?_ 0
      intro f hfm c
      have hst := syncFile_stable now2 gW [f] [f] (by simp) (hf f hfm)
      simp [topFileStep, hst]
    have hDid : topLevelDirs.foldl (topDirStep noErr now2) (gW, 0) =
        (gW, 0) := by
      refine foldl_id _ gW _ ?_ 0
      intro d hdm c
      exact topDirStep_stable now2 gW c d (hd d hdm)
    simp [migrateCore, hleg, hex, hFid, hDid, hw]

/-- C1 (amended): idempotence of `migrateFromLegacyConfigDir` holds under
the real-filesystem side conditions the unqualified claim is missing: when
the legacy tree is duplicate-free and none of its file mtimes lies in the
future of the first run's clock (`cpSync` stamps copies with the copy-time
clock, not the source mtime), a second run from the state left by a
successful error-free first run returns that state unchanged with aggregate
change count 0, whatever the second run's clock. -/
theorem migrate_idempotent (now1 now2 : Nat) (fs fs1 : FS) (c1 : Nat)
    (hwf : optWF fs.legacyTree = true)
    (hmt : optMtimeLE now1 fs.legacyTree = true)
    (h1 : migrateCore noErr now1 fs = .ok (fs1, c1)) :
    migrateCore noErr now2 fs1 = .ok (fs1, 0) := by
  cases hleg : existsL fs LEGACY_ROOT with
  | false =>
    have h0 : migrateCore noErr now1 fs = .ok (fs, 0) := by
      simp [migrateCore, hleg]
    rw [h0] at h1
    have hfs : fs = fs1 := by
      have h2 := h1
      simp at h2
      exact h2.1
    subst hfs
    simp [migrateCore, hleg]
  | true =>
    cases hr : resolve fs ⟨.canonical, []⟩ with
    | some rn =>
      cases rn with
      | file cf mf =>
        have h0 := migrateCore_rootFile now1 fs cf mf hr
        rw [h0] at h1
        have hfs : fs = fs1 := by
          have h2 := h1
          simp at h2
          exact h2.1
        subst hfs
        exact migrateCore_rootFile now2 fs cf mf hr
      | dir res =>
        have hex : existsL fs CONFIG_ROOT = true := by
          simp [existsL, CONFIG_ROOT, hr]
        have hrootdir : rootDir fs := by
          refine ⟨res, ?_⟩
          have h0 := hr
          rw [resolve_root] at h0
          exact h0
        obtain ⟨gF, cF, gD, cD, gW, cW, hF, hD, hW, hrootW, hfW, hdW, hWst⟩ :=
          run1_core now1 fs hwf hmt hrootdir
        have h0 : migrateCore noErr now1 fs = .ok (gW, cD + cW) := by
          simp [migrateCore, hleg, hex, hF, hD, hW]
        rw [h0] at h1
        have hfs : gW = fs1 := by
          have h2 := h1
          simp at h2
          exact h2.1
        subst hfs
        exact run2_identity now2 gW hrootW hfW hdW (hWst now2)
    | none =>
      have hex : existsL fs CONFIG_ROOT = false := by
        simp [existsL, CONFIG_ROOT, hr]
      have htreeN : fs.canonicalTree = none := by
        have h0 := hr
        rw [resolve_root] at h0
        exact h0
      have hmk : mkdirS noErr fs CONFIG_ROOT =
          .ok (fs.setTree .canonical (some (.dir []))) := by
        simp [mkdirS, noErr, mkdirp, CONFIG_ROOT,
          show fs.tree Side.canonical = fs.canonicalTree from rfl, htreeN,
          mkDirs]
      obtain ⟨gF, cF, gD, cD, gW, cW, hF, hD, hW, hrootW, hfW, hdW, hWst⟩ :=
        run1_core now1 (fs.setTree .canonical (some (.dir []))) hwf hmt
          ⟨[], rfl⟩
      have h0 : migrateCore noErr now1 fs = .ok (gW, cD + cW) := by
        simp [migrateCore, hleg, hex, hmk, hF, hD, hW]
      rw [h0] at h1
      have hfs : gW = fs1 := by
        have h2 := h1
        simp at h2
        exact h2.1
      subst hfs
      exact run2_identity now2 gW hrootW hfW hdW (hWst now2)

/-- Concrete instance for the amended idempotence theorem: one legacy
config file, no canonical root. -/
def c1iFs : FS := ⟨some (.dir [("config.json", .file "x" 5)]), none⟩

/-- State after the first run (clock 5): the canonical root is created and
the file is copied with the copy-time stamp. -/
def c1iFs1 : FS :=
  ⟨some (.dir [("config.json", .file "x" 5)]),
   some (.dir [("config.json", .file "x" 5)])⟩

theorem migrate_idempotent_witness :
    migrateCore noErr 7 c1iFs1 = .ok (c1iFs1, 0) :=
  migrate_idempotent 5 7 c1iFs c1iFs1 1 (by rfl) (by decide) (by rfl)

end MigrateConfig
